import Mathlib

/-!
Verification of the best-fit allocator of malloc-lab (`src/mm_best_fit.c`).

The file embeds the allocator in Lean: memory is a map from byte addresses to bytes, words
are little-endian and 32 bits wide, pointers and `size_t` values are natural numbers taken
modulo `2^32`, and every word access is checked against the bounds of the heap, so that a
function returns `none` where the C code would leave the heap.  Loops carry fuel.

Part 1 holds the definitions: the source functions, the abstract view of the heap used by
the invariant, the observers used to state the properties, and some concrete heaps.
Part 2 holds the theorems: the invariant kept by every operation, then the properties
`C1`, `C2`, ... of the specification, each with its identifier in its doc comment.
-/

namespace MallocLab

/-! ## Part 1: definitions -/

/-- Modulus of `unsigned int`, `size_t` and pointer arithmetic. -/
def M32 : Nat := 4294967296

/-- Unsigned / pointer addition. -/
def uadd (a b : Nat) : Nat := (a + b) % M32

/-- Unsigned / pointer subtraction. -/
def usub (a b : Nat) : Nat := (a + M32 - b % M32) % M32

/-- Byte memory. -/
abbrev Mem := Nat → Nat

/-- The 32-bit word stored at the four bytes starting at `p`. -/
def getWord (m : Mem) (p : Nat) : Nat :=
  m p % 256 + 256 * (m (p + 1) % 256) + 65536 * (m (p + 2) % 256) + 16777216 * (m (p + 3) % 256)

/-- Store the low 32 bits of `v` in the four bytes starting at `p`. -/
def putWord (m : Mem) (p v : Nat) : Mem := fun a =>
  if a = p then v % 256
  else if a = p + 1 then v / 256 % 256
  else if a = p + 2 then v / 65536 % 256
  else if a = p + 3 then v / 16777216 % 256
  else m a

/-- The memory system (`lo`, `brk`, `max`, `mem`) together with the allocator globals. -/
structure State where
  /-- Heap contents, byte by byte. -/
  mem : Mem
  /-- First heap address. -/
  lo : Nat
  /-- Current end of the heap. -/
  brk : Nat
  /-- Highest address the heap may grow to. -/
  max : Nat
  /-- Global `heap_listp`. -/
  heap_listp : Nat
  /-- Global `free_list`. -/
  free_list : Nat

/-- Modelled from the spec: `mem_sbrk(n)` of the host memory system (`memlib`), which is not
part of the sources: "grow heap by `n` bytes, return old end", or the failure sentinel when the
request is refused.  The request is refused exactly when it would pass the limit `max`.
`none` stands for the sentinel `(void *)-1`. -/
def mem_sbrk (s : State) (incr : Nat) : Option (Nat × State) :=
  if s.brk + incr ≤ s.max then some (s.brk, { s with brk := s.brk + incr }) else none

def WSIZE : Nat := 4

def DSIZE : Nat := 8

def CHUNKSIZE : Nat := 4096

/-- `PACK(size, alloc, prev_alloc) = size | alloc | (prev_alloc << 1)`. -/
def PACK (size alloc prev_alloc : Nat) : Nat := size ||| alloc ||| (prev_alloc <<< 1)

/-- `GET_WORD(p)`: defined only inside the heap. -/
def GET_WORD (s : State) (p : Nat) : Option Nat :=
  if s.lo ≤ p ∧ p + 4 ≤ s.brk then some (getWord s.mem p) else none

/-- `PUT_WORD(p, val)`: defined only inside the heap. -/
def PUT_WORD (s : State) (p val : Nat) : Option State :=
  if s.lo ≤ p ∧ p + 4 ≤ s.brk then some { s with mem := putWord s.mem p val } else none

/-- `GET_SIZE(p) = GET_WORD(p) & ~0x7`. -/
def GET_SIZE (s : State) (p : Nat) : Option Nat :=
  (GET_WORD s p).map fun w => w &&& 0xFFFFFFF8

/-- `GET_ALLOC(p) = GET_WORD(p) & 0x1`. -/
def GET_ALLOC (s : State) (p : Nat) : Option Nat :=
  (GET_WORD s p).map fun w => w &&& 1

/-- `GET_PREV_ALLOC(p) = (GET_WORD(p) & 0x2) >> 1`. -/
def GET_PREV_ALLOC (s : State) (p : Nat) : Option Nat :=
  (GET_WORD s p).map fun w => (w &&& 2) >>> 1

def HDRP (bp : Nat) : Nat := usub bp WSIZE

def FTRP (s : State) (bp : Nat) : Option Nat :=
  (GET_SIZE s (HDRP bp)).map fun sz => usub (uadd bp sz) DSIZE

def PRED (bp : Nat) : Nat := bp

def SUCC (bp : Nat) : Nat := uadd bp WSIZE

def NEXT_BLKP (s : State) (bp : Nat) : Option Nat :=
  (GET_SIZE s (usub bp WSIZE)).map fun sz => uadd bp sz

def PREV_BLKP (s : State) (bp : Nat) : Option Nat :=
  (GET_SIZE s (usub bp DSIZE)).map fun sz => usub bp sz

/-- The relinking step shared by `place` and `coalesce`:
`if (pred != NULL) PUT_WORD(SUCC(pred), a); else free_list = a;`
`if (succ != NULL) PUT_WORD(PRED(succ), b);`. -/
def relink (s : State) (pred succ a b : Nat) : Option State :=
  match (if pred ≠ 0 then PUT_WORD s (SUCC pred) a else some { s with free_list := a }) with
  | none => none
  | some s => if succ ≠ 0 then PUT_WORD s (PRED succ) b else some s

/-- The unlink sequence of `coalesce` for the free block `b`:
`pred = GET_WORD(PRED(b)); succ = GET_WORD(SUCC(b));` followed by the relinking of the
neighbours of `b` in the list. -/
def unlink (s : State) (b : Nat) : Option State :=
  match GET_WORD s (PRED b) with
  | none => none
  | some pred =>
  match GET_WORD s (SUCC b) with
  | none => none
  | some succ => relink s pred succ succ pred

/-- Case 1 of `coalesce`: both neighbours allocated. -/
def coalesce_case1 (s : State) (bp next next_alloc : Nat) : Option (Nat × State) :=
  match GET_SIZE s (HDRP next) with
  | none => none
  | some nsz =>
  match PUT_WORD s (HDRP next) (PACK nsz next_alloc 0) with
  | none => none
  | some s =>
  some (bp, s)

/-- Case 2 of `coalesce`: the next block is free. -/
def coalesce_case2 (s : State) (bp next size : Nat) : Option (Nat × State) :=
  match GET_SIZE s (HDRP next) with
  | none => none
  | some nsz =>
  let size := uadd size nsz
  match PUT_WORD s (HDRP bp) (PACK size 0 1) with
  | none => none
  | some s =>
  match FTRP s bp with
  | none => none
  | some ftr =>
  match PUT_WORD s ftr (PACK size 0 1) with
  | none => none
  | some s =>
  match NEXT_BLKP s bp with
  | none => none
  | some new_next =>
  match GET_SIZE s (HDRP new_next) with
  | none => none
  | some nnsz =>
  match PUT_WORD s (HDRP new_next) (PACK nnsz 1 0) with
  | none => none
  | some s =>
  match unlink s next with
  | none => none
  | some s =>
  some (bp, s)

/-- Case 3 of `coalesce`: the previous block is free. -/
def coalesce_case3 (s : State) (bp prev next next_alloc size : Nat) : Option (Nat × State) :=
  match PREV_BLKP s bp with
  | none => none
  | some p1 =>
  match GET_SIZE s (HDRP p1) with
  | none => none
  | some psz =>
  let size := uadd size psz
  match FTRP s bp with
  | none => none
  | some ftr =>
  match PUT_WORD s ftr (PACK size 0 1) with
  | none => none
  | some s =>
  match PREV_BLKP s bp with
  | none => none
  | some p2 =>
  match PUT_WORD s (HDRP p2) (PACK size 0 1) with
  | none => none
  | some s =>
  match PREV_BLKP s bp with
  | none => none
  | some bp =>
  match GET_SIZE s (HDRP next) with
  | none => none
  | some nsz =>
  match PUT_WORD s (HDRP next) (PACK nsz next_alloc 0) with
  | none => none
  | some s =>
  match unlink s prev with
  | none => none
  | some s =>
  some (bp, s)

/-- Case 4 of `coalesce`: both neighbours free. -/
def coalesce_case4 (s : State) (bp prev next size : Nat) : Option (Nat × State) :=
  match PREV_BLKP s bp with
  | none => none
  | some p1 =>
  match GET_SIZE s (HDRP p1) with
  | none => none
  | some psz =>
  match NEXT_BLKP s bp with
  | none => none
  | some n1 =>
  match FTRP s n1 with
  | none => none
  | some nf =>
  match GET_SIZE s nf with
  | none => none
  | some nsz =>
  let size := uadd size (uadd psz nsz)
  match PREV_BLKP s bp with
  | none => none
  | some p2 =>
  match PUT_WORD s (HDRP p2) (PACK size 0 1) with
  | none => none
  | some s =>
  match NEXT_BLKP s bp with
  | none => none
  | some n2 =>
  match FTRP s n2 with
  | none => none
  | some nf2 =>
  match PUT_WORD s nf2 (PACK size 0 1) with
  | none => none
  | some s =>
  match PREV_BLKP s bp with
  | none => none
  | some bp =>
  match NEXT_BLKP s bp with
  | none => none
  | some new_next =>
  match GET_SIZE s (HDRP new_next) with
  | none => none
  | some nnsz =>
  match PUT_WORD s (HDRP new_next) (PACK nnsz 1 0) with
  | none => none
  | some s =>
  match unlink s next with
  | none => none
  | some s =>
  match unlink s prev with
  | none => none
  | some s =>
  some (bp, s)

/-- `coalesce(bp)`. -/
def coalesce (s : State) (bp : Nat) : Option (Nat × State) :=
  let hdrp := HDRP bp
  match PREV_BLKP s bp with
  | none => none
  | some prev =>
  match NEXT_BLKP s bp with
  | none => none
  | some next =>
  match GET_PREV_ALLOC s hdrp with
  | none => none
  | some prev_alloc =>
  match GET_ALLOC s (HDRP next) with
  | none => none
  | some next_alloc =>
  match GET_SIZE s hdrp with
  | none => none
  | some size =>
  if prev_alloc ≠ 0 ∧ next_alloc ≠ 0 then coalesce_case1 s bp next next_alloc
  else if prev_alloc ≠ 0 ∧ ¬ (next_alloc ≠ 0) then coalesce_case2 s bp next size
  else if ¬ (prev_alloc ≠ 0) ∧ next_alloc ≠ 0 then coalesce_case3 s bp prev next next_alloc size
  else coalesce_case4 s bp prev next size

/-- `extend_heap(words)`; the result pointer `0` is `NULL`. -/
def extend_heap (s : State) (words : Nat) : Option (Nat × State) :=
  let size := if words % 2 ≠ 0 then ((words + 1) * WSIZE) % M32 else (words * WSIZE) % M32
  match mem_sbrk s size with
  | none => some (0, s)
  | some (bp, s) =>
    match GET_PREV_ALLOC s (HDRP bp) with
    | none => none
    | some prev_alloc =>
    match PUT_WORD s (HDRP bp) (PACK size 0 prev_alloc) with
    | none => none
    | some s =>
    match FTRP s bp with
    | none => none
    | some ftr =>
    match PUT_WORD s ftr (PACK size 0 prev_alloc) with
    | none => none
    | some s =>
    match NEXT_BLKP s bp with
    | none => none
    | some next =>
    match PUT_WORD s (HDRP next) (PACK 0 1 0) with
    | none => none
    | some s =>
    coalesce s bp

/-- `mm_init()`: the integer result is `0` on success and `-1` on failure. -/
def mm_init (s : State) : Option (Int × State) :=
  match mem_sbrk s (4 * WSIZE) with
  | none => some (-1, { s with heap_listp := M32 - 1 })
  | some (p, s) =>
    let s := { s with heap_listp := p }
    match PUT_WORD s s.heap_listp 0 with
    | none => none
    | some s =>
    match PUT_WORD s (uadd s.heap_listp (1 * WSIZE)) (PACK DSIZE 1 0) with
    | none => none
    | some s =>
    match PUT_WORD s (uadd s.heap_listp (3 * WSIZE)) (PACK 0 1 1) with
    | none => none
    | some s =>
    let s := { s with heap_listp := uadd s.heap_listp (2 * WSIZE) }
    match extend_heap s (CHUNKSIZE / WSIZE) with
    | none => none
    | some (r, s) =>
    if r = 0 then some (-1, s)
    else
      let s := { s with free_list := uadd s.heap_listp (2 * WSIZE) }
      match PUT_WORD s (PRED s.free_list) 0 with
      | none => none
      | some s =>
      match PUT_WORD s (SUCC s.free_list) 0 with
      | none => none
      | some s =>
      some (0, s)

/-- The loop of `find_fit`, with fuel: `bp` is the loop variable. -/
def find_fit_loop (s : State) (asize : Nat) : Nat → Nat → Nat → Nat → Option Nat
  | 0, _, _, _ => none
  | fuel + 1, bp, best_fit, best_diff =>
    if bp = 0 then some best_fit
    else
      match GET_SIZE s (HDRP bp) with
      | none => none
      | some size =>
      if asize = size then some bp
      else
        let diff := usub size asize
        let better_diff : Nat := if best_diff < diff then 0 else 1
        let best_diff1 := if asize < size then (if better_diff ≠ 0 then diff else best_diff)
                          else best_diff
        let best_fit1 := if asize < size then (if better_diff ≠ 0 then bp else best_fit)
                         else best_fit
        match GET_WORD s (SUCC bp) with
        | none => none
        | some nxt =>
        find_fit_loop s asize fuel nxt best_fit1 best_diff1

/-- `find_fit(asize)`: best fit over the free list.  The fuel exceeds the number of blocks a
heap of this size can hold. -/
def find_fit (s : State) (asize : Nat) : Option Nat :=
  find_fit_loop s asize (s.brk - s.lo) s.free_list 0 (M32 - 1)

/-- `place(bp, asize)`. -/
def place (s : State) (bp asize : Nat) : Option State :=
  let hdrp := HDRP bp
  match GET_WORD s (PRED bp) with
  | none => none
  | some pred =>
  match GET_WORD s (SUCC bp) with
  | none => none
  | some succ =>
  match GET_SIZE s hdrp with
  | none => none
  | some size =>
  let diff := usub size asize
  if diff ≥ 2 * DSIZE then
    match PUT_WORD s hdrp (PACK asize 1 1) with
    | none => none
    | some s =>
    match NEXT_BLKP s bp with
    | none => none
    | some next =>
    match PUT_WORD s (HDRP next) (PACK diff 0 1) with
    | none => none
    | some s =>
    match FTRP s next with
    | none => none
    | some ftr =>
    match PUT_WORD s ftr (PACK diff 0 1) with
    | none => none
    | some s =>
    match PUT_WORD s (SUCC next) succ with
    | none => none
    | some s =>
    match PUT_WORD s (PRED next) pred with
    | none => none
    | some s =>
    relink s pred succ next next
  else
    match PUT_WORD s hdrp (PACK size 1 1) with
    | none => none
    | some s =>
    match NEXT_BLKP s bp with
    | none => none
    | some next =>
    match GET_SIZE s (HDRP next) with
    | none => none
    | some nsz =>
    match PUT_WORD s (HDRP next) (PACK nsz 1 1) with
    | none => none
    | some s =>
    relink s pred succ succ pred

/-- The adjusted block size computed by `mm_malloc` for a request of `size > 0` bytes. -/
def adjust (size : Nat) : Nat :=
  if size ≤ DSIZE then 2 * DSIZE
  else (DSIZE * (((size + WSIZE + (DSIZE - 1)) % M32) / DSIZE)) % M32

/-- LIFO insertion of `bp` at the head of the free list (`mm_malloc`, `mm_free`). -/
def insert_head (s : State) (bp : Nat) : Option State :=
  match (if s.free_list ≠ 0 then PUT_WORD s (PRED s.free_list) bp else some s) with
  | none => none
  | some s =>
    match PUT_WORD s (SUCC bp) s.free_list with
    | none => none
    | some s =>
    match PUT_WORD s (PRED bp) 0 with
    | none => none
    | some s =>
    some { s with free_list := bp }

/-- `mm_malloc(size)`; the result pointer `0` is `NULL`. -/
def mm_malloc (s : State) (size : Nat) : Option (Nat × State) :=
  if size = 0 then some (0, s)
  else
    let asize := adjust size
    match find_fit s asize with
    | none => none
    | some bp =>
    if bp ≠ 0 then
      match place s bp asize with | none => none | some s => some (bp, s)
    else
      let extendsize := Nat.max asize CHUNKSIZE
      match extend_heap s (extendsize / WSIZE) with
      | none => none
      | some (bp, s) =>
      if bp = 0 then some (0, s)
      else
        match insert_head s bp with
        | none => none
        | some s =>
        match place s bp asize with
        | none => none
        | some s =>
        some (bp, s)

/-- `mm_free(ptr)`. -/
def mm_free (s : State) (ptr : Nat) : Option State :=
  let hdrp := HDRP ptr
  match GET_SIZE s hdrp with
  | none => none
  | some size =>
  match GET_PREV_ALLOC s hdrp with
  | none => none
  | some prev_alloc =>
  match PUT_WORD s (HDRP ptr) (PACK size 0 prev_alloc) with
  | none => none
  | some s =>
  match FTRP s ptr with
  | none => none
  | some ftr =>
  match PUT_WORD s ftr (PACK size 0 prev_alloc) with
  | none => none
  | some s =>
  match coalesce s ptr with
  | none => none
  | some (new_ptr, s) =>
  insert_head s new_ptr

/-- `memcpy(dst, src, n)`: both ranges must lie in the heap and must not overlap. -/
def memcpy (s : State) (dst src n : Nat) : Option State :=
  if s.lo ≤ dst ∧ dst + n ≤ s.brk ∧ s.lo ≤ src ∧ src + n ≤ s.brk ∧
      (dst + n ≤ src ∨ src + n ≤ dst) then
    some { s with
      mem := fun a => if dst ≤ a ∧ a < dst + n then s.mem (src + (a - dst)) else s.mem a }
  else none

/-- `mm_realloc(ptr, size)`. -/
def mm_realloc (s : State) (ptr size : Nat) : Option (Nat × State) :=
  match mm_malloc s size with
  | none => none
  | some (newptr, s) =>
  if newptr = 0 then some (0, s)
  else
    match GET_SIZE s (HDRP ptr) with
    | none => none
    | some copySize =>
    let copySize := if size < copySize then size else copySize
    match memcpy s newptr ptr copySize with
    | none => none
    | some s =>
    match mm_free s ptr with
    | none => none
    | some s =>
    some (newptr, s)

/-- An abstract block: its size in bytes (header included) and its allocation status. -/
structure Blk where
  size : Nat
  alloc : Bool
deriving DecidableEq

/-- The header or footer word of a block of size `sz`. -/
def tag (sz : Nat) (al pa : Bool) : Nat := sz + al.toNat + 2 * pa.toNat

/-- Total size of a sequence of blocks. -/
def total : List Blk → Nat
  | [] => 0
  | b :: bs => b.size + total bs

/-- Allocation status of the last block of a sequence that follows a block of status `pa`. -/
def lastAlloc (pa : Bool) : List Blk → Bool
  | [] => pa
  | b :: bs => lastAlloc b.alloc bs

/-- The memory `m` holds the consecutive blocks `bs`, the first header being at address `a`
and the block before it having allocation status `pa`: headers carry size, status and the
status of the predecessor; sizes are multiples of 8 and at least 16; a free block follows an
allocated one and repeats its header in its footer. -/
def Seg (m : Mem) : Nat → Bool → List Blk → Prop
  | _, _, [] => True
  | a, pa, b :: bs =>
    getWord m a = tag b.size b.alloc pa ∧ 16 ≤ b.size ∧ b.size % 8 = 0 ∧
    (b.alloc = false → pa = true ∧ getWord m (a + b.size - 4) = tag b.size false pa) ∧
    Seg m (a + b.size) b.alloc bs

/-- Payload addresses of the free blocks of a sequence whose first header is at `a`. -/
def freeAddrs : Nat → List Blk → List Nat
  | _, [] => []
  | a, b :: bs => if b.alloc then freeAddrs (a + b.size) bs else (a + 4) :: freeAddrs (a + b.size) bs

/-- A doubly linked list segment in memory: starting at `h`, whose first node has predecessor
link `p`, visiting the nodes `l`, and whose last successor link is `t`. -/
def FLseg (m : Mem) : Nat → Nat → List Nat → Nat → Prop
  | _, h, [], t => h = t
  | p, h, b :: l, t => h = b ∧ b ≠ 0 ∧ getWord m b = p ∧ FLseg m b (getWord m (b + 4)) l t

/-- The allocator invariant: the heap between prologue and epilogue is the block sequence `bs`
and the free list enumerates `l`, which lists exactly the free blocks. -/
structure Inv (s : State) (bs : List Blk) (l : List Nat) : Prop where
  brk_max : s.brk ≤ s.max
  max_lt : s.max < M32
  hl : s.heap_listp = s.lo + 8
  prologue : getWord s.mem (s.lo + 4) = tag 8 true false
  seg : Seg s.mem (s.lo + 12) true bs
  size : s.lo + 12 + total bs + 4 = s.brk
  epi : getWord s.mem (s.lo + 12 + total bs) = tag 0 true (lastAlloc true bs)
  fl : FLseg s.mem 0 s.free_list l 0
  nodup : l.Nodup
  mem_iff : ∀ x, x ∈ l ↔ x ∈ freeAddrs (s.lo + 12) bs

/-- The invariant with one free block `r` not (yet) on the free list. -/
structure InvX (s : State) (bs : List Blk) (l : List Nat) (r : Nat) : Prop where
  brk_max : s.brk ≤ s.max
  max_lt : s.max < M32
  hl : s.heap_listp = s.lo + 8
  prologue : getWord s.mem (s.lo + 4) = tag 8 true false
  seg : Seg s.mem (s.lo + 12) true bs
  size : s.lo + 12 + total bs + 4 = s.brk
  epi : getWord s.mem (s.lo + 12 + total bs) = tag 0 true (lastAlloc true bs)
  fl : FLseg s.mem 0 s.free_list l 0
  nodup : l.Nodup
  r_free : r ∈ freeAddrs (s.lo + 12) bs
  mem_iff : ∀ x, x ∈ l ↔ (x ∈ freeAddrs (s.lo + 12) bs ∧ x ≠ r)

/-- The byte `x` lies in the payload of an allocated block of the sequence starting at `a`. -/
def InAlloc : Nat → List Blk → Nat → Prop
  | _, [], _ => False
  | a, b :: bs, x => (b.alloc = true ∧ a + 4 ≤ x ∧ x < a + b.size) ∨ InAlloc (a + b.size) bs x

/-- Sizes are multiples of 8 and at least 16. -/
def Sized (bs : List Blk) : Prop := ∀ b ∈ bs, 16 ≤ b.size ∧ b.size % 8 = 0

/-- Last element of `l`, or `p` when `l` is empty. -/
def lastOr (p : Nat) : List Nat → Nat
  | [] => p
  | b :: l => lastOr b l

/-- Geometry of the nodes of a free list: distinct, 8 bytes apart, inside the heap. -/
structure Geom (s : State) (L : List Nat) : Prop where
  nodup : L.Nodup
  sep : ∀ f ∈ L, ∀ g ∈ L, f ≠ g → f + 8 ≤ g ∨ g + 8 ≤ f
  inb : ∀ f ∈ L, s.lo ≤ f ∧ f + 8 ≤ s.brk
  brk : s.brk < 4294967296

/-- The state `s` has the heap bounds and `heap_listp` of `s0`. -/
structure Same (s0 s : State) : Prop where
  lo : s.lo = s0.lo
  brk : s.brk = s0.brk
  max : s.max = s0.max
  hl : s.heap_listp = s0.heap_listp

/-- The block with header at `h` in the sequence starting at `a` is `b`. -/
def IsBlock : Nat → List Blk → Nat → Blk → Prop
  | _, [], _, _ => False
  | a, c :: bs, h, b => (h = a ∧ b = c) ∨ IsBlock (a + c.size) bs h b

/-- The stores of `place` when it splits. -/
def placeSplitMem (m : Mem) (h asize d F : Nat) : Mem :=
  putWord (putWord (putWord (putWord (putWord m h (tag asize true true))
    (h + asize) (tag d false true)) F (tag d false true))
    (h + asize + 8) (getWord m (h + 8))) (h + asize + 4) (getWord m (h + 4))

/-- Size of the first block of a sequence; `0` stands for the epilogue. -/
def headSize : List Blk → Nat
  | [] => 0
  | b :: _ => b.size

/-- Status of the first block of a sequence; the epilogue is allocated. -/
def headAlloc : List Blk → Bool
  | [] => true
  | b :: _ => b.alloc

/-- The heap between prologue and epilogue is the block sequence `bs`. -/
structure TInv (s : State) (bs : List Blk) : Prop where
  brk_max : s.brk ≤ s.max
  max_lt : s.max < M32
  hl : s.heap_listp = s.lo + 8
  prologue : getWord s.mem (s.lo + 4) = tag 8 true false
  seg : Seg s.mem (s.lo + 12) true bs
  size : s.lo + 12 + total bs + 4 = s.brk
  epi : getWord s.mem (s.lo + 12 + total bs) = tag 0 true (lastAlloc true bs)

/-- The memory `m1` differs from `m` in the words at `H`, `F` and `E` only, which hold
`T`, `T` and `N`. -/
def Merged (m m1 : Mem) (H F E T N : Nat) : Prop :=
  getWord m1 H = T ∧ getWord m1 F = T ∧ getWord m1 E = N ∧
  ∀ x, (x < H ∨ H + 4 ≤ x) → (x < F ∨ F + 4 ≤ x) → (x < E ∨ E + 4 ≤ x) → m1 x = m x

/-- The state in which `coalesce` is called: the block of size `sz` between `pre` and `post`
carries free tags but is not on the free list; its neighbours may be free, and the header after
it still carries the old `prev_alloc` bit `x`. -/
structure PreC (s : State) (pre : List Blk) (sz : Nat) (post : List Blk) (l : List Nat)
    (x : Bool) : Prop where
  brk_max : s.brk ≤ s.max
  max_lt : s.max < M32
  hl : s.heap_listp = s.lo + 8
  prologue : getWord s.mem (s.lo + 4) = tag 8 true false
  segpre : Seg s.mem (s.lo + 12) true pre
  hd : getWord s.mem (s.lo + 12 + total pre) = tag sz false (lastAlloc true pre)
  ft : getWord s.mem (s.lo + 12 + total pre + sz - 4) = tag sz false (lastAlloc true pre)
  sz16 : 16 ≤ sz
  sz8 : sz % 8 = 0
  segpost : Seg s.mem (s.lo + 12 + total pre + sz) x post
  size : s.lo + 12 + total pre + sz + total post + 4 = s.brk
  epi : getWord s.mem (s.lo + 12 + total pre + sz + total post) = tag 0 true (lastAlloc x post)
  fl : FLseg s.mem 0 s.free_list l 0
  nodup : l.Nodup
  mem_iff : ∀ y, y ∈ l ↔
    y ∈ freeAddrs (s.lo + 12) pre ++ freeAddrs (s.lo + 12 + total pre + sz) post

/-- The outcome of `coalesce`: the returned block `r`, the new block sequence and the new list. -/
def CoalOut (a0 : Nat) (pre : List Blk) (sz : Nat) (post : List Blk) (l : List Nat)
    (r : Nat) (bs1 : List Blk) (l1 : List Nat) : Prop :=
  (lastAlloc true pre = true ∧ headAlloc post = true ∧ r = a0 + total pre + 4 ∧
    bs1 = pre ++ ⟨sz, false⟩ :: post ∧ l1 = l) ∨
  (lastAlloc true pre = true ∧ ∃ nsz post1, post = ⟨nsz, false⟩ :: post1 ∧
    r = a0 + total pre + 4 ∧ bs1 = pre ++ ⟨sz + nsz, false⟩ :: post1 ∧
    l1 = l.erase (a0 + total pre + sz + 4)) ∨
  (headAlloc post = true ∧ ∃ pre1 psz, pre = pre1 ++ [⟨psz, false⟩] ∧
    r = a0 + total pre1 + 4 ∧ bs1 = pre1 ++ ⟨sz + psz, false⟩ :: post ∧
    l1 = l.erase (a0 + total pre1 + 4)) ∨
  (∃ pre1 psz nsz post1, pre = pre1 ++ [⟨psz, false⟩] ∧ post = ⟨nsz, false⟩ :: post1 ∧
    r = a0 + total pre1 + 4 ∧ bs1 = pre1 ++ ⟨sz + (psz + nsz), false⟩ :: post1 ∧
    l1 = (l.erase (a0 + total pre + sz + 4)).erase (a0 + total pre1 + 4))

/-- Size field of the header of the block with payload address `f`. -/
def sizeOf (m : Mem) (f : Nat) : Nat := getWord m (f - 4) &&& 0xFFFFFFF8

/-- The loop of `find_fit` on the list of the (address, size) pairs of the free list. -/
def bestFit (asize : Nat) : List (Nat × Nat) → Nat → Nat → Nat
  | [], best_fit, _ => best_fit
  | (bp, size) :: rest, best_fit, best_diff =>
    if asize = size then bp
    else
      let diff := usub size asize
      let better_diff : Nat := if best_diff < diff then 0 else 1
      bestFit asize rest
        (if asize < size then (if better_diff ≠ 0 then bp else best_fit) else best_fit)
        (if asize < size then (if better_diff ≠ 0 then diff else best_diff) else best_diff)

/-- The size by which `mm_malloc` extends the heap when nothing fits. -/
def extendsize (n : Nat) : Nat := Nat.max (adjust n) CHUNKSIZE

/-- A store of the byte `v` at address `x` by the client of the allocator. -/
def store (s : State) (x v : Nat) : State :=
  { s with mem := fun a => if a = x then v % 256 else s.mem a }

/-- Every outstanding pointer `(p, n)` is the payload of an allocated block with room for
`n` bytes. -/
def LiveOK (s : State) (bs : List Blk) (live : List (Nat × Nat)) : Prop :=
  ∀ e ∈ live, 4 ≤ e.1 ∧ ∃ k, IsBlock (s.lo + 12) bs (e.1 - 4) ⟨k, true⟩ ∧ e.2 + 4 ≤ k

/-- The states reached by a successful `mm_init` on a fresh heap followed by valid calls, with
the list of outstanding allocations `(pointer, requested size)`.  A valid call is a `mm_malloc`
or `mm_realloc` whose size does not wrap around in the size adjustment, a `mm_free` or
`mm_realloc` of an outstanding pointer, or a store of the client inside an outstanding
allocation. -/
inductive Reachable : State → List (Nat × Nat) → Prop
  | init {s0 s : State} : s0.brk = s0.lo → s0.max < M32 → mm_init s0 = some (0, s) →
      Reachable s []
  | malloc {s s1 : State} {live : List (Nat × Nat)} {n p : Nat} : Reachable s live →
      n + 11 < M32 → mm_malloc s n = some (p, s1) →
      Reachable s1 (if p = 0 then live else (p, n) :: live)
  | free {s s1 : State} {live : List (Nat × Nat)} {p n : Nat} : Reachable s live →
      (p, n) ∈ live → mm_free s p = some s1 →
      Reachable s1 (live.filter fun e => e.1 ≠ p)
  | realloc {s s1 : State} {live : List (Nat × Nat)} {p n m q : Nat} : Reachable s live →
      (p, n) ∈ live → m + 11 < M32 → mm_realloc s p m = some (q, s1) →
      Reachable s1 (if q = 0 then live else (q, m) :: live.filter fun e => e.1 ≠ p)
  | store {s : State} {live : List (Nat × Nat)} {p n x : Nat} (v : Nat) : Reachable s live →
      (p, n) ∈ live → p ≤ x → x < p + n → Reachable (store s x v) live

/-- Header words met when walking by header sizes from the header at `h`, up to and including
the first header of size 0; each entry is the header address with the word found there. -/
def walk (s : State) : Nat → Nat → Option (List (Nat × Nat))
  | 0, _ => none
  | fuel + 1, h =>
    match GET_WORD s h with
    | none => none
    | some w =>
    if w &&& 0xFFFFFFF8 = 0 then some [(h, w)]
    else
      match walk s fuel (uadd h (w &&& 0xFFFFFFF8)) with
      | none => none
      | some r => some ((h, w) :: r)

/-- The walk of the whole heap, from the prologue header to the epilogue header. -/
def heapWalk (s : State) : Option (List (Nat × Nat)) :=
  walk s (s.brk - s.lo) (HDRP s.heap_listp)

/-- The blocks met when following the `SUCC` links from `bp` until `NULL`. -/
def flWalk (s : State) : Nat → Nat → Option (List Nat)
  | 0, _ => none
  | fuel + 1, bp =>
    if bp = 0 then some []
    else
      match GET_WORD s (SUCC bp) with
      | none => none
      | some nxt =>
      match flWalk s fuel nxt with
      | none => none
      | some r => some (bp :: r)

/-- The free list in `SUCC` order from `free_list`. -/
def freeList (s : State) : Option (List Nat) := flWalk s (s.brk - s.lo) s.free_list

/-- The blocks met when following the `PRED` links from `bp` until `NULL`. -/
def predWalk (s : State) : Nat → Nat → Option (List Nat)
  | 0, _ => none
  | fuel + 1, bp =>
    if bp = 0 then some []
    else
      match GET_WORD s (PRED bp) with
      | none => none
      | some prv =>
      match predWalk s fuel prv with
      | none => none
      | some r => some (bp :: r)

/-- The header words of the block sequence `bs` whose first header is at `a`. -/
def hdrs : Nat → Bool → List Blk → List (Nat × Nat)
  | _, _, [] => []
  | a, pa, b :: bs => (a, tag b.size b.alloc pa) :: hdrs (a + b.size) b.alloc bs

/-- A well-formed free list: the `SUCC` links from `free_list` visit the blocks `l`, each
once, and end at `NULL`; the `PRED` links mirror them; every block lies in the heap, which
holds at least the sentinel words. -/
structure WellFormed (s : State) (l : List Nat) : Prop where
  fl : FLseg s.mem 0 s.free_list l 0
  nodup : l.Nodup
  inb : ∀ f ∈ l, s.lo + 4 ≤ f ∧ f + 8 ≤ s.brk
  heap : s.lo + 16 ≤ s.brk
  brk : s.brk < 4294967296

/-- Size of the block right below the block with payload `p` when the header of `p` says that
it is free (read from its footer), else 0. -/
def prevFreeSize (s : State) (p : Nat) : Nat :=
  if (getWord s.mem (p - 4) &&& 2) >>> 1 = 0 then getWord s.mem (p - 8) &&& 0xFFFFFFF8 else 0

/-- Size of the block right above the block with payload `p` when its header says that it is
free, else 0. -/
def nextFreeSize (s : State) (p : Nat) : Nat :=
  if getWord s.mem (p - 4 + sizeOf s.mem p) &&& 1 = 0 then
    getWord s.mem (p - 4 + sizeOf s.mem p) &&& 0xFFFFFFF8
  else 0

/-- A fresh heap at address 8 with room for 100000 bytes, holding zeros. -/
def heap0 : State := ⟨fun _ => 0, 8, 8, 100008, 0, 0⟩

/-- A fresh heap at address 8 whose bytes all hold 255. -/
def heapFF : State := ⟨fun _ => 255, 8, 8, 100008, 0, 0⟩

/-- A fresh heap at address 8 with room for the sentinels and one chunk only. -/
def heapSmall : State := ⟨fun _ => 0, 8, 8, 4120, 0, 0⟩

/-- The state after `mm_init` (the state itself when `mm_init` faults). -/
def afterInit (s : State) : State :=
  match mm_init s with
  | some (_, s1) => s1
  | none => s

/-- The state after `mm_malloc(n)`. -/
def afterMalloc (s : State) (n : Nat) : State :=
  match mm_malloc s n with
  | some (_, s1) => s1
  | none => s

/-- The state after `mm_free(p)`. -/
def afterFree (s : State) (p : Nat) : State :=
  match mm_free s p with
  | some s1 => s1
  | none => s

/-- The heap right after initialisation. -/
def sInit : State := afterInit heap0

/-- One allocation of one byte, at 24. -/
def sOne : State := afterMalloc sInit 1

/-- Four allocations at 24, 72, 88 and 136 (of 40, 8, 40 and 8 bytes). -/
def sFour : State := afterMalloc (afterMalloc (afterMalloc (afterMalloc sInit 40) 8) 40) 8

/-- The block at 24 freed: the free list is 24, 152. -/
def sFive : State := afterFree sFour 24

/-- The block at 88 freed as well: the free list is 88, 24, 152. -/
def sSix : State := afterFree sFive 88

/-- Round up to the next multiple of 8, as the specification words it. -/
def round_up_to_8 (x : Nat) : Nat := (x + 7) / 8 * 8

/-- The adjusted size as the specification words it: `max(16, round_up_to_8(n + 4))`. -/
def asize_spec (n : Nat) : Nat := max 16 (round_up_to_8 (n + 4))

/-- The block whose header word before the call is `x = (address, word)` is kept by a call
leading from `s` to `s1`: its payload bytes are the same, its header has the same size and
`alloc` fields, and its header word is the same unless the header is at `nb`. -/
def Kept (s s1 : State) (x : Nat × Nat) (nb : Nat) : Prop :=
  (∀ y, x.1 + 4 ≤ y → y < x.1 + (x.2 &&& 0xFFFFFFF8) → s1.mem y = s.mem y) ∧
  getWord s1.mem x.1 &&& 0xFFFFFFF8 = x.2 &&& 0xFFFFFFF8 ∧
  getWord s1.mem x.1 &&& 1 = x.2 &&& 1 ∧
  (x.1 ≠ nb → getWord s1.mem x.1 = x.2)

set_option maxRecDepth 100000

theorem M32_eq : M32 = 4294967296 := rfl

theorem uadd_eq {a b : Nat} (h : a + b < 4294967296) : uadd a b = a + b := by
  unfold uadd M32; exact Nat.mod_eq_of_lt h

theorem usub_eq {a b : Nat} (h : b ≤ a) (ha : a < 4294967296) : usub a b = a - b := by
  unfold usub M32; omega

theorem and_mask_eq (w : Nat) (h : w < 4294967296) : w &&& 0xFFFFFFF8 = w - w % 8 := by
  have e1 : (0xFFFFFFF8 : Nat) = (2 ^ 29 - 1) <<< 3 := by decide
  have e2 : w - w % 8 = (w >>> 3) <<< 3 := by
    rw [Nat.shiftRight_eq_div_pow, Nat.shiftLeft_eq]; omega
  rw [e1, e2]
  apply Nat.eq_of_testBit_eq
  intro i
  simp only [Nat.testBit_and, Nat.testBit_shiftLeft, Nat.testBit_shiftRight,
    Nat.testBit_two_pow_sub_one]
  by_cases h3 : 3 ≤ i
  · by_cases h32 : i < 32
    · have : i - 3 < 29 := by omega
      have e : 3 + (i - 3) = i := by omega
      simp [h3, this, e]
    · have hw : w.testBit i = false := by
        apply Nat.testBit_lt_two_pow
        calc w < 2 ^ 32 := h
          _ ≤ 2 ^ i := Nat.pow_le_pow_right (by decide) (by omega)
      have e : 3 + (i - 3) = i := by omega
      simp [h3, e, hw]
  · simp [h3]

theorem and_one_eq (w : Nat) : w &&& 1 = w % 2 := Nat.and_one_is_mod w

theorem and_two_shift (w : Nat) : (w &&& 2) >>> 1 = w / 2 % 2 := by
  apply Nat.eq_of_testBit_eq
  intro i
  have e2 : (2 : Nat) = 2 ^ 1 := rfl
  rw [Nat.testBit_shiftRight, Nat.testBit_and]
  rw [show w / 2 % 2 = (w >>> 1) % 2 ^ 1 from by rw [Nat.shiftRight_eq_div_pow]; rfl]
  rw [Nat.testBit_mod_two_pow, Nat.testBit_shiftRight]
  conv_lhs => rw [e2, Nat.testBit_two_pow]
  by_cases hi : i = 0
  · subst hi; simp
  · have : ¬ (i < 1) := by omega
    have h2 : ¬ (1 = 1 + i) := by omega
    simp [this, h2]

theorem PACK_eq (sz a p : Nat) (h : sz % 8 = 0) (ha : a < 2) (hp : p < 2) :
    PACK sz a p = sz + a + 2 * p := by
  unfold PACK
  have hf : a ||| (p <<< 1) = a + 2 * p := by
    interval_cases a <;> interval_cases p <;> rfl
  have hlt : a + 2 * p < 2 ^ 3 := by omega
  obtain ⟨k, rfl⟩ : ∃ k, sz = 2 ^ 3 * k := ⟨sz / 8, by omega⟩
  rw [Nat.lor_assoc, hf, Nat.add_assoc]
  exact (Nat.mul_add_lt_is_or hlt k).symm

theorem getWord_lt (m : Mem) (p : Nat) : getWord m p < 4294967296 := by
  unfold getWord; omega

theorem getWord_putWord_same (m : Mem) (p v : Nat) :
    getWord (putWord m p v) p = v % 4294967296 := by
  unfold getWord putWord
  simp only [if_true, Nat.add_right_eq_self, OfNat.ofNat_ne_zero, if_false,
    add_right_inj, OfNat.ofNat_eq_ofNat, Nat.reduceEqDiff]
  omega

theorem putWord_other (m : Mem) (p v x : Nat) (h : x < p ∨ p + 4 ≤ x) :
    putWord m p v x = m x := by
  unfold putWord
  have h0 : x ≠ p := by omega
  have h1 : x ≠ p + 1 := by omega
  have h2 : x ≠ p + 2 := by omega
  have h3 : x ≠ p + 3 := by omega
  simp [h0, h1, h2, h3]

theorem getWord_congr {m m1 : Mem} {p : Nat} (h : ∀ x, p ≤ x → x < p + 4 → m1 x = m x) :
    getWord m1 p = getWord m p := by
  unfold getWord
  rw [h p (by omega) (by omega), h (p + 1) (by omega) (by omega),
    h (p + 2) (by omega) (by omega), h (p + 3) (by omega) (by omega)]

theorem getWord_putWord_other (m : Mem) (p v q : Nat) (h : q + 4 ≤ p ∨ p + 4 ≤ q) :
    getWord (putWord m p v) q = getWord m q :=
  getWord_congr fun x h1 h2 => putWord_other m p v x (by omega)

theorem total_append (xs ys : List Blk) : total (xs ++ ys) = total xs + total ys := by
  induction xs with
  | nil => simp [total]
  | cons b xs ih => simp [total, ih, Nat.add_assoc]

theorem lastAlloc_append (pa : Bool) (xs ys : List Blk) :
    lastAlloc pa (xs ++ ys) = lastAlloc (lastAlloc pa xs) ys := by
  induction xs generalizing pa with
  | nil => rfl
  | cons b xs ih => simp [lastAlloc, ih]

theorem freeAddrs_append (a : Nat) (xs ys : List Blk) :
    freeAddrs a (xs ++ ys) = freeAddrs a xs ++ freeAddrs (a + total xs) ys := by
  induction xs generalizing a with
  | nil => simp [freeAddrs, total]
  | cons b xs ih =>
    cases hb : b.alloc <;> simp [freeAddrs, total, ih, hb, Nat.add_assoc]

theorem Seg_cons {m : Mem} {a : Nat} {pa : Bool} {b : Blk} {bs : List Blk} :
    Seg m a pa (b :: bs) ↔
      (getWord m a = tag b.size b.alloc pa ∧ 16 ≤ b.size ∧ b.size % 8 = 0 ∧
      (b.alloc = false → pa = true ∧ getWord m (a + b.size - 4) = tag b.size false pa) ∧
      Seg m (a + b.size) b.alloc bs) := Iff.rfl

theorem Seg_append (m : Mem) (a : Nat) (pa : Bool) (xs ys : List Blk) :
    Seg m a pa (xs ++ ys) ↔ Seg m a pa xs ∧ Seg m (a + total xs) (lastAlloc pa xs) ys := by
  induction xs generalizing a pa with
  | nil => simp [Seg, total, lastAlloc]
  | cons b xs ih =>
    simp only [List.cons_append, Seg_cons, ih, total, lastAlloc, Nat.add_assoc]
    tauto

theorem Sized_nil : Sized [] := by intro b hb; cases hb

theorem Sized_cons {b : Blk} {bs : List Blk} :
    Sized (b :: bs) ↔ (16 ≤ b.size ∧ b.size % 8 = 0) ∧ Sized bs := by
  simp [Sized]

theorem Sized_append {xs ys : List Blk} : Sized (xs ++ ys) ↔ Sized xs ∧ Sized ys := by
  simp only [Sized, List.mem_append]
  constructor
  · intro h; exact ⟨fun b hb => h b (Or.inl hb), fun b hb => h b (Or.inr hb)⟩
  · rintro ⟨h1, h2⟩ b (hb | hb)
    · exact h1 b hb
    · exact h2 b hb

theorem Seg.sized {m : Mem} {a : Nat} {pa : Bool} {bs : List Blk} (h : Seg m a pa bs) :
    Sized bs := by
  induction bs generalizing a pa with
  | nil => exact Sized_nil
  | cons b bs ih =>
    obtain ⟨_, h1, h2, _, h4⟩ := h
    exact Sized_cons.2 ⟨⟨h1, h2⟩, ih h4⟩

theorem total_mod {bs : List Blk} (h : Sized bs) : total bs % 8 = 0 := by
  induction bs with
  | nil => rfl
  | cons b bs ih =>
    obtain ⟨⟨_, h2⟩, h3⟩ := Sized_cons.1 h
    have := ih h3
    simp only [total]; omega

theorem total_ge_length {bs : List Blk} (h : Sized bs) : 16 * bs.length ≤ total bs := by
  induction bs with
  | nil => simp [total]
  | cons b bs ih =>
    obtain ⟨⟨h1, _⟩, h3⟩ := Sized_cons.1 h
    have := ih h3
    simp only [total, List.length_cons]; omega

theorem freeAddrs_range {bs : List Blk} (h : Sized bs) {a f : Nat}
    (hf : f ∈ freeAddrs a bs) : a + 4 ≤ f ∧ f + 12 ≤ a + total bs ∧ f % 8 = (a + 4) % 8 := by
  induction bs generalizing a with
  | nil => cases hf
  | cons b bs ih =>
    obtain ⟨⟨h1, h2⟩, h3⟩ := Sized_cons.1 h
    have ht := total_mod h3
    simp only [freeAddrs] at hf
    simp only [total]
    split at hf
    · have := ih h3 hf; omega
    · rcases List.mem_cons.1 hf with rfl | hf
      · omega
      · have := ih h3 hf; omega

theorem freeAddrs_length (a : Nat) (bs : List Blk) : (freeAddrs a bs).length ≤ bs.length := by
  induction bs generalizing a with
  | nil => simp [freeAddrs]
  | cons b bs ih =>
    simp only [freeAddrs]
    split
    · have := ih (a + b.size); simp only [List.length_cons]; omega
    · have := ih (a + b.size); simp only [List.length_cons]; omega

theorem freeAddrs_nodup {bs : List Blk} (h : Sized bs) (a : Nat) : (freeAddrs a bs).Nodup := by
  induction bs generalizing a with
  | nil => simp [freeAddrs]
  | cons b bs ih =>
    obtain ⟨⟨h1, h2⟩, h3⟩ := Sized_cons.1 h
    simp only [freeAddrs]
    split
    · exact ih h3 _
    · refine List.nodup_cons.2 ⟨fun hm => ?_, ih h3 _⟩
      have := freeAddrs_range h3 hm
      omega

theorem freeAddrs_sep {bs : List Blk} (h : Sized bs) {a f g : Nat}
    (hf : f ∈ freeAddrs a bs) (hg : g ∈ freeAddrs a bs) (hne : f ≠ g) :
    f + 16 ≤ g ∨ g + 16 ≤ f := by
  induction bs generalizing a with
  | nil => cases hf
  | cons b bs ih =>
    obtain ⟨⟨h1, h2⟩, h3⟩ := Sized_cons.1 h
    simp only [freeAddrs] at hf hg
    split at hf
    · rename_i hb
      rw [if_pos hb] at hg
      exact ih h3 hf hg
    · rename_i hb
      rw [if_neg hb] at hg
      rcases List.mem_cons.1 hf with rfl | hf <;> rcases List.mem_cons.1 hg with rfl | hg
      · exact absurd rfl hne
      · have := freeAddrs_range h3 hg; omega
      · have := freeAddrs_range h3 hf; omega
      · exact ih h3 hf hg

/-- Membership in `freeAddrs` exhibits the block. -/
theorem mem_freeAddrs_iff {a f : Nat} {bs : List Blk} :
    f ∈ freeAddrs a bs ↔ ∃ pre sz post, bs = pre ++ ⟨sz, false⟩ :: post ∧ f = a + total pre + 4 := by
  induction bs generalizing a with
  | nil => simp [freeAddrs]
  | cons b bs ih =>
    constructor
    · intro hf
      simp only [freeAddrs] at hf
      split at hf
      · obtain ⟨pre, sz, post, rfl, rfl⟩ := ih.1 hf
        exact ⟨b :: pre, sz, post, rfl, by simp [total, Nat.add_assoc]⟩
      · rename_i hb
        rcases List.mem_cons.1 hf with rfl | hf
        · refine ⟨[], b.size, bs, ?_, by simp [total]⟩
          cases b; simp at hb; simp [hb]
        · obtain ⟨pre, sz, post, rfl, rfl⟩ := ih.1 hf
          exact ⟨b :: pre, sz, post, rfl, by simp [total, Nat.add_assoc]⟩
    · rintro ⟨pre, sz, post, h, rfl⟩
      rw [h, freeAddrs_append]
      simp [freeAddrs]

/-- Memory that changes only outside of the tags of a block sequence still holds it: a byte of the
range may change only inside the link words of a free block. -/
theorem Seg_frame {m m1 : Mem} {a : Nat} {pa : Bool} {bs : List Blk} (h : Seg m a pa bs)
    (hm : ∀ x, a ≤ x → x < a + total bs → (∀ f ∈ freeAddrs a bs, x < f ∨ f + 8 ≤ x) → m1 x = m x) :
    Seg m1 a pa bs := by
  induction bs generalizing a pa with
  | nil => trivial
  | cons b bs ih =>
    obtain ⟨h0, h1, h2, h3, h4⟩ := h
    have hs := h4.sized
    simp only [total] at hm
    refine ⟨?_, h1, h2, ?_, ?_⟩
    · rw [← h0]
      apply getWord_congr
      intro x hx1 hx2
      apply hm x hx1 (by omega)
      intro f hf
      simp only [freeAddrs] at hf
      split at hf
      · have := freeAddrs_range hs hf; omega
      · rcases List.mem_cons.1 hf with rfl | hf
        · omega
        · have := freeAddrs_range hs hf; omega
    · intro hb
      obtain ⟨e1, e2⟩ := h3 hb
      refine ⟨e1, ?_⟩
      rw [← e2]
      apply getWord_congr
      intro x hx1 hx2
      apply hm x (by omega) (by omega)
      intro f hf
      simp only [freeAddrs, hb] at hf
      rcases List.mem_cons.1 hf with rfl | hf
      · omega
      · have := freeAddrs_range hs hf; omega
    · apply ih h4
      intro x hx1 hx2 hx3
      apply hm x (by omega) (by omega)
      intro f hf
      simp only [freeAddrs] at hf
      split at hf
      · exact hx3 f hf
      · rcases List.mem_cons.1 hf with rfl | hf
        · omega
        · exact hx3 f hf

/-- Range form of the frame property. -/
theorem Seg_frame_range {m m1 : Mem} {a : Nat} {pa : Bool} {bs : List Blk} (h : Seg m a pa bs)
    (hm : ∀ x, a ≤ x → x < a + total bs → m1 x = m x) : Seg m1 a pa bs :=
  Seg_frame h fun x h1 h2 _ => hm x h1 h2

theorem GET_WORD_eq {s : State} {p : Nat} (h1 : s.lo ≤ p) (h2 : p + 4 ≤ s.brk) :
    GET_WORD s p = some (getWord s.mem p) := by
  unfold GET_WORD; rw [if_pos ⟨h1, h2⟩]

theorem PUT_WORD_eq {s : State} {p : Nat} (v : Nat) (h1 : s.lo ≤ p) (h2 : p + 4 ≤ s.brk) :
    PUT_WORD s p v = some { s with mem := putWord s.mem p v } := by
  unfold PUT_WORD; rw [if_pos ⟨h1, h2⟩]

theorem lastOr_mem {p : Nat} {l : List Nat} (h : l ≠ []) : lastOr p l ∈ l := by
  induction l generalizing p with
  | nil => exact absurd rfl h
  | cons b l ih =>
    cases l with
    | nil => simp [lastOr]
    | cons c l => exact List.mem_cons_of_mem _ (ih (p := b) (by simp))

theorem lastOr_append (p : Nat) (l1 l2 : List Nat) :
    lastOr p (l1 ++ l2) = lastOr (lastOr p l1) l2 := by
  induction l1 generalizing p with
  | nil => rfl
  | cons b l ih => simp [lastOr, ih]

theorem FLseg_cons {m : Mem} {p h b t : Nat} {l : List Nat} :
    FLseg m p h (b :: l) t ↔
      (h = b ∧ b ≠ 0 ∧ getWord m b = p ∧ FLseg m b (getWord m (b + 4)) l t) := Iff.rfl

theorem FLseg_nil {m : Mem} {p h t : Nat} : FLseg m p h [] t ↔ h = t := Iff.rfl

theorem FLseg_ne_zero {m : Mem} {p h t : Nat} {l : List Nat} (hl : FLseg m p h l t) :
    ∀ b ∈ l, b ≠ 0 := by
  induction l generalizing p h with
  | nil => intro b hb; cases hb
  | cons c l ih =>
    obtain ⟨_, h2, _, h4⟩ := hl
    intro b hb
    rcases List.mem_cons.1 hb with rfl | hb
    · exact h2
    · exact ih h4 b hb

theorem FLseg_head {m : Mem} {p h t : Nat} {l : List Nat} (hl : FLseg m p h l t) :
    h = l.headD t := by
  cases l with
  | nil => exact hl
  | cons c l => exact hl.1

theorem FLseg_congr {m m1 : Mem} {p h t : Nat} {l : List Nat} (hl : FLseg m p h l t)
    (hm : ∀ b ∈ l, getWord m1 b = getWord m b ∧ getWord m1 (b + 4) = getWord m (b + 4)) :
    FLseg m1 p h l t := by
  induction l generalizing p h with
  | nil => exact hl
  | cons c l ih =>
    obtain ⟨h1, h2, h3, h4⟩ := hl
    have hc := hm c (List.mem_cons_self _ _)
    refine ⟨h1, h2, by rw [hc.1]; exact h3, ?_⟩
    rw [hc.2]
    exact ih h4 fun b hb => hm b (List.mem_cons_of_mem _ hb)

theorem FLseg_frame {m m1 : Mem} {p h t : Nat} {l : List Nat} (hl : FLseg m p h l t)
    (hm : ∀ b ∈ l, ∀ x, b ≤ x → x < b + 8 → m1 x = m x) : FLseg m1 p h l t :=
  FLseg_congr hl fun b hb =>
    ⟨getWord_congr fun x h1 h2 => hm b hb x h1 (by omega),
     getWord_congr fun x h1 h2 => hm b hb x (by omega) (by omega)⟩

theorem FLseg_append {m : Mem} {p h t : Nat} {l1 l2 : List Nat} :
    FLseg m p h (l1 ++ l2) t ↔ ∃ t1, FLseg m p h l1 t1 ∧ FLseg m (lastOr p l1) t1 l2 t := by
  induction l1 generalizing p h with
  | nil => simp [FLseg_nil, lastOr]
  | cons c l ih =>
    simp only [List.cons_append, FLseg_cons, ih, lastOr]
    constructor
    · rintro ⟨h1, h2, h3, t1, h4, h5⟩; exact ⟨t1, ⟨h1, h2, h3, h4⟩, h5⟩
    · rintro ⟨t1, ⟨h1, h2, h3, h4⟩, h5⟩; exact ⟨h1, h2, h3, t1, h4, h5⟩

theorem FLseg_setTail {m m1 : Mem} {p h t t1 : Nat} {l : List Nat} (hl : FLseg m p h l t)
    (hne : l ≠ []) (hnd : l.Nodup)
    (h1 : getWord m1 (lastOr p l + 4) = t1)
    (h2 : ∀ b ∈ l, getWord m1 b = getWord m b)
    (h3 : ∀ b ∈ l, b ≠ lastOr p l → getWord m1 (b + 4) = getWord m (b + 4)) :
    FLseg m1 p h l t1 := by
  induction l generalizing p h with
  | nil => exact absurd rfl hne
  | cons c l ih =>
    obtain ⟨e1, e2, e3, e4⟩ := hl
    cases l with
    | nil =>
      refine ⟨e1, e2, by rw [h2 c (List.mem_cons_self _ _)]; exact e3, ?_⟩
      simpa [lastOr, FLseg_nil] using h1
    | cons d l =>
      have hnd1 := List.nodup_cons.1 hnd
      have hlast : lastOr p (c :: d :: l) = lastOr c (d :: l) := rfl
      have hmem : lastOr c (d :: l) ∈ d :: l := lastOr_mem (by simp)
      have hc : c ≠ lastOr p (c :: d :: l) := by
        rw [hlast]; intro hh; exact hnd1.1 (hh ▸ hmem)
      refine ⟨e1, e2, by rw [h2 c (List.mem_cons_self _ _)]; exact e3, ?_⟩
      rw [h3 c (List.mem_cons_self _ _) hc]
      exact ih e4 (by simp) hnd1.2 (by rw [← hlast]; exact h1)
        (fun b hb => h2 b (List.mem_cons_of_mem _ hb))
        (fun b hb hne => h3 b (List.mem_cons_of_mem _ hb) (by rw [hlast]; exact hne))

theorem FLseg_setPrev {m m1 : Mem} {p p1 h t : Nat} {l : List Nat} (hl : FLseg m p h l t)
    (hnd : l.Nodup)
    (h1 : l ≠ [] → getWord m1 h = p1)
    (h2 : ∀ b ∈ l, getWord m1 (b + 4) = getWord m (b + 4))
    (h3 : ∀ b ∈ l, b ≠ h → getWord m1 b = getWord m b) :
    FLseg m1 p1 h l t := by
  cases l with
  | nil => exact hl
  | cons c l =>
    obtain ⟨e1, e2, e3, e4⟩ := hl
    have hnd1 := List.nodup_cons.1 hnd
    refine ⟨e1, e2, by rw [← e1]; exact h1 (by simp), ?_⟩
    rw [h2 c (List.mem_cons_self _ _)]
    refine FLseg_congr e4 fun b hb => ⟨h3 b (List.mem_cons_of_mem _ hb) ?_,
      h2 b (List.mem_cons_of_mem _ hb)⟩
    rw [e1]; intro hh; exact hnd1.1 (hh ▸ hb)

theorem relink_stepA {s : State} {l1 l2 : List Nat} {b a t : Nat}
    (hg : Geom s (l1 ++ b :: l2))
    (hA : FLseg s.mem 0 s.free_list l1 b)
    (hB : FLseg s.mem b t l2 0)
    (ha : a < 4294967296) :
    ∃ s1, (if lastOr 0 l1 ≠ 0 then PUT_WORD s (SUCC (lastOr 0 l1)) a
            else some { s with free_list := a }) = some s1 ∧
      FLseg s1.mem 0 s1.free_list l1 a ∧ FLseg s1.mem b t l2 0 ∧
      (∀ x, (∀ f ∈ l1 ++ l2, x < f ∨ f + 8 ≤ x) → s1.mem x = s.mem x) ∧
      (∀ x, b ≤ x → x < b + 8 → s1.mem x = s.mem x) ∧
      s1.lo = s.lo ∧ s1.brk = s.brk ∧ s1.max = s.max ∧ s1.heap_listp = s.heap_listp := by
  rcases List.eq_nil_or_concat l1 with rfl | ⟨l0, q, hl1⟩
  · refine ⟨{ s with free_list := a }, by simp [lastOr], rfl, hB, fun _ _ => rfl, fun _ _ _ => rfl,
      rfl, rfl, rfl, rfl⟩
  · rw [List.concat_eq_append] at hl1
    subst hl1
    have hq : lastOr 0 (l0 ++ [q]) = q := by rw [lastOr_append]; rfl
    have hqm : q ∈ l0 ++ [q] := by simp
    have hqL : q ∈ (l0 ++ [q]) ++ b :: l2 := List.mem_append_left _ hqm
    have hq0 : q ≠ 0 := FLseg_ne_zero hA q hqm
    have hqb := hg.inb q hqL
    have hbrk := hg.brk
    have hS : SUCC q = q + 4 := by unfold SUCC WSIZE; exact uadd_eq (by omega)
    rw [hq, if_pos hq0, hS, PUT_WORD_eq a (by omega) (by omega)]
    have hnd1 : (l0 ++ [q]).Nodup := (List.nodup_append.1 hg.nodup).1
    have hnd := hg.nodup
    refine ⟨_, rfl, ?_, ?_, ?_, ?_, rfl, rfl, rfl, rfl⟩
    · refine FLseg_setTail hA (by simp) hnd1 ?_ ?_ ?_
      · rw [hq]; show getWord (putWord s.mem (q + 4) a) (q + 4) = a
        rw [getWord_putWord_same]; exact Nat.mod_eq_of_lt ha
      · intro f hf
        show getWord (putWord s.mem (q + 4) a) f = _
        apply getWord_putWord_other
        by_cases hfq : f = q
        · omega
        · have := hg.sep f (List.mem_append_left _ hf) q hqL hfq; omega
      · intro f hf hfq
        rw [hq] at hfq
        show getWord (putWord s.mem (q + 4) a) (f + 4) = _
        apply getWord_putWord_other
        have := hg.sep f (List.mem_append_left _ hf) q hqL hfq; omega
    · refine FLseg_frame hB fun f hf x h1 h2 => ?_
      show putWord s.mem (q + 4) a x = _
      apply putWord_other
      have hfL : f ∈ (l0 ++ [q]) ++ b :: l2 :=
        List.mem_append_right _ (List.mem_cons_of_mem _ hf)
      have hfq : f ≠ q := by
        rintro rfl
        exact (List.nodup_append.1 hnd).2.2 hqm (List.mem_cons_of_mem _ hf)
      have := hg.sep f hfL q hqL hfq; omega
    · intro x hx
      show putWord s.mem (q + 4) a x = _
      apply putWord_other
      have := hx q (List.mem_append_left _ hqm); omega
    · intro x h1 h2
      show putWord s.mem (q + 4) a x = _
      apply putWord_other
      have hbL : b ∈ (l0 ++ [q]) ++ b :: l2 := List.mem_append_right _ (List.mem_cons_self _ _)
      have hbq : b ≠ q := by
        rintro rfl
        exact (List.nodup_append.1 hnd).2.2 hqm (List.mem_cons_self _ _)
      have := hg.sep b hbL q hqL hbq; omega

theorem relink_stepB {s s1 : State} {l1 l2 : List Nat} {b a t c : Nat}
    (hg : Geom s (l1 ++ b :: l2))
    (hs : s1.lo = s.lo ∧ s1.brk = s.brk)
    (hA : FLseg s1.mem 0 s1.free_list l1 a)
    (hB : FLseg s1.mem b t l2 0)
    (hc : c < 4294967296) :
    ∃ s2, (if t ≠ 0 then PUT_WORD s1 (PRED t) c else some s1) = some s2 ∧
      FLseg s2.mem 0 s2.free_list l1 a ∧ FLseg s2.mem c t l2 0 ∧
      (∀ x, (∀ f ∈ l1 ++ l2, x < f ∨ f + 8 ≤ x) → s2.mem x = s1.mem x) ∧
      (∀ x, b ≤ x → x < b + 8 → s2.mem x = s1.mem x) ∧
      s2.lo = s1.lo ∧ s2.brk = s1.brk ∧ s2.max = s1.max ∧ s2.heap_listp = s1.heap_listp := by
  cases l2 with
  | nil =>
    have ht : t = 0 := hB
    subst ht
    exact ⟨s1, by simp, hA, rfl, fun _ _ => rfl, fun _ _ _ => rfl, rfl, rfl, rfl, rfl⟩
  | cons d l2 =>
    obtain ⟨e1, e2, e3, e4⟩ := hB
    subst e1
    have hdL : t ∈ l1 ++ b :: t :: l2 := by simp
    have hdb := hg.inb t hdL
    have hnd := hg.nodup
    rw [if_pos e2, show PRED t = t from rfl, PUT_WORD_eq c (by omega) (by omega)]
    refine ⟨_, rfl, ?_, ?_, ?_, ?_, rfl, rfl, rfl, rfl⟩
    · refine FLseg_frame hA fun f hf x h1 h2 => ?_
      show putWord s1.mem t c x = _
      apply putWord_other
      have hft : f ≠ t := by
        rintro rfl
        exact (List.nodup_append.1 hnd).2.2 hf (by simp)
      have := hg.sep f (List.mem_append_left _ hf) t hdL hft; omega
    · have hnd2 : (t :: l2).Nodup :=
        (List.nodup_cons.1 (List.nodup_append.1 hnd).2.1).2
      refine FLseg_setPrev (m := s1.mem) ⟨rfl, e2, e3, e4⟩ hnd2 ?_ ?_ ?_
      · intro _
        show getWord (putWord s1.mem t c) t = c
        rw [getWord_putWord_same]; exact Nat.mod_eq_of_lt hc
      · intro f hf
        show getWord (putWord s1.mem t c) (f + 4) = _
        apply getWord_putWord_other
        by_cases hft : f = t
        · omega
        · have := hg.sep f (List.mem_append_right _ (List.mem_cons_of_mem _ hf)) t hdL hft
          omega
      · intro f hf hft
        show getWord (putWord s1.mem t c) f = _
        apply getWord_putWord_other
        have := hg.sep f (List.mem_append_right _ (List.mem_cons_of_mem _ hf)) t hdL hft
        omega
    · intro x hx
      show putWord s1.mem t c x = _
      apply putWord_other
      have := hx t (by simp); omega
    · intro x h1 h2
      show putWord s1.mem t c x = _
      apply putWord_other
      have hbL : b ∈ l1 ++ b :: t :: l2 := by simp
      have hbt : b ≠ t := by
        rintro rfl
        exact (List.nodup_cons.1 (List.nodup_append.1 hnd).2.1).1 (by simp)
      have := hg.sep b hbL t hdL hbt; omega

/-- The relinking step on a list `l1 ++ b :: l2`, with the links of `b` as arguments. -/
theorem relink_core {s : State} {l1 l2 : List Nat} {b a c : Nat}
    (hg : Geom s (l1 ++ b :: l2))
    (hfl : FLseg s.mem 0 s.free_list (l1 ++ b :: l2) 0)
    (ha : a < 4294967296) (hc : c < 4294967296) :
    ∃ s2, relink s (getWord s.mem b) (getWord s.mem (b + 4)) a c = some s2 ∧
      FLseg s2.mem 0 s2.free_list l1 a ∧
      FLseg s2.mem c (getWord s.mem (b + 4)) l2 0 ∧
      getWord s.mem b = lastOr 0 l1 ∧
      (∀ x, (∀ f ∈ l1 ++ l2, x < f ∨ f + 8 ≤ x) → s2.mem x = s.mem x) ∧
      (∀ x, b ≤ x → x < b + 8 → s2.mem x = s.mem x) ∧
      s2.lo = s.lo ∧ s2.brk = s.brk ∧ s2.max = s.max ∧ s2.heap_listp = s.heap_listp := by
  obtain ⟨t1, hA, hB⟩ := FLseg_append.1 hfl
  obtain ⟨e1, e2, e3, e4⟩ := hB
  subst e1
  obtain ⟨s1, r1, a1, a2, a3, a4, f1, f2, f3, f4⟩ := relink_stepA hg hA e4 ha
  obtain ⟨s2, r2, b1, b2, b3, b4, g1, g2, g3, g4⟩ :=
    relink_stepB (c := c) hg ⟨f1, f2⟩ a1 a2 hc
  refine ⟨s2, ?_, b1, b2, e3, ?_, ?_, g1.trans f1, g2.trans f2, g3.trans f3, g4.trans f4⟩
  · unfold relink
    rw [e3, r1]
    exact r2
  · intro x hx; rw [b3 x hx, a3 x hx]
  · intro x h1 h2; rw [b4 x h1 h2, a4 x h1 h2]

/-- Unlinking the node `b`. -/
theorem relink_unlink {s : State} {l1 l2 : List Nat} {b : Nat}
    (hg : Geom s (l1 ++ b :: l2))
    (hfl : FLseg s.mem 0 s.free_list (l1 ++ b :: l2) 0) :
    ∃ s2, relink s (getWord s.mem b) (getWord s.mem (b + 4)) (getWord s.mem (b + 4))
        (getWord s.mem b) = some s2 ∧
      FLseg s2.mem 0 s2.free_list (l1 ++ l2) 0 ∧
      (∀ x, (∀ f ∈ l1 ++ l2, x < f ∨ f + 8 ≤ x) → s2.mem x = s.mem x) ∧
      s2.lo = s.lo ∧ s2.brk = s.brk ∧ s2.max = s.max ∧ s2.heap_listp = s.heap_listp := by
  obtain ⟨s2, r, h1, h2, h3, h4, _, f1, f2, f3, f4⟩ :=
    relink_core hg hfl (getWord_lt s.mem (b + 4)) (getWord_lt s.mem b)
  refine ⟨s2, r, FLseg_append.2 ⟨_, h1, ?_⟩, h4, f1, f2, f3, f4⟩
  rw [← h3]; exact h2

/-- Replacing the node `b` by the node `c`, whose links have been copied from `b`. -/
theorem relink_replace {s : State} {l1 l2 : List Nat} {b c : Nat}
    (hg : Geom s (l1 ++ b :: l2))
    (hfl : FLseg s.mem 0 s.free_list (l1 ++ b :: l2) 0)
    (hc0 : c ≠ 0) (hc : c < 4294967296)
    (hcs : ∀ f ∈ l1 ++ l2, c + 8 ≤ f ∨ f + 8 ≤ c)
    (hc1 : getWord s.mem c = getWord s.mem b)
    (hc2 : getWord s.mem (c + 4) = getWord s.mem (b + 4)) :
    ∃ s2, relink s (getWord s.mem b) (getWord s.mem (b + 4)) c c = some s2 ∧
      FLseg s2.mem 0 s2.free_list (l1 ++ c :: l2) 0 ∧
      (∀ x, (∀ f ∈ l1 ++ l2, x < f ∨ f + 8 ≤ x) → s2.mem x = s.mem x) ∧
      s2.lo = s.lo ∧ s2.brk = s.brk ∧ s2.max = s.max ∧ s2.heap_listp = s.heap_listp := by
  obtain ⟨s2, r, h1, h2, h3, h4, _, f1, f2, f3, f4⟩ := relink_core hg hfl hc hc
  refine ⟨s2, r, FLseg_append.2 ⟨_, h1, rfl, hc0, ?_, ?_⟩, h4, f1, f2, f3, f4⟩
  · rw [← h3, ← hc1]
    apply getWord_congr
    intro x hx1 hx2
    apply h4
    intro f hf
    have := hcs f hf; omega
  · have e : getWord s2.mem (c + 4) = getWord s.mem (b + 4) := by
      rw [← hc2]
      apply getWord_congr
      intro x hx1 hx2
      apply h4
      intro f hf
      have := hcs f hf; omega
    rw [e]; exact h2

/-- LIFO insertion of a new node `r`. -/
theorem insert_head_spec {s : State} {l : List Nat} {r : Nat}
    (hg : Geom s (r :: l))
    (hfl : FLseg s.mem 0 s.free_list l 0) (hr0 : r ≠ 0) :
    ∃ s2, insert_head s r = some s2 ∧
      FLseg s2.mem 0 s2.free_list (r :: l) 0 ∧
      (∀ x, (∀ f ∈ r :: l, x < f ∨ f + 8 ≤ x) → s2.mem x = s.mem x) ∧
      s2.lo = s.lo ∧ s2.brk = s.brk ∧ s2.max = s.max ∧ s2.heap_listp = s.heap_listp := by
  have hrb := hg.inb r (List.mem_cons_self _ _)
  have hbrk := hg.brk
  have hS : SUCC r = r + 4 := by unfold SUCC WSIZE; exact uadd_eq (by omega)
  have hnd := List.nodup_cons.1 hg.nodup
  unfold insert_head
  cases l with
  | nil =>
    have h0 : s.free_list = 0 := hfl
    rw [if_neg (by simp [h0])]
    dsimp only
    rw [hS, PUT_WORD_eq _ (by omega) (by omega)]
    dsimp only [PRED]
    rw [PUT_WORD_eq _ (by show s.lo ≤ r; omega) (by show r + 4 ≤ s.brk; omega)]
    dsimp only
    rw [h0]
    refine ⟨_, rfl, ⟨rfl, hr0, ?_, ?_⟩, ?_, rfl, rfl, rfl, rfl⟩
    · show getWord (putWord (putWord s.mem (r + 4) 0) r 0) r = 0
      rw [getWord_putWord_same]
    · show getWord (putWord (putWord s.mem (r + 4) 0) r 0) (r + 4) = 0
      rw [getWord_putWord_other _ _ _ _ (by omega), getWord_putWord_same]
    · intro x hx
      have := hx r (List.mem_cons_self _ _)
      show putWord (putWord s.mem (r + 4) 0) r 0 x = _
      rw [putWord_other _ _ _ _ (by omega), putWord_other _ _ _ _ (by omega)]
  | cons d l =>
    obtain ⟨e1, e2, e3, e4⟩ := hfl
    have hdb := hg.inb d (by simp)
    have hrd : r ≠ d := by intro h; exact hnd.1 (h ▸ List.mem_cons_self _ _)
    have hsep := hg.sep r (by simp) d (by simp) hrd
    have hr32 : r < 4294967296 := by omega
    have hd32 : d < 4294967296 := by omega
    rw [if_pos (by rw [e1]; exact e2)]
    dsimp only [PRED]
    rw [PUT_WORD_eq _ (by rw [e1]; omega) (by rw [e1]; omega)]
    dsimp only
    rw [hS, PUT_WORD_eq _ (by show s.lo ≤ r + 4; omega) (by show r + 4 + 4 ≤ s.brk; omega)]
    dsimp only
    rw [PUT_WORD_eq _ (by show s.lo ≤ r; omega) (by show r + 4 ≤ s.brk; omega)]
    dsimp only
    rw [e1]
    refine ⟨_, rfl, ⟨rfl, hr0, ?_, ?_, e2, ?_, ?_⟩, ?_, rfl, rfl, rfl, rfl⟩
    · show getWord (putWord (putWord (putWord s.mem d r) (r + 4) d) r 0) r = 0
      rw [getWord_putWord_same]
    · show getWord (putWord (putWord (putWord s.mem d r) (r + 4) d) r 0) (r + 4) = d
      rw [getWord_putWord_other _ _ _ (r + 4) (by omega), getWord_putWord_same,
        Nat.mod_eq_of_lt hd32]
    · show getWord (putWord (putWord (putWord s.mem d r) (r + 4) d) r 0) d = r
      rw [getWord_putWord_other _ _ _ _ (by omega),
        getWord_putWord_other _ _ _ _ (by omega), getWord_putWord_same, Nat.mod_eq_of_lt hr32]
    · have e6 : getWord (putWord (putWord (putWord s.mem d r) (r + 4) d) r 0) (d + 4)
          = getWord s.mem (d + 4) := by
        rw [getWord_putWord_other _ _ _ _ (by omega), getWord_putWord_other _ _ _ _ (by omega),
          getWord_putWord_other _ _ _ _ (by omega)]
      show FLseg (putWord (putWord (putWord s.mem d r) (r + 4) d) r 0) d
        (getWord (putWord (putWord (putWord s.mem d r) (r + 4) d) r 0) (d + 4)) l 0
      rw [e6]
      refine FLseg_frame e4 fun f hf x h1 h2 => ?_
      have hfd : f ≠ d := by
        rintro rfl; exact (List.nodup_cons.1 hnd.2).1 hf
      have hfr : f ≠ r := by
        rintro rfl; exact hnd.1 (List.mem_cons_of_mem _ hf)
      have s1 := hg.sep f (by simp [hf]) d (by simp) hfd
      have s2 := hg.sep f (by simp [hf]) r (by simp) hfr
      show putWord (putWord (putWord s.mem d r) (r + 4) d) r 0 x = _
      rw [putWord_other _ _ _ _ (by omega), putWord_other _ _ _ _ (by omega),
        putWord_other _ _ _ _ (by omega)]
    · intro x hx
      have h1 := hx r (List.mem_cons_self _ _)
      have h2 := hx d (by simp)
      show putWord (putWord (putWord s.mem d r) (r + 4) d) r 0 x = _
      rw [putWord_other _ _ _ _ (by omega), putWord_other _ _ _ _ (by omega),
        putWord_other _ _ _ _ (by omega)]

theorem tag_false_false (sz : Nat) : tag sz false false = sz := by simp [tag]

theorem tag_true_false (sz : Nat) : tag sz true false = sz + 1 := by simp [tag]

theorem tag_false_true (sz : Nat) : tag sz false true = sz + 2 := by simp [tag]

theorem tag_true_true (sz : Nat) : tag sz true true = sz + 3 := by simp [tag]

theorem tag_le (sz : Nat) (al pa : Bool) : sz ≤ tag sz al pa ∧ tag sz al pa ≤ sz + 3 := by
  cases al <;> cases pa <;> simp [tag] <;> omega

theorem tag_inj {sz sz1 : Nat} {al al1 pa pa1 : Bool} (h : tag sz al pa = tag sz1 al1 pa1)
    (h1 : sz % 8 = 0) (h2 : sz1 % 8 = 0) : sz = sz1 ∧ al = al1 ∧ pa = pa1 := by
  cases al <;> cases pa <;> cases al1 <;> cases pa1 <;> simp [tag] at h ⊢ <;> omega

theorem PACK_tag (sz : Nat) (al pa : Bool) (h : sz % 8 = 0) :
    PACK sz al.toNat pa.toNat = tag sz al pa := by
  rw [PACK_eq sz _ _ h (by cases al <;> simp) (by cases pa <;> simp)]
  rfl

theorem PACK_01 {sz : Nat} (h : sz % 8 = 0) : PACK sz 0 1 = tag sz false true :=
  PACK_tag sz false true h

theorem PACK_11 {sz : Nat} (h : sz % 8 = 0) : PACK sz 1 1 = tag sz true true :=
  PACK_tag sz true true h

theorem PACK_10 {sz : Nat} (h : sz % 8 = 0) : PACK sz 1 0 = tag sz true false :=
  PACK_tag sz true false h

theorem PACK_00 {sz : Nat} (h : sz % 8 = 0) : PACK sz 0 0 = tag sz false false :=
  PACK_tag sz false false h

theorem mask_tag {w sz : Nat} {al pa : Bool} (hw : w = tag sz al pa) (hlt : w < 4294967296)
    (h : sz % 8 = 0) : w &&& 0xFFFFFFF8 = sz := by
  rw [and_mask_eq w hlt, hw]
  cases al <;> cases pa <;> simp [tag] <;> omega

theorem alloc_tag {w sz : Nat} {al pa : Bool} (hw : w = tag sz al pa)
    (h : sz % 8 = 0) : w &&& 1 = al.toNat := by
  rw [and_one_eq, hw]
  cases al <;> cases pa <;> simp [tag] <;> omega

theorem prev_alloc_tag {w sz : Nat} {al pa : Bool} (hw : w = tag sz al pa)
    (h : sz % 8 = 0) : (w &&& 2) >>> 1 = pa.toNat := by
  rw [and_two_shift, hw]
  cases al <;> cases pa <;> simp [tag] <;> omega

theorem GET_SIZE_tag {s : State} {h sz : Nat} {al pa : Bool} (h1 : s.lo ≤ h)
    (h2 : h + 4 ≤ s.brk) (hw : getWord s.mem h = tag sz al pa) (hsz : sz % 8 = 0) :
    GET_SIZE s h = some sz := by
  unfold GET_SIZE
  rw [GET_WORD_eq h1 h2]
  simp only [Option.map_some']
  rw [mask_tag hw (getWord_lt _ _) hsz]

theorem GET_ALLOC_tag {s : State} {h sz : Nat} {al pa : Bool} (h1 : s.lo ≤ h)
    (h2 : h + 4 ≤ s.brk) (hw : getWord s.mem h = tag sz al pa) (hsz : sz % 8 = 0) :
    GET_ALLOC s h = some al.toNat := by
  unfold GET_ALLOC
  rw [GET_WORD_eq h1 h2]
  simp only [Option.map_some']
  rw [alloc_tag hw hsz]

theorem GET_PREV_ALLOC_tag {s : State} {h sz : Nat} {al pa : Bool} (h1 : s.lo ≤ h)
    (h2 : h + 4 ≤ s.brk) (hw : getWord s.mem h = tag sz al pa) (hsz : sz % 8 = 0) :
    GET_PREV_ALLOC s h = some pa.toNat := by
  unfold GET_PREV_ALLOC
  rw [GET_WORD_eq h1 h2]
  simp only [Option.map_some']
  rw [prev_alloc_tag hw hsz]

theorem HDRP_eq {bp : Nat} (h1 : 4 ≤ bp) (h2 : bp < 4294967296) : HDRP bp = bp - 4 := by
  unfold HDRP WSIZE; exact usub_eq h1 h2

theorem SUCC_eq {bp : Nat} (h2 : bp + 4 < 4294967296) : SUCC bp = bp + 4 := by
  unfold SUCC WSIZE; exact uadd_eq h2

theorem NEXT_BLKP_eq {s : State} {bp sz : Nat} (h1 : 4 ≤ bp) (h2 : bp + sz < 4294967296)
    (hs : GET_SIZE s (bp - 4) = some sz) : NEXT_BLKP s bp = some (bp + sz) := by
  unfold NEXT_BLKP WSIZE
  rw [usub_eq h1 (by omega), hs]
  simp only [Option.map_some']
  rw [uadd_eq h2]

theorem FTRP_eq {s : State} {bp sz : Nat} (h1 : 4 ≤ bp) (h2 : bp + sz < 4294967296)
    (h3 : 8 ≤ bp + sz)
    (hs : GET_SIZE s (bp - 4) = some sz) : FTRP s bp = some (bp + sz - 8) := by
  unfold FTRP
  rw [HDRP_eq h1 (by omega), hs]
  simp only [Option.map_some']
  rw [uadd_eq h2]
  unfold DSIZE
  rw [usub_eq h3 h2]

theorem PREV_BLKP_eq {s : State} {bp sz : Nat} (h1 : 8 ≤ bp) (h2 : bp < 4294967296)
    (h3 : sz ≤ bp)
    (hs : GET_SIZE s (bp - 8) = some sz) : PREV_BLKP s bp = some (bp - sz) := by
  unfold PREV_BLKP DSIZE
  rw [usub_eq h1 h2, hs]
  simp only [Option.map_some']
  rw [usub_eq h3 h2]

theorem PREV_BLKP_some {s : State} {bp : Nat} (h1 : s.lo + 8 ≤ bp) (h2 : bp ≤ s.brk + 4)
    (h3 : bp < 4294967296) : ∃ v, PREV_BLKP s bp = some v := by
  unfold PREV_BLKP DSIZE
  rw [usub_eq (by omega) h3]
  unfold GET_SIZE
  rw [GET_WORD_eq (by omega) (by omega)]
  exact ⟨_, rfl⟩

/-- Result of a checked store. -/
theorem PUT_WORD_spec (s : State) (p v : Nat) (h1 : s.lo ≤ p) (h2 : p + 4 ≤ s.brk) :
    ∃ s1, PUT_WORD s p v = some s1 ∧ s1.mem = putWord s.mem p v ∧ s1.free_list = s.free_list ∧
      s1.lo = s.lo ∧ s1.brk = s.brk ∧ s1.max = s.max ∧ s1.heap_listp = s.heap_listp :=
  ⟨_, PUT_WORD_eq v h1 h2, rfl, rfl, rfl, rfl, rfl, rfl⟩

theorem Same.refl (s : State) : Same s s := ⟨rfl, rfl, rfl, rfl⟩

theorem Same.trans {s0 s1 s2 : State} (h1 : Same s0 s1) (h2 : Same s1 s2) : Same s0 s2 :=
  ⟨h2.lo.trans h1.lo, h2.brk.trans h1.brk, h2.max.trans h1.max, h2.hl.trans h1.hl⟩

/-- A checked store in a state with the bounds of `s0`. -/
theorem PUT_WORD_step {s0 s : State} (hs : Same s0 s) (p v : Nat) (h1 : s0.lo ≤ p)
    (h2 : p + 4 ≤ s0.brk) :
    ∃ s1, PUT_WORD s p v = some s1 ∧ s1.mem = putWord s.mem p v ∧
      s1.free_list = s.free_list ∧ Same s0 s1 :=
  ⟨_, PUT_WORD_eq v (by rw [hs.lo]; exact h1) (by rw [hs.brk]; exact h2), rfl, rfl,
    ⟨hs.lo, hs.brk, hs.max, hs.hl⟩⟩

theorem GET_WORD_step {s0 s : State} (hs : Same s0 s) {p : Nat} (h1 : s0.lo ≤ p)
    (h2 : p + 4 ≤ s0.brk) : GET_WORD s p = some (getWord s.mem p) :=
  GET_WORD_eq (by rw [hs.lo]; exact h1) (by rw [hs.brk]; exact h2)

theorem GET_SIZE_step {s0 s : State} (hs : Same s0 s) {h sz : Nat} {al pa : Bool}
    (h1 : s0.lo ≤ h) (h2 : h + 4 ≤ s0.brk) (hw : getWord s.mem h = tag sz al pa)
    (hsz : sz % 8 = 0) : GET_SIZE s h = some sz :=
  GET_SIZE_tag (by rw [hs.lo]; exact h1) (by rw [hs.brk]; exact h2) hw hsz

theorem GET_ALLOC_step {s0 s : State} (hs : Same s0 s) {h sz : Nat} {al pa : Bool}
    (h1 : s0.lo ≤ h) (h2 : h + 4 ≤ s0.brk) (hw : getWord s.mem h = tag sz al pa)
    (hsz : sz % 8 = 0) : GET_ALLOC s h = some al.toNat :=
  GET_ALLOC_tag (by rw [hs.lo]; exact h1) (by rw [hs.brk]; exact h2) hw hsz

theorem GET_PREV_ALLOC_step {s0 s : State} (hs : Same s0 s) {h sz : Nat} {al pa : Bool}
    (h1 : s0.lo ≤ h) (h2 : h + 4 ≤ s0.brk) (hw : getWord s.mem h = tag sz al pa)
    (hsz : sz % 8 = 0) : GET_PREV_ALLOC s h = some pa.toNat :=
  GET_PREV_ALLOC_tag (by rw [hs.lo]; exact h1) (by rw [hs.brk]; exact h2) hw hsz

/-- `NEXT_BLKP` of the block with header at `h`. -/
theorem NEXT_BLKP_step {s0 s : State} (hs : Same s0 s) {h sz : Nat} {al pa : Bool}
    (h1 : s0.lo ≤ h) (h2 : h + 4 ≤ s0.brk) (h3 : h + 4 + sz < 4294967296)
    (hw : getWord s.mem h = tag sz al pa) (hsz : sz % 8 = 0) :
    NEXT_BLKP s (h + 4) = some (h + 4 + sz) :=
  NEXT_BLKP_eq (by omega) h3 (by
    rw [show h + 4 - 4 = h from by omega]; exact GET_SIZE_step hs h1 h2 hw hsz)

/-- `FTRP` of the block with header at `h`: the footer is at `F`. -/
theorem FTRP_step {s0 s : State} (hs : Same s0 s) {h sz F : Nat} {al pa : Bool}
    (h1 : s0.lo ≤ h) (h2 : h + 4 ≤ s0.brk) (h3 : h + 4 + sz < 4294967296)
    (hF : F + 4 = h + sz)
    (hw : getWord s.mem h = tag sz al pa) (hsz : sz % 8 = 0) :
    FTRP s (h + 4) = some F := by
  rw [@FTRP_eq _ _ sz (by omega) h3 (by omega) (by
    rw [show h + 4 - 4 = h from by omega]; exact GET_SIZE_step hs h1 h2 hw hsz)]
  rw [show h + 4 + sz - 8 = F from by omega]

/-- `PREV_BLKP` of the block with header at `h`, when the word before it is a footer. -/
theorem PREV_BLKP_step {s0 s : State} (hs : Same s0 s) {h sz : Nat} {al pa : Bool}
    (h1 : s0.lo + 4 ≤ h) (h2 : h ≤ s0.brk) (h3 : h + 4 < 4294967296) (h4 : sz ≤ h)
    (hw : getWord s.mem (h - 4) = tag sz al pa) (hsz : sz % 8 = 0) :
    PREV_BLKP s (h + 4) = some (h + 4 - sz) :=
  PREV_BLKP_eq (by omega) h3 (by omega) (by
    rw [show h + 4 - 8 = h - 4 from by omega]
    exact GET_SIZE_step hs (by omega) (by omega) hw hsz)

theorem Geom_of_subset {s : State} {bs : List Blk} {L : List Nat} (hs : Sized bs)
    (hnd : L.Nodup) (hsub : ∀ f ∈ L, f ∈ freeAddrs (s.lo + 12) bs)
    (hsize : s.lo + 12 + total bs + 4 = s.brk) (hb : s.brk < 4294967296) : Geom s L where
  nodup := hnd
  sep := fun f hf g hg hne => by
    have := freeAddrs_sep hs (hsub f hf) (hsub g hg) hne; omega
  inb := fun f hf => by
    have := freeAddrs_range hs (hsub f hf); omega
  brk := hb

theorem Inv.blocks_sized {s : State} {bs : List Blk} {l : List Nat} (h : Inv s bs l) : Sized bs :=
  h.seg.sized

theorem Inv.brk_lt {s : State} {bs : List Blk} {l : List Nat} (h : Inv s bs l) :
    s.brk < 4294967296 := Nat.lt_of_le_of_lt h.brk_max h.max_lt

theorem Inv.geom {s : State} {bs : List Blk} {l : List Nat} (h : Inv s bs l) : Geom s l :=
  Geom_of_subset h.blocks_sized h.nodup (fun f hf => (h.mem_iff f).1 hf) h.size h.brk_lt

theorem InAlloc_cons {a x : Nat} {b : Blk} {bs : List Blk} :
    InAlloc a (b :: bs) x ↔
      ((b.alloc = true ∧ a + 4 ≤ x ∧ x < a + b.size) ∨ InAlloc (a + b.size) bs x) := Iff.rfl

theorem IsBlock_cons {a h : Nat} {b c : Blk} {bs : List Blk} :
    IsBlock a (c :: bs) h b ↔ ((h = a ∧ b = c) ∨ IsBlock (a + c.size) bs h b) := Iff.rfl

theorem InAlloc_append (a : Nat) (xs ys : List Blk) (x : Nat) :
    InAlloc a (xs ++ ys) x ↔ InAlloc a xs x ∨ InAlloc (a + total xs) ys x := by
  induction xs generalizing a with
  | nil => simp [InAlloc, total]
  | cons b xs ih =>
    simp only [List.cons_append, InAlloc_cons, ih, total, Nat.add_assoc, or_assoc]

theorem IsBlock_append (a : Nat) (xs ys : List Blk) (h : Nat) (b : Blk) :
    IsBlock a (xs ++ ys) h b ↔ IsBlock a xs h b ∨ IsBlock (a + total xs) ys h b := by
  induction xs generalizing a with
  | nil => simp [IsBlock, total]
  | cons c xs ih =>
    simp only [List.cons_append, IsBlock_cons, ih, total, Nat.add_assoc, or_assoc]

theorem IsBlock_iff {a h : Nat} {bs : List Blk} {b : Blk} :
    IsBlock a bs h b ↔ ∃ pre post, bs = pre ++ b :: post ∧ h = a + total pre := by
  induction bs generalizing a with
  | nil => simp [IsBlock]
  | cons c bs ih =>
    constructor
    · rintro (⟨rfl, rfl⟩ | hb)
      · exact ⟨[], bs, rfl, by simp [total]⟩
      · obtain ⟨pre, post, rfl, rfl⟩ := ih.1 hb
        exact ⟨c :: pre, post, rfl, by simp [total, Nat.add_assoc]⟩
    · rintro ⟨pre, post, hbs, rfl⟩
      rw [hbs, IsBlock_append]
      right; left; exact ⟨rfl, rfl⟩

theorem IsBlock_range {a h : Nat} {bs : List Blk} {b : Blk} (hb : IsBlock a bs h b) :
    a ≤ h ∧ h + b.size ≤ a + total bs := by
  obtain ⟨pre, post, rfl, rfl⟩ := IsBlock_iff.1 hb
  simp only [total_append, total]; omega

theorem InAlloc_range {a x : Nat} {bs : List Blk} (hx : InAlloc a bs x) :
    a + 4 ≤ x ∧ x < a + total bs := by
  induction bs generalizing a with
  | nil => exact hx.elim
  | cons b bs ih =>
    simp only [total]
    rcases hx with ⟨_, h1, h2⟩ | hx
    · omega
    · have := ih hx; omega

theorem InAlloc_free {a x f : Nat} {bs : List Blk} (hs : Sized bs) (hx : InAlloc a bs x)
    (hf : f ∈ freeAddrs a bs) : x + 4 < f ∨ f + 12 ≤ x := by
  induction bs generalizing a with
  | nil => exact hx.elim
  | cons b bs ih =>
    obtain ⟨⟨h1, h2⟩, h3⟩ := Sized_cons.1 hs
    simp only [freeAddrs] at hf
    rcases hx with ⟨hb, x1, x2⟩ | hx
    · rw [if_pos hb] at hf
      have := freeAddrs_range h3 hf; omega
    · split at hf
      · exact ih h3 hx hf
      · rcases List.mem_cons.1 hf with rfl | hf
        · have := InAlloc_range hx; omega
        · exact ih h3 hx hf

theorem InAlloc_of_block {a h x : Nat} {bs : List Blk} {sz : Nat}
    (hb : IsBlock a bs h ⟨sz, true⟩) (h1 : h + 4 ≤ x) (h2 : x < h + sz) : InAlloc a bs x := by
  obtain ⟨pre, post, rfl, rfl⟩ := IsBlock_iff.1 hb
  rw [InAlloc_append]
  right; left; exact ⟨rfl, h1, h2⟩

/-- Changes confined to the link words of free blocks leave tags and allocated payloads alone. -/
theorem links_frame {m m1 : Mem} {a : Nat} {bs : List Blk} (hs : Sized bs)
    (hm : ∀ x, (∀ f ∈ freeAddrs a bs, x < f ∨ f + 8 ≤ x) → m1 x = m x) :
    (∀ pa, Seg m a pa bs → Seg m1 a pa bs) ∧
    (∀ w, w + 4 ≤ a + 4 ∨ a + total bs ≤ w → getWord m1 w = getWord m w) ∧
    (∀ x, InAlloc a bs x → m1 x = m x) := by
  refine ⟨fun pa h => Seg_frame h fun x _ _ hx => hm x hx, fun w hw => ?_, fun x hx => ?_⟩
  · apply getWord_congr
    intro x h1 h2
    apply hm
    intro f hf
    have := freeAddrs_range hs hf; omega
  · apply hm
    intro f hf
    have := InAlloc_free hs hx hf; omega

theorem getWord_same_lt {m : Mem} {p v : Nat} (h : v < 4294967296) :
    getWord (putWord m p v) p = v := by
  rw [getWord_putWord_same]; exact Nat.mod_eq_of_lt h

theorem mem_without {l1 l2 A B : List Nat} {b : Nat} (hnd : (l1 ++ b :: l2).Nodup)
    (hA : b ∉ A) (hB : b ∉ B) (h : ∀ x, x ∈ l1 ++ b :: l2 ↔ x ∈ A ++ b :: B) :
    ∀ x, x ∈ l1 ++ l2 ↔ x ∈ A ++ B := by
  intro x
  have h1 : b ∉ l1 := fun hb => (List.nodup_append.1 hnd).2.2 hb (List.mem_cons_self _ _)
  have h2 : b ∉ l2 := (List.nodup_cons.1 (List.nodup_append.1 hnd).2.1).1
  have hx := h x
  simp only [List.mem_append, List.mem_cons] at hx ⊢
  constructor
  · intro hm
    have hxb : x ≠ b := by rintro rfl; rcases hm with hm | hm; exact h1 hm; exact h2 hm
    have := hx.1 (by tauto)
    tauto
  · intro hm
    have hxb : x ≠ b := by rintro rfl; rcases hm with hm | hm; exact hA hm; exact hB hm
    have := hx.2 (by tauto)
    tauto

theorem nodup_without {l1 l2 : List Nat} {b : Nat} (hnd : (l1 ++ b :: l2).Nodup) :
    (l1 ++ l2).Nodup := by
  have h := List.nodup_append.1 hnd
  exact List.nodup_append.2 ⟨h.1, (List.nodup_cons.1 h.2.1).2,
    fun x h1 h2 => h.2.2 h1 (List.mem_cons_of_mem _ h2)⟩

theorem nodup_replace {l1 l2 : List Nat} {b c : Nat} (hnd : (l1 ++ b :: l2).Nodup)
    (hc : c ∉ l1 ++ l2) : (l1 ++ c :: l2).Nodup := by
  have h := List.nodup_append.1 hnd
  simp only [List.mem_append, not_or] at hc
  refine List.nodup_append.2 ⟨h.1, List.nodup_cons.2 ⟨hc.2, (List.nodup_cons.1 h.2.1).2⟩, ?_⟩
  intro x h1 h2
  rcases List.mem_cons.1 h2 with rfl | h2
  · exact hc.1 h1
  · exact h.2.2 h1 (List.mem_cons_of_mem _ h2)

theorem place_split_exec {s : State} {h asize d F : Nat}
    (hlo : s.lo ≤ h) (hF : F + 4 = h + asize + d) (hb : F + 8 ≤ s.brk)
    (h32 : s.brk < 4294967296)
    (h16 : 16 ≤ asize) (h8 : asize % 8 = 0) (hd16 : 16 ≤ d) (hd8 : d % 8 = 0)
    (hhd : getWord s.mem h = tag (asize + d) false true) :
    ∃ s5, place s (h + 4) asize = relink s5 (getWord s.mem (h + 4)) (getWord s.mem (h + 8))
        (h + 4 + asize) (h + 4 + asize) ∧
      s5.mem = placeSplitMem s.mem h asize d F ∧
      s5.free_list = s.free_list ∧ Same s s5 := by
  have hs := Same.refl s
  have hH : HDRP (h + 4) = h := by rw [HDRP_eq (by omega) (by omega)]; omega
  have r1 : GET_WORD s (PRED (h + 4)) = some (getWord s.mem (h + 4)) :=
    GET_WORD_eq (by show s.lo ≤ h + 4; omega) (by show h + 4 + 4 ≤ s.brk; omega)
  have r2 : GET_WORD s (SUCC (h + 4)) = some (getWord s.mem (h + 8)) := by
    rw [SUCC_eq (by omega)]; exact GET_WORD_eq (by omega) (by omega)
  have r3 : GET_SIZE s (HDRP (h + 4)) = some (asize + d) := by
    rw [hH]; exact GET_SIZE_tag (by omega) (by omega) hhd (by omega)
  have hdiff : usub (asize + d) asize = d := by rw [usub_eq (by omega) (by omega)]; omega
  have b1 : h + 4 ≤ s.brk := by omega
  have b2 : s.lo ≤ h + asize := by omega
  have b3 : h + asize + 4 ≤ s.brk := by omega
  have b4 : s.lo ≤ F := by omega
  have b5 : F + 4 ≤ s.brk := by omega
  have b6 : s.lo ≤ h + asize + 8 := by omega
  have b7 : h + asize + 8 + 4 ≤ s.brk := by omega
  have b8 : s.lo ≤ h + asize + 4 := by omega
  have b9 : h + asize + 4 + 4 ≤ s.brk := by omega
  have c1 : h + 4 + asize < 4294967296 := by omega
  have c2 : h + asize + 4 + d < 4294967296 := by omega
  have c3 : F + 4 = h + asize + d := hF
  have c4 : tag asize true true < 4294967296 := by rw [tag_true_true]; omega
  have c5 : tag d false true < 4294967296 := by rw [tag_false_true]; omega
  have a1 : HDRP (h + 4 + asize) = h + asize := by
    rw [HDRP_eq (by omega) (by omega)]; omega
  have a2 : h + 4 + asize = h + asize + 4 := by omega
  have a3 : SUCC (h + asize + 4) = h + asize + 8 := by rw [SUCC_eq (by omega)]
  unfold place
  simp only [r1, r2, r3, hdiff]
  rw [if_pos (by unfold DSIZE; omega), hH, PACK_11 h8, PACK_01 hd8]
  clear r1 r2 r3 hdiff hH h32 h16 hd16 hb
  obtain ⟨s1, e1, m1, fl1, hs1⟩ := PUT_WORD_step hs h (tag asize true true) hlo b1
  rw [e1]; simp only []
  have g1 : getWord s1.mem h = tag asize true true := by rw [m1, getWord_same_lt c4]
  rw [NEXT_BLKP_step hs1 hlo b1 c1 g1 h8]; simp only []
  rw [a1]
  obtain ⟨s2, e2, m2, fl2, hs2⟩ := PUT_WORD_step hs1 (h + asize) (tag d false true) b2 b3
  rw [e2]; simp only []
  have g2 : getWord s2.mem (h + asize) = tag d false true := by rw [m2, getWord_same_lt c5]
  rw [a2, FTRP_step hs2 b2 b3 c2 c3 g2 hd8]; simp only []
  obtain ⟨s3, e3, m3, fl3, hs3⟩ := PUT_WORD_step hs2 F (tag d false true) b4 b5
  rw [e3]; simp only []
  rw [a3]
  obtain ⟨s4, e4, m4, fl4, hs4⟩ := PUT_WORD_step hs3 (h + asize + 8) (getWord s.mem (h + 8)) b6 b7
  rw [e4]; simp only [PRED]
  obtain ⟨s5, e5, m5, fl5, hs5⟩ := PUT_WORD_step hs4 (h + asize + 4) (getWord s.mem (h + 4)) b8 b9
  rw [e5]; simp only []
  refine ⟨s5, rfl, ?_, by rw [fl5, fl4, fl3, fl2, fl1], hs5⟩
  rw [m5, m4, m3, m2, m1]; rfl

theorem placeSplitMem_spec {m : Mem} {h asize d F : Nat}
    (hF : F + 4 = h + asize + d) (h16 : 16 ≤ asize) (hd16 : 16 ≤ d)
    (h32 : h + asize + d < 4294967296) :
    getWord (placeSplitMem m h asize d F) h = tag asize true true ∧
    getWord (placeSplitMem m h asize d F) (h + asize) = tag d false true ∧
    getWord (placeSplitMem m h asize d F) F = tag d false true ∧
    getWord (placeSplitMem m h asize d F) (h + asize + 8) = getWord m (h + 8) ∧
    getWord (placeSplitMem m h asize d F) (h + asize + 4) = getWord m (h + 4) ∧
    (∀ x, x < h ∨ h + asize + d ≤ x → placeSplitMem m h asize d F x = m x) ∧
    (∀ x, h + 4 ≤ x → x < h + 12 → placeSplitMem m h asize d F x = m x) := by
  unfold placeSplitMem
  refine ⟨?_, ?_, ?_, ?_, ?_, ?_, ?_⟩
  · rw [getWord_putWord_other _ _ _ _ (by omega), getWord_putWord_other _ _ _ _ (by omega),
      getWord_putWord_other _ _ _ _ (by omega), getWord_putWord_other _ _ _ _ (by omega),
      getWord_same_lt (by rw [tag_true_true]; omega)]
  · rw [getWord_putWord_other _ _ _ _ (by omega), getWord_putWord_other _ _ _ _ (by omega),
      getWord_putWord_other _ _ _ _ (by omega), getWord_same_lt (by rw [tag_false_true]; omega)]
  · rw [getWord_putWord_other _ _ _ _ (by omega), getWord_putWord_other _ _ _ _ (by omega),
      getWord_same_lt (by rw [tag_false_true]; omega)]
  · rw [getWord_putWord_other _ _ _ _ (by omega), getWord_same_lt (getWord_lt _ _)]
  · rw [getWord_same_lt (getWord_lt _ _)]
  · intro x hx
    rw [putWord_other _ _ _ _ (by omega), putWord_other _ _ _ _ (by omega),
      putWord_other _ _ _ _ (by omega), putWord_other _ _ _ _ (by omega),
      putWord_other _ _ _ _ (by omega)]
  · intro x hx1 hx2
    rw [putWord_other _ _ _ _ (by omega), putWord_other _ _ _ _ (by omega),
      putWord_other _ _ _ _ (by omega), putWord_other _ _ _ _ (by omega),
      putWord_other _ _ _ _ (by omega)]

/-- What the invariant says about a free block in the middle of the heap. -/
theorem Inv.at_free {s : State} {pre post : List Blk} {l : List Nat} {sz : Nat}
    (hI : Inv s (pre ++ ⟨sz, false⟩ :: post) l) :
    Seg s.mem (s.lo + 12) true pre ∧
    getWord s.mem (s.lo + 12 + total pre) = tag sz false true ∧
    getWord s.mem (s.lo + 12 + total pre + sz - 4) = tag sz false true ∧
    lastAlloc true pre = true ∧
    Seg s.mem (s.lo + 12 + total pre + sz) false post ∧
    s.lo + 12 + total pre + sz + total post + 4 = s.brk ∧
    getWord s.mem (s.lo + 12 + total pre + sz + total post) = tag 0 true (lastAlloc false post) ∧
    16 ≤ sz ∧ sz % 8 = 0 ∧ Sized pre ∧ Sized post ∧
    freeAddrs (s.lo + 12) (pre ++ ⟨sz, false⟩ :: post)
      = freeAddrs (s.lo + 12) pre ++
        (s.lo + 12 + total pre + 4) :: freeAddrs (s.lo + 12 + total pre + sz) post := by
  have hsize := hI.size
  have hepi := hI.epi
  obtain ⟨hpre, hmid⟩ := (Seg_append _ _ _ _ _).1 hI.seg
  obtain ⟨hhd, hsz16, hsz8, hfree, hpost⟩ := Seg_cons.1 hmid
  obtain ⟨hpa, hft⟩ := hfree rfl
  obtain ⟨hSpre, hSmid⟩ := Sized_append.1 hI.blocks_sized
  simp only [total_append, total] at hsize hepi
  simp only [lastAlloc_append, lastAlloc] at hepi
  rw [hpa] at hhd hft
  refine ⟨hpre, hhd, hft, hpa, hpost, by omega, ?_, hsz16, hsz8, hSpre, (Sized_cons.1 hSmid).2, ?_⟩
  · rw [← hepi]; congr 1; omega
  · rw [freeAddrs_append]; simp [freeAddrs]

/-- The nodes of the free list other than the block at `bp` lie in the rest of the heap. -/
theorem Inv.others {s : State} {pre post : List Blk} {l1 l2 : List Nat} {sz : Nat}
    (hI : Inv s (pre ++ ⟨sz, false⟩ :: post) (l1 ++ (s.lo + 12 + total pre + 4) :: l2)) :
    (∀ x, x ∈ l1 ++ l2 ↔ x ∈ freeAddrs (s.lo + 12) pre ++
        freeAddrs (s.lo + 12 + total pre + sz) post) ∧
    (∀ f ∈ l1 ++ l2, f + 12 ≤ s.lo + 12 + total pre ∨ s.lo + 12 + total pre + sz + 4 ≤ f) := by
  obtain ⟨_, _, _, _, _, _, _, hsz16, _, hSpre, hSpost, hfa⟩ := hI.at_free
  have hbA : s.lo + 12 + total pre + 4 ∉ freeAddrs (s.lo + 12) pre := fun hm => by
    have := freeAddrs_range hSpre hm; omega
  have hbB : s.lo + 12 + total pre + 4 ∉ freeAddrs (s.lo + 12 + total pre + sz) post :=
    fun hm => by have := freeAddrs_range hSpost hm; omega
  have hmem := mem_without hI.nodup hbA hbB (fun x => by rw [← hfa]; exact hI.mem_iff x)
  refine ⟨hmem, fun f hf => ?_⟩
  rcases List.mem_append.1 ((hmem f).1 hf) with hm | hm
  · have := freeAddrs_range hSpre hm; omega
  · have := freeAddrs_range hSpost hm; omega

/-- `place` on a free block with a remainder of at least 16 bytes: the block is split and the
remainder takes the place of the block in the free list. -/
theorem place_split {s : State} {pre post : List Blk} {l : List Nat} {asize d : Nat}
    (hI : Inv s (pre ++ ⟨asize + d, false⟩ :: post) l)
    (h16 : 16 ≤ asize) (h8 : asize % 8 = 0) (hd : 16 ≤ d) :
    ∃ s1 l1 l2, place s (s.lo + 12 + total pre + 4) asize = some s1 ∧
      l = l1 ++ (s.lo + 12 + total pre + 4) :: l2 ∧
      Inv s1 (pre ++ ⟨asize, true⟩ :: ⟨d, false⟩ :: post)
        (l1 ++ (s.lo + 12 + total pre + 4 + asize) :: l2) ∧
      (∀ x, InAlloc (s.lo + 12) (pre ++ ⟨asize + d, false⟩ :: post) x → s1.mem x = s.mem x) ∧
      s1.lo = s.lo ∧ s1.brk = s.brk ∧ s1.max = s.max := by
  obtain ⟨hpre, hhd, hft, hpa, hpost, hsize, hepi, hsz16, hsz8, hSpre, hSpost, hfa⟩ := hI.at_free
  have hbrk := hI.brk_lt
  have hd8 : d % 8 = 0 := by omega
  have hbpl : s.lo + 12 + total pre + 4 ∈ l := (hI.mem_iff _).2 (by rw [hfa]; simp)
  obtain ⟨l1, l2, rfl⟩ := List.append_of_mem hbpl
  obtain ⟨hmem, hrange⟩ := hI.others
  have hgeom := hI.geom
  obtain ⟨F, hF⟩ : ∃ F, F + 4 = s.lo + 12 + total pre + asize + d :=
    ⟨s.lo + 12 + total pre + asize + d - 4, by omega⟩
  obtain ⟨s5, e5, m5, fl5, ⟨lo5, brk5, max5, hl5⟩⟩ :=
    place_split_exec (s := s) (h := s.lo + 12 + total pre) (by omega) hF
      (by clear * - hF hsize; omega) hbrk h16 h8 hd hd8 hhd
  obtain ⟨k1, k2, k3, k4, k5, hfr, hfrb⟩ :=
    placeSplitMem_spec (m := s.mem) hF h16 hd (by clear * - hsize hbrk; omega)
  rw [← m5] at k1 k2 k3 k4 k5 hfr hfrb
  have kb1 : getWord s5.mem (s.lo + 12 + total pre + 4) = getWord s.mem (s.lo + 12 + total pre + 4) :=
    getWord_congr fun x h1 h2 => hfrb x h1 (by clear * - h2; omega)
  have kb2 : getWord s5.mem (s.lo + 12 + total pre + 4 + 4)
      = getWord s.mem (s.lo + 12 + total pre + 8) := by
    rw [show s.lo + 12 + total pre + 4 + 4 = s.lo + 12 + total pre + 8 from by omega]
    exact getWord_congr fun x h1 h2 => hfrb x (by clear * - h1; omega) (by clear * - h2; omega)
  have hfl5 : FLseg s5.mem 0 s5.free_list (l1 ++ (s.lo + 12 + total pre + 4) :: l2) 0 := by
    rw [fl5]
    refine FLseg_frame hI.fl fun f hf x h1 h2 => ?_
    rcases List.mem_append.1 hf with hf1 | hf1
    · have := hrange f (List.mem_append_left _ hf1)
      exact hfr x (by clear * - this h1 h2; omega)
    · rcases List.mem_cons.1 hf1 with rfl | hf1
      · exact hfrb x h1 h2
      · have := hrange f (List.mem_append_right _ hf1)
        exact hfr x (by clear * - this h1 h2; omega)
  have hg5 : Geom s5 (l1 ++ (s.lo + 12 + total pre + 4) :: l2) :=
    ⟨hgeom.nodup, hgeom.sep, fun f hf => by
      have := hgeom.inb f hf; clear * - this lo5 brk5; omega, by clear * - brk5 hbrk; omega⟩
  obtain ⟨s6, e6, hfl6, hfr6, lo6, brk6, max6, hl6⟩ :=
    relink_replace (c := s.lo + 12 + total pre + 4 + asize) hg5 hfl5 (by omega)
      (by clear * - hsize hbrk; omega)
      (fun f hf => by have := hrange f hf; clear * - this h16 hd; omega)
      (by rw [kb1, show s.lo + 12 + total pre + 4 + asize = s.lo + 12 + total pre + asize + 4
            from by omega, k5])
      (by rw [kb2, show s.lo + 12 + total pre + 4 + asize + 4 = s.lo + 12 + total pre + asize + 8
            from by omega, k4])
  rw [kb1, kb2, ← e5] at e6
  have hfa1 : freeAddrs (s.lo + 12) (pre ++ ⟨asize, true⟩ :: ⟨d, false⟩ :: post)
      = freeAddrs (s.lo + 12) pre ++
        (s.lo + 12 + total pre + 4 + asize) ::
          freeAddrs (s.lo + 12 + total pre + (asize + d)) post := by
    rw [freeAddrs_append]
    simp only [freeAddrs, Bool.false_eq_true, if_false, if_true]
    rw [show s.lo + 12 + total pre + asize + 4 = s.lo + 12 + total pre + 4 + asize from by omega,
      show s.lo + 12 + total pre + asize + d = s.lo + 12 + total pre + (asize + d) from by omega]
  have hS1 : Sized (pre ++ ⟨asize, true⟩ :: ⟨d, false⟩ :: post) :=
    Sized_append.2 ⟨hSpre, Sized_cons.2 ⟨⟨h16, h8⟩, Sized_cons.2 ⟨⟨hd, hd8⟩, hSpost⟩⟩⟩
  have hseg5 : Seg s5.mem (s.lo + 12) true (pre ++ ⟨asize, true⟩ :: ⟨d, false⟩ :: post) := by
    refine (Seg_append _ _ _ _ _).2 ⟨Seg_frame_range hpre fun x h1 h2 =>
      hfr x (by clear * - h2; omega), ?_⟩
    rw [hpa]
    refine Seg_cons.2 ⟨k1, h16, h8, fun h => by simp at h, ?_⟩
    refine Seg_cons.2 ⟨k2, hd, hd8, fun _ => ⟨rfl, ?_⟩, ?_⟩
    · rw [show s.lo + 12 + total pre + asize + d - 4 = F from by clear * - hF; omega]
      exact k3
    · rw [show s.lo + 12 + total pre + asize + d = s.lo + 12 + total pre + (asize + d)
        from by omega]
      exact Seg_frame_range hpost fun x h1 h2 => hfr x (by clear * - h1; omega)
  have hlk := @links_frame s5.mem s6.mem (s.lo + 12) _ hS1 (fun x hx => by
    apply hfr6
    intro f hf
    apply hx
    rw [hfa1]
    rcases List.mem_append.1 ((hmem f).1 hf) with hm | hm
    · exact List.mem_append_left _ hm
    · exact List.mem_append_right _ (List.mem_cons_of_mem _ hm))
  have htot : total (pre ++ ⟨asize, true⟩ :: ⟨d, false⟩ :: post)
      = total pre + (asize + d) + total post := by
    simp only [total_append, total]; omega
  have elo : s6.lo = s.lo := by rw [lo6, lo5]
  have ebrk : s6.brk = s.brk := by rw [brk6, brk5]
  have emax : s6.max = s.max := by rw [max6, max5]
  have hbm := hI.brk_max
  refine ⟨s6, l1, l2, e6, rfl, ?_, ?_, elo, ebrk, emax⟩
  · refine ⟨by rw [ebrk, emax]; exact hbm, by rw [emax]; exact hI.max_lt,
      by rw [hl6, hl5, elo]; exact hI.hl, ?_, ?_, ?_, ?_, hfl6, ?_, ?_⟩
    · rw [elo, hlk.2.1 _ (by omega), ← hI.prologue]
      exact getWord_congr fun x h1 h2 => hfr x (by clear * - h2; omega)
    · rw [elo]; exact hlk.1 _ hseg5
    · rw [htot, ebrk, elo]; clear * - hsize; omega
    · rw [elo, hlk.2.1 _ (by clear * - htot; omega), htot]
      simp only [lastAlloc_append, lastAlloc]
      rw [← hepi, show s.lo + 12 + (total pre + (asize + d) + total post)
        = s.lo + 12 + total pre + (asize + d) + total post from by omega]
      exact getWord_congr fun x h1 h2 => hfr x (by clear * - h1; omega)
    · refine nodup_replace hI.nodup fun hc => ?_
      have := hrange _ hc; clear * - this h16 hd; omega
    · intro x
      rw [elo, hfa1]
      have := hmem x
      simp only [List.mem_append, List.mem_cons] at this ⊢
      constructor
      · rintro (h | rfl | h)
        · exact (this.1 (Or.inl h)).imp id Or.inr
        · exact Or.inr (Or.inl rfl)
        · exact (this.1 (Or.inr h)).imp id Or.inr
      · rintro (h | rfl | h)
        · exact (this.2 (Or.inl h)).imp id Or.inr
        · exact Or.inr (Or.inl rfl)
        · exact (this.2 (Or.inr h)).imp id Or.inr
  · intro x hx
    rw [hlk.2.2 x ?_]
    · rw [InAlloc_append] at hx
      rcases hx with hx | hx
      · have := InAlloc_range hx; exact hfr x (by clear * - this; omega)
      · rcases InAlloc_cons.1 hx with ⟨h, _⟩ | hx
        · simp at h
        · have := InAlloc_range hx
          simp only [] at this
          exact hfr x (by clear * - this; omega)
    · rw [InAlloc_append] at hx ⊢
      rcases hx with hx | hx
      · exact Or.inl hx
      · rcases InAlloc_cons.1 hx with ⟨h, _⟩ | hx
        · simp at h
        · right
          refine InAlloc_cons.2 (Or.inr (InAlloc_cons.2 (Or.inr ?_)))
          rw [show s.lo + 12 + total pre + asize + d = s.lo + 12 + total pre + (asize + d)
            from by omega]
          exact hx

theorem headAlloc_of_false {m : Mem} {e : Nat} {post : List Blk} (h : Seg m e false post) :
    headAlloc post = true := by
  cases post with
  | nil => rfl
  | cons b r =>
    obtain ⟨_, _, _, h3, _⟩ := Seg_cons.1 h
    show b.alloc = true
    cases hb : b.alloc
    · exact absurd (h3 hb).1 (by simp)
    · rfl

theorem tail_word {m : Mem} {e : Nat} {pa : Bool} {post : List Blk} (hseg : Seg m e pa post)
    (hepi : getWord m (e + total post) = tag 0 true (lastAlloc pa post)) :
    getWord m e = tag (headSize post) (headAlloc post) pa ∧ headSize post % 8 = 0 ∧
      headSize post ≤ total post := by
  cases post with
  | nil => exact ⟨hepi, rfl, Nat.le_refl _⟩
  | cons b r =>
    obtain ⟨h0, _, h2, _, _⟩ := Seg_cons.1 hseg
    exact ⟨h0, h2, by simp [headSize, total]⟩

theorem tail_repa {m m1 : Mem} {e : Nat} {pa pa1 : Bool} {post : List Blk}
    (hseg : Seg m e pa post)
    (hepi : getWord m (e + total post) = tag 0 true (lastAlloc pa post))
    (hal : headAlloc post = true)
    (hw : getWord m1 e = tag (headSize post) true pa1)
    (hfr : ∀ x, e + 4 ≤ x → m1 x = m x) :
    Seg m1 e pa1 post ∧ getWord m1 (e + total post) = tag 0 true (lastAlloc pa1 post) := by
  cases post with
  | nil => exact ⟨trivial, hw⟩
  | cons b r =>
    obtain ⟨h0, h1, h2, h3, h4⟩ := Seg_cons.1 hseg
    have hb : b.alloc = true := hal
    refine ⟨Seg_cons.2 ⟨by rw [hb]; exact hw, h1, h2, fun h => by rw [hb] at h; simp at h,
      Seg_frame_range h4 fun x hx1 hx2 => hfr x (by omega)⟩, ?_⟩
    simp only [lastAlloc] at hepi ⊢
    rw [← hepi]
    simp only [total]
    exact getWord_congr fun x hx1 hx2 => hfr x (by omega)

theorem tail_frame {m m1 : Mem} {e : Nat} {pa : Bool} {post : List Blk}
    (hseg : Seg m e pa post)
    (hepi : getWord m (e + total post) = tag 0 true (lastAlloc pa post))
    (hfr : ∀ x, e ≤ x → m1 x = m x) :
    Seg m1 e pa post ∧ getWord m1 (e + total post) = tag 0 true (lastAlloc pa post) :=
  ⟨Seg_frame_range hseg fun x h1 _ => hfr x h1,
    by rw [← hepi]; exact getWord_congr fun x h1 _ => hfr x (by omega)⟩

theorem place_nosplit_exec {s : State} {h sz nsz asize : Nat} {nal : Bool}
    (hlo : s.lo ≤ h) (hb : h + sz + 4 ≤ s.brk) (h32 : s.brk < 4294967296)
    (hsz16 : 16 ≤ sz) (hsz8 : sz % 8 = 0) (hle : asize ≤ sz) (hlt : sz < asize + 16)
    (hn8 : nsz % 8 = 0) (hn32 : nsz + 3 < 4294967296)
    (hhd : getWord s.mem h = tag sz false true)
    (hnx : getWord s.mem (h + sz) = tag nsz nal false) :
    ∃ s2, place s (h + 4) asize = relink s2 (getWord s.mem (h + 4)) (getWord s.mem (h + 8))
        (getWord s.mem (h + 8)) (getWord s.mem (h + 4)) ∧
      s2.mem = putWord (putWord s.mem h (tag sz true true)) (h + sz) (tag nsz true true) ∧
      s2.free_list = s.free_list ∧ Same s s2 := by
  have hs := Same.refl s
  have hH : HDRP (h + 4) = h := by rw [HDRP_eq (by omega) (by omega)]; omega
  have r1 : GET_WORD s (PRED (h + 4)) = some (getWord s.mem (h + 4)) :=
    GET_WORD_eq (by show s.lo ≤ h + 4; omega) (by show h + 4 + 4 ≤ s.brk; omega)
  have r2 : GET_WORD s (SUCC (h + 4)) = some (getWord s.mem (h + 8)) := by
    rw [SUCC_eq (by omega)]; exact GET_WORD_eq (by omega) (by omega)
  have r3 : GET_SIZE s (HDRP (h + 4)) = some sz := by
    rw [hH]; exact GET_SIZE_tag (by omega) (by omega) hhd hsz8
  have hdiff : ¬ (usub sz asize ≥ 2 * DSIZE) := by
    rw [usub_eq (by omega) (by omega)]; unfold DSIZE; omega
  have b1 : h + 4 ≤ s.brk := by omega
  have b2 : s.lo ≤ h + sz := by omega
  have c1 : h + 4 + sz < 4294967296 := by omega
  have c4 : tag sz true true < 4294967296 := by rw [tag_true_true]; omega
  have a1 : HDRP (h + 4 + sz) = h + sz := by
    rw [HDRP_eq (by omega) (by omega)]; omega
  unfold place
  simp only [r1, r2, r3]
  rw [if_neg hdiff, hH, PACK_11 hsz8]
  clear r1 r2 r3 hdiff hH h32
  obtain ⟨s1, e1, m1, fl1, hs1⟩ := PUT_WORD_step hs h (tag sz true true) hlo b1
  rw [e1]; simp only []
  have g1 : getWord s1.mem h = tag sz true true := by rw [m1, getWord_same_lt c4]
  have g2 : getWord s1.mem (h + sz) = tag nsz nal false := by
    rw [m1, getWord_putWord_other _ _ _ _ (by omega)]; exact hnx
  rw [NEXT_BLKP_step hs1 hlo b1 c1 g1 hsz8]; simp only []
  rw [a1, GET_SIZE_step hs1 b2 hb g2 hn8]; simp only []
  rw [PACK_11 hn8]
  obtain ⟨s2, e2, m2, fl2, hs2⟩ := PUT_WORD_step hs1 (h + sz) (tag nsz true true) b2 hb
  rw [e2]
  exact ⟨s2, rfl, by rw [m2, m1], by rw [fl2, fl1], hs2⟩

/-- `place` on a free block with a remainder below 16 bytes: the whole block is allocated and
leaves the free list. -/
theorem place_nosplit {s : State} {pre post : List Blk} {l : List Nat} {sz asize : Nat}
    (hI : Inv s (pre ++ ⟨sz, false⟩ :: post) l)
    (hle : asize ≤ sz) (hlt : sz < asize + 16) :
    ∃ s1 l1 l2, place s (s.lo + 12 + total pre + 4) asize = some s1 ∧
      l = l1 ++ (s.lo + 12 + total pre + 4) :: l2 ∧
      Inv s1 (pre ++ ⟨sz, true⟩ :: post) (l1 ++ l2) ∧
      (∀ x, InAlloc (s.lo + 12) (pre ++ ⟨sz, false⟩ :: post) x → s1.mem x = s.mem x) ∧
      s1.lo = s.lo ∧ s1.brk = s.brk ∧ s1.max = s.max := by
  obtain ⟨hpre, hhd, hft, hpa, hpost, hsize, hepi, hsz16, hsz8, hSpre, hSpost, hfa⟩ := hI.at_free
  have hbrk := hI.brk_lt
  have hbm := hI.brk_max
  have hbpl : s.lo + 12 + total pre + 4 ∈ l := (hI.mem_iff _).2 (by rw [hfa]; simp)
  obtain ⟨l1, l2, rfl⟩ := List.append_of_mem hbpl
  obtain ⟨hmem, hrange⟩ := hI.others
  have hgeom := hI.geom
  obtain ⟨hnx, hn8, hnle⟩ := tail_word hpost hepi
  rw [headAlloc_of_false hpost] at hnx
  obtain ⟨s2, e2, m2, fl2, ⟨lo2, brk2, max2, hl2⟩⟩ :=
    @place_nosplit_exec s (s.lo + 12 + total pre) _ _ asize _ (by omega)
      (by clear * - hsize; omega) hbrk hsz16 hsz8 hle hlt hn8
      (by clear * - hsize hbrk hnle; omega) hhd hnx
  have hfr : ∀ x, x < s.lo + 12 + total pre ∨ s.lo + 12 + total pre + sz + 4 ≤ x →
      s2.mem x = s.mem x := by
    intro x hx
    rw [m2, putWord_other _ _ _ _ (by clear * - hx hsz16; omega),
      putWord_other _ _ _ _ (by clear * - hx hsz16; omega)]
  have hfrb : ∀ x, s.lo + 12 + total pre + 4 ≤ x → x < s.lo + 12 + total pre + 12 →
      s2.mem x = s.mem x := by
    intro x hx1 hx2
    rw [m2, putWord_other _ _ _ _ (by clear * - hx1 hx2 hsz16; omega),
      putWord_other _ _ _ _ (by clear * - hx1 hx2 hsz16; omega)]
  have k1 : getWord s2.mem (s.lo + 12 + total pre) = tag sz true true := by
    rw [m2, getWord_putWord_other _ _ _ _ (by clear * - hsz16; omega),
      getWord_same_lt (by rw [tag_true_true]; clear * - hsize hbrk; omega)]
  have k2 : getWord s2.mem (s.lo + 12 + total pre + sz) = tag (headSize post) true true := by
    rw [m2, getWord_same_lt (by rw [tag_true_true]; clear * - hsize hbrk hnle; omega)]
  have kb1 : getWord s2.mem (s.lo + 12 + total pre + 4)
      = getWord s.mem (s.lo + 12 + total pre + 4) :=
    getWord_congr fun x h1 h2 => hfrb x h1 (by clear * - h2; omega)
  have kb2 : getWord s2.mem (s.lo + 12 + total pre + 4 + 4)
      = getWord s.mem (s.lo + 12 + total pre + 8) := by
    rw [show s.lo + 12 + total pre + 4 + 4 = s.lo + 12 + total pre + 8 from by omega]
    exact getWord_congr fun x h1 h2 => hfrb x (by clear * - h1; omega) (by clear * - h2; omega)
  have hfl2 : FLseg s2.mem 0 s2.free_list (l1 ++ (s.lo + 12 + total pre + 4) :: l2) 0 := by
    rw [fl2]
    refine FLseg_frame hI.fl fun f hf x h1 h2 => ?_
    rcases List.mem_append.1 hf with hf1 | hf1
    · have := hrange f (List.mem_append_left _ hf1)
      exact hfr x (by clear * - this h1 h2; omega)
    · rcases List.mem_cons.1 hf1 with rfl | hf1
      · exact hfrb x h1 (by clear * - h2; omega)
      · have := hrange f (List.mem_append_right _ hf1)
        exact hfr x (by clear * - this h1 h2; omega)
  have hg2 : Geom s2 (l1 ++ (s.lo + 12 + total pre + 4) :: l2) :=
    ⟨hgeom.nodup, hgeom.sep, fun f hf => by
      have := hgeom.inb f hf; clear * - this lo2 brk2; omega, by clear * - brk2 hbrk; omega⟩
  obtain ⟨s3, e3, hfl3, hfr3, lo3, brk3, max3, hl3⟩ := relink_unlink hg2 hfl2
  rw [kb1, kb2, ← e2] at e3
  have hfa1 : freeAddrs (s.lo + 12) (pre ++ ⟨sz, true⟩ :: post)
      = freeAddrs (s.lo + 12) pre ++ freeAddrs (s.lo + 12 + total pre + sz) post := by
    rw [freeAddrs_append]
    simp only [freeAddrs, if_true]
  have hS1 : Sized (pre ++ ⟨sz, true⟩ :: post) :=
    Sized_append.2 ⟨hSpre, Sized_cons.2 ⟨⟨hsz16, hsz8⟩, hSpost⟩⟩
  obtain ⟨hseg2, hepi2⟩ := @tail_repa _ s2.mem _ _ true _ hpost hepi
    (headAlloc_of_false hpost) k2 (fun x hx => hfr x (by clear * - hx; omega))
  have hsegA : Seg s2.mem (s.lo + 12) true (pre ++ ⟨sz, true⟩ :: post) := by
    refine (Seg_append _ _ _ _ _).2 ⟨Seg_frame_range hpre fun x h1 h2 =>
      hfr x (by clear * - h2; omega), ?_⟩
    rw [hpa]
    exact Seg_cons.2 ⟨k1, hsz16, hsz8, fun h => by simp at h, hseg2⟩
  have hlk := @links_frame s2.mem s3.mem (s.lo + 12) _ hS1 (fun x hx => by
    apply hfr3
    intro f hf
    apply hx
    rw [hfa1]
    exact (hmem f).1 hf)
  have htot : total (pre ++ ⟨sz, true⟩ :: post) = total pre + sz + total post := by
    simp only [total_append, total]; omega
  have elo : s3.lo = s.lo := by rw [lo3, lo2]
  have ebrk : s3.brk = s.brk := by rw [brk3, brk2]
  have emax : s3.max = s.max := by rw [max3, max2]
  refine ⟨s3, l1, l2, e3, rfl, ?_, ?_, elo, ebrk, emax⟩
  · refine ⟨by rw [ebrk, emax]; exact hbm, by rw [emax]; exact hI.max_lt,
      by rw [hl3, hl2, elo]; exact hI.hl, ?_, ?_, ?_, ?_, hfl3, nodup_without hI.nodup, ?_⟩
    · rw [elo, hlk.2.1 _ (by omega), ← hI.prologue]
      exact getWord_congr fun x h1 h2 => hfr x (by clear * - h2; omega)
    · rw [elo]; exact hlk.1 _ hsegA
    · rw [htot, ebrk, elo]; clear * - hsize; omega
    · rw [elo, hlk.2.1 _ (by clear * - htot; omega), htot]
      simp only [lastAlloc_append, lastAlloc]
      rw [show s.lo + 12 + (total pre + sz + total post)
        = s.lo + 12 + total pre + sz + total post from by omega]
      exact hepi2
    · intro x
      rw [elo, hfa1]
      exact hmem x
  · intro x hx
    rw [hlk.2.2 x ?_]
    · rw [InAlloc_append] at hx
      rcases hx with hx | hx
      · have := InAlloc_range hx; exact hfr x (by clear * - this; omega)
      · rcases InAlloc_cons.1 hx with ⟨h, _⟩ | hx
        · simp at h
        · have := InAlloc_range hx
          simp only [] at this
          exact hfr x (by clear * - this; omega)
    · rw [InAlloc_append] at hx ⊢
      rcases hx with hx | hx
      · exact Or.inl hx
      · rcases InAlloc_cons.1 hx with ⟨h, _⟩ | hx
        · simp at h
        · exact Or.inr (InAlloc_cons.2 (Or.inr hx))

theorem Inv.tinv {s : State} {bs : List Blk} {l : List Nat} (h : Inv s bs l) : TInv s bs :=
  ⟨h.brk_max, h.max_lt, h.hl, h.prologue, h.seg, h.size, h.epi⟩

theorem InvX.tinv_x {s : State} {bs : List Blk} {l : List Nat} {r : Nat} (h : InvX s bs l r) :
    TInv s bs :=
  ⟨h.brk_max, h.max_lt, h.hl, h.prologue, h.seg, h.size, h.epi⟩

theorem TInv.brk_lt32 {s : State} {bs : List Blk} (h : TInv s bs) : s.brk < 4294967296 :=
  Nat.lt_of_le_of_lt h.brk_max h.max_lt

/-- Changes confined to link words of free blocks preserve the boundary tags. -/
theorem TInv.links {s s1 : State} {bs : List Blk} (h : TInv s bs)
    (hs : s1.lo = s.lo ∧ s1.brk = s.brk ∧ s1.max = s.max ∧ s1.heap_listp = s.heap_listp)
    (hm : ∀ x, (∀ f ∈ freeAddrs (s.lo + 12) bs, x < f ∨ f + 8 ≤ x) → s1.mem x = s.mem x) :
    TInv s1 bs ∧ (∀ x, InAlloc (s.lo + 12) bs x → s1.mem x = s.mem x) := by
  obtain ⟨h1, h2, h3, h4⟩ := hs
  have hlk := @links_frame s.mem s1.mem (s.lo + 12) _ h.seg.sized hm
  refine ⟨⟨by rw [h2, h3]; exact h.brk_max, by rw [h3]; exact h.max_lt,
    by rw [h4, h1]; exact h.hl, ?_, ?_, by rw [h1, h2]; exact h.size, ?_⟩, hlk.2.2⟩
  · rw [h1, hlk.2.1 _ (by omega)]; exact h.prologue
  · rw [h1]; exact hlk.1 _ h.seg
  · rw [h1, hlk.2.1 _ (by omega)]; exact h.epi

/-- Unlinking a node of the free list, all other nodes being free blocks of the heap. -/
theorem unlink_step {s : State} {bs : List Blk} {L : List Nat} {b : Nat}
    (hT : TInv s bs) (hfl : FLseg s.mem 0 s.free_list L 0) (hg : Geom s L) (hb : b ∈ L)
    (hsub : ∀ y ∈ L, y ≠ b → y ∈ freeAddrs (s.lo + 12) bs) :
    ∃ s1, unlink s b = some s1 ∧
      TInv s1 bs ∧ FLseg s1.mem 0 s1.free_list (L.erase b) 0 ∧ Geom s1 (L.erase b) ∧
      (∀ x, InAlloc (s.lo + 12) bs x → s1.mem x = s.mem x) ∧
      (∀ x, (∀ f ∈ L.erase b, x < f ∨ f + 8 ≤ x) → s1.mem x = s.mem x) ∧
      s1.lo = s.lo ∧ s1.brk = s.brk ∧ s1.max = s.max ∧ s1.heap_listp = s.heap_listp := by
  obtain ⟨l1, l2, rfl⟩ := List.append_of_mem hb
  have hnd := hg.nodup
  have hb1 : b ∉ l1 := fun h => (List.nodup_append.1 hnd).2.2 h (List.mem_cons_self _ _)
  have he : (l1 ++ b :: l2).erase b = l1 ++ l2 := by
    rw [List.erase_append_right _ hb1, List.erase_cons_head]
  obtain ⟨s1, e1, hfl1, hfr1, lo1, brk1, max1, hl1⟩ := relink_unlink hg hfl
  have hbb := hg.inb b hb
  have hbrk := hg.brk
  have e1 : unlink s b = some s1 := by
    unfold unlink
    rw [show PRED b = b from rfl, GET_WORD_eq (by omega) (by omega)]
    simp only []
    rw [SUCC_eq (by omega), GET_WORD_eq (by omega) (by omega)]
    exact e1
  have hsub1 : ∀ y ∈ l1 ++ l2, y ∈ freeAddrs (s.lo + 12) bs := by
    intro y hy
    have hyL : y ∈ l1 ++ b :: l2 := by
      rcases List.mem_append.1 hy with h | h
      · exact List.mem_append_left _ h
      · exact List.mem_append_right _ (List.mem_cons_of_mem _ h)
    refine hsub y hyL ?_
    rintro rfl
    rcases List.mem_append.1 hy with h | h
    · exact hb1 h
    · exact (List.nodup_cons.1 (List.nodup_append.1 hnd).2.1).1 h
  obtain ⟨hT1, hfrA⟩ := @TInv.links _ s1 _ hT ⟨lo1, brk1, max1, hl1⟩
    (fun x hx => hfr1 x fun f hf => hx f (hsub1 f hf))
  rw [he]
  refine ⟨s1, e1, hT1, hfl1, ⟨nodup_without hnd, ?_, ?_, by rw [brk1]; exact hg.brk⟩, hfrA,
    hfr1, lo1, brk1, max1, hl1⟩
  · intro f hf g hg' hne
    refine hg.sep f ?_ g ?_ hne
    · rcases List.mem_append.1 hf with h | h
      · exact List.mem_append_left _ h
      · exact List.mem_append_right _ (List.mem_cons_of_mem _ h)
    · rcases List.mem_append.1 hg' with h | h
      · exact List.mem_append_left _ h
      · exact List.mem_append_right _ (List.mem_cons_of_mem _ h)
  · intro f hf
    rw [lo1, brk1]
    apply hg.inb
    rcases List.mem_append.1 hf with h | h
    · exact List.mem_append_left _ h
    · exact List.mem_append_right _ (List.mem_cons_of_mem _ h)

theorem merged_HFE {m : Mem} {H F E T N : Nat} (h1 : H + 4 ≤ F) (h2 : F + 4 ≤ E)
    (hT : T < 4294967296) (hN : N < 4294967296) :
    Merged m (putWord (putWord (putWord m H T) F T) E N) H F E T N := by
  refine ⟨?_, ?_, ?_, ?_⟩
  · rw [getWord_putWord_other _ _ _ _ (by omega), getWord_putWord_other _ _ _ _ (by omega),
      getWord_same_lt hT]
  · rw [getWord_putWord_other _ _ _ _ (by omega), getWord_same_lt hT]
  · rw [getWord_same_lt hN]
  · intro x a b c
    rw [putWord_other _ _ _ _ c, putWord_other _ _ _ _ b, putWord_other _ _ _ _ a]

theorem merged_FHE {m : Mem} {H F E T N : Nat} (h1 : H + 4 ≤ F) (h2 : F + 4 ≤ E)
    (hT : T < 4294967296) (hN : N < 4294967296) :
    Merged m (putWord (putWord (putWord m F T) H T) E N) H F E T N := by
  refine ⟨?_, ?_, ?_, ?_⟩
  · rw [getWord_putWord_other _ _ _ _ (by omega), getWord_same_lt hT]
  · rw [getWord_putWord_other _ _ _ _ (by omega), getWord_putWord_other _ _ _ _ (by omega),
      getWord_same_lt hT]
  · rw [getWord_same_lt hN]
  · intro x a b c
    rw [putWord_other _ _ _ _ c, putWord_other _ _ _ _ a, putWord_other _ _ _ _ b]

theorem merged_E {m : Mem} {H F E T N : Nat} (h1 : H + 4 ≤ F) (h2 : F + 4 ≤ E)
    (hH : getWord m H = T) (hF : getWord m F = T) (hN : N < 4294967296) :
    Merged m (putWord m E N) H F E T N := by
  refine ⟨?_, ?_, ?_, ?_⟩
  · rw [getWord_putWord_other _ _ _ _ (by omega), hH]
  · rw [getWord_putWord_other _ _ _ _ (by omega), hF]
  · rw [getWord_same_lt hN]
  · intro x _ _ c
    rw [putWord_other _ _ _ _ c]

/-- The reads at the start of `coalesce`. -/
theorem coalesce_reads {s : State} {h sz nsz : Nat} {pa nal npa : Bool}
    (hlo : s.lo + 4 ≤ h) (hb : h + sz + 4 ≤ s.brk) (h32 : s.brk < 4294967296)
    (hsz8 : sz % 8 = 0) (hn8 : nsz % 8 = 0)
    (hhd : getWord s.mem h = tag sz false pa)
    (hnx : getWord s.mem (h + sz) = tag nsz nal npa) :
    ∃ prev, PREV_BLKP s (h + 4) = some prev ∧
      coalesce s (h + 4) =
        if pa.toNat ≠ 0 ∧ nal.toNat ≠ 0 then coalesce_case1 s (h + 4) (h + 4 + sz) nal.toNat
        else if pa.toNat ≠ 0 ∧ ¬ (nal.toNat ≠ 0) then coalesce_case2 s (h + 4) (h + 4 + sz) sz
        else if ¬ (pa.toNat ≠ 0) ∧ nal.toNat ≠ 0 then
          coalesce_case3 s (h + 4) prev (h + 4 + sz) nal.toNat sz
        else coalesce_case4 s (h + 4) prev (h + 4 + sz) sz := by
  have hs := Same.refl s
  obtain ⟨prev, hprev⟩ := @PREV_BLKP_some s (h + 4) (by omega) (by omega) (by omega)
  have hH : HDRP (h + 4) = h := by rw [HDRP_eq (by omega) (by omega)]; omega
  have a1 : HDRP (h + 4 + sz) = h + sz := by rw [HDRP_eq (by omega) (by omega)]; omega
  refine ⟨prev, hprev, ?_⟩
  unfold coalesce
  simp only [hprev, hH]
  rw [NEXT_BLKP_step hs (by omega) (by omega) (by omega) hhd hsz8]
  simp only []
  rw [GET_PREV_ALLOC_step hs (by omega) (by omega) hhd hsz8]
  simp only [a1]
  rw [GET_ALLOC_step hs (by omega) (by omega) hnx hn8]
  simp only []
  rw [GET_SIZE_step hs (by omega) (by omega) hhd hsz8]

theorem coalesce_case1_exec {s : State} {h sz nsz : Nat} {npa : Bool}
    (hlo : s.lo + 4 ≤ h) (hb : h + sz + 4 ≤ s.brk) (h32 : s.brk < 4294967296)
    (hn8 : nsz % 8 = 0)
    (hnx : getWord s.mem (h + sz) = tag nsz true npa) :
    ∃ s1, coalesce_case1 s (h + 4) (h + 4 + sz) 1 = some (h + 4, s1) ∧
      s1.mem = putWord s.mem (h + sz) (tag nsz true false) ∧
      s1.free_list = s.free_list ∧ Same s s1 := by
  have hs := Same.refl s
  have a1 : HDRP (h + 4 + sz) = h + sz := by rw [HDRP_eq (by omega) (by omega)]; omega
  unfold coalesce_case1
  rw [a1, GET_SIZE_step hs (by omega) (by omega) hnx hn8]
  simp only []
  rw [PACK_10 hn8]
  obtain ⟨s1, e1, m1, fl1, hs1⟩ :=
    PUT_WORD_step hs (h + sz) (tag nsz true false) (by omega) (by omega)
  rw [e1]
  exact ⟨s1, rfl, m1, fl1, hs1⟩

theorem coalesce_case2_exec {s : State} {h sz nsz n2 F : Nat} {npa n2a n2p : Bool}
    (hlo : s.lo + 4 ≤ h) (hF : F + 4 = h + sz + nsz) (hb : F + 8 ≤ s.brk)
    (h32 : s.brk < 4294967296)
    (hsz16 : 16 ≤ sz) (hsz8 : sz % 8 = 0) (hn16 : 16 ≤ nsz) (hn8 : nsz % 8 = 0)
    (h28 : n2 % 8 = 0)
    (hnx : getWord s.mem (h + sz) = tag nsz false npa)
    (hn2 : getWord s.mem (h + sz + nsz) = tag n2 n2a n2p) :
    ∃ s3, coalesce_case2 s (h + 4) (h + 4 + sz) sz
        = (match unlink s3 (h + 4 + sz) with
          | none => none
          | some s4 => some (h + 4, s4)) ∧
      s3.mem = putWord (putWord (putWord s.mem h (tag (sz + nsz) false true)) F
        (tag (sz + nsz) false true)) (h + sz + nsz) (tag n2 true false) ∧
      s3.free_list = s.free_list ∧ Same s s3 := by
  have hs := Same.refl s
  have a1 : HDRP (h + 4 + sz) = h + sz := by rw [HDRP_eq (by omega) (by omega)]; omega
  have hH : HDRP (h + 4) = h := by rw [HDRP_eq (by omega) (by omega)]; omega
  have a2 : uadd sz nsz = sz + nsz := uadd_eq (by omega)
  have a3 : HDRP (h + 4 + (sz + nsz)) = h + sz + nsz := by
    rw [HDRP_eq (by omega) (by omega)]; omega
  have s8 : (sz + nsz) % 8 = 0 := by omega
  have b1 : s.lo ≤ h := by omega
  have b2 : h + 4 ≤ s.brk := by omega
  have b3 : s.lo ≤ h + sz := by omega
  have b4 : h + sz + 4 ≤ s.brk := by omega
  have b5 : s.lo ≤ F := by omega
  have b6 : F + 4 ≤ s.brk := by omega
  have b7 : s.lo ≤ h + sz + nsz := by omega
  have b8 : h + sz + nsz + 4 ≤ s.brk := by omega
  have c1 : h + 4 + (sz + nsz) < 4294967296 := by omega
  have c2 : F + 4 = h + (sz + nsz) := by omega
  have c4 : tag (sz + nsz) false true < 4294967296 := by rw [tag_false_true]; omega
  have d1 : h + 4 ≤ F := by omega
  have d2 : F + 4 ≤ h + sz + nsz := by omega
  unfold coalesce_case2
  rw [a1, GET_SIZE_step hs b3 b4 hnx hn8]
  simp only [a2, hH]
  rw [PACK_01 s8]
  clear a1 a2 hH hlo hb h32 hsz16 hn16 hnx
  obtain ⟨s1, e1, m1, fl1, hs1⟩ := PUT_WORD_step hs h (tag (sz + nsz) false true) b1 b2
  rw [e1]; simp only []
  have g1 : getWord s1.mem h = tag (sz + nsz) false true := by rw [m1, getWord_same_lt c4]
  rw [FTRP_step hs1 b1 b2 c1 c2 g1 s8]; simp only []
  obtain ⟨s2, e2, m2, fl2, hs2⟩ := PUT_WORD_step hs1 F (tag (sz + nsz) false true) b5 b6
  rw [e2]; simp only []
  have g2 : getWord s2.mem h = tag (sz + nsz) false true := by
    rw [m2, getWord_putWord_other _ _ _ _ (Or.inl d1)]; exact g1
  have g3 : getWord s2.mem (h + sz + nsz) = tag n2 n2a n2p := by
    rw [m2, getWord_putWord_other _ _ _ _ (Or.inr d2), m1,
      getWord_putWord_other _ _ _ _ (by clear * - d1 d2; omega)]
    exact hn2
  rw [NEXT_BLKP_step hs2 b1 b2 c1 g2 s8]; simp only []
  rw [a3, GET_SIZE_step hs2 b7 b8 g3 h28]; simp only []
  rw [PACK_10 h28]
  obtain ⟨s3, e3, m3, fl3, hs3⟩ := PUT_WORD_step hs2 (h + sz + nsz) (tag n2 true false) b7 b8
  rw [e3]
  exact ⟨s3, rfl, by rw [m3, m2, m1], by rw [fl3, fl2, fl1], hs3⟩

theorem coalesce_case3_exec {s : State} {h H P F sz psz nsz : Nat} {npa : Bool}
    (hlo : s.lo + 4 ≤ H) (hH : H + psz = h) (hP : P + 4 = h) (hF : F + 4 = h + sz)
    (hb : h + sz + 4 ≤ s.brk) (h32 : s.brk < 4294967296)
    (hsz16 : 16 ≤ sz) (hsz8 : sz % 8 = 0) (hp16 : 16 ≤ psz) (hp8 : psz % 8 = 0)
    (hn8 : nsz % 8 = 0)
    (hhd : getWord s.mem h = tag sz false false)
    (hpf : getWord s.mem P = tag psz false true)
    (hph : getWord s.mem H = tag psz false true)
    (hnx : getWord s.mem (h + sz) = tag nsz true npa) :
    ∃ s3, coalesce_case3 s (h + 4) (H + 4) (h + 4 + sz) 1 sz
        = (match unlink s3 (H + 4) with
          | none => none
          | some s4 => some (H + 4, s4)) ∧
      s3.mem = putWord (putWord (putWord s.mem F (tag (sz + psz) false true)) H
        (tag (sz + psz) false true)) (h + sz) (tag nsz true false) ∧
      s3.free_list = s.free_list ∧ Same s s3 := by
  have hs := Same.refl s
  have a1 : HDRP (h + 4 + sz) = h + sz := by rw [HDRP_eq (by omega) (by omega)]; omega
  have a0 : HDRP (H + 4) = H := by rw [HDRP_eq (by omega) (by omega)]; omega
  have a2 : uadd sz psz = sz + psz := uadd_eq (by omega)
  have a3 : h + 4 - psz = H + 4 := by omega
  have a4 : h - 4 = P := by omega
  have s8 : (sz + psz) % 8 = 0 := by omega
  have b1 : s.lo ≤ h := by omega
  have b2 : h + 4 ≤ s.brk := by omega
  have b3 : s.lo ≤ h + sz := by omega
  have b4 : h + sz + 4 ≤ s.brk := hb
  have b5 : s.lo ≤ F := by omega
  have b6 : F + 4 ≤ s.brk := by omega
  have b7 : s.lo ≤ H := by omega
  have b8 : H + 4 ≤ s.brk := by omega
  have b9 : s.lo + 4 ≤ h := by omega
  have b10 : h ≤ s.brk := by omega
  have b11 : h + 4 < 4294967296 := by omega
  have b12 : psz ≤ h := by omega
  have c1 : h + 4 + sz < 4294967296 := by omega
  have c4 : tag (sz + psz) false true < 4294967296 := by rw [tag_false_true]; omega
  have d1 : P + 4 ≤ F := by omega
  have d2 : H + 4 ≤ P := by omega
  have d3 : F + 4 ≤ h + sz := by omega
  have hpf0 : getWord s.mem (h - 4) = tag psz false true := by rw [a4]; exact hpf
  unfold coalesce_case3
  rw [PREV_BLKP_step hs b9 b10 b11 b12 hpf0 hp8, a3]; simp only []
  rw [a0, GET_SIZE_step hs b7 b8 hph hp8]; simp only [a2]
  rw [FTRP_step hs b1 b2 c1 hF hhd hsz8]; simp only []
  rw [PACK_01 s8, a1]
  clear a1 a2 a0 hlo hb h32 hsz16 hp16 hpf0
  obtain ⟨s1, e1, m1, fl1, hs1⟩ := PUT_WORD_step hs F (tag (sz + psz) false true) b5 b6
  rw [e1]; simp only []
  have g1 : getWord s1.mem (h - 4) = tag psz false true := by
    rw [a4, m1, getWord_putWord_other _ _ _ _ (Or.inl d1)]; exact hpf
  rw [PREV_BLKP_step hs1 b9 b10 b11 b12 g1 hp8, a3]; simp only []
  rw [HDRP_eq (by clear * - b7; omega) (by clear * - b11 hH; omega),
    show H + 4 - 4 = H from by omega]
  obtain ⟨s2, e2, m2, fl2, hs2⟩ := PUT_WORD_step hs1 H (tag (sz + psz) false true) b7 b8
  rw [e2]; simp only []
  have g2 : getWord s2.mem (h - 4) = tag psz false true := by
    rw [m2, a4, getWord_putWord_other _ _ _ _ (Or.inr d2), ← a4]; exact g1
  have g3 : getWord s2.mem (h + sz) = tag nsz true npa := by
    rw [m2, getWord_putWord_other _ _ _ _ (by clear * - d1 d2 d3; omega), m1,
      getWord_putWord_other _ _ _ _ (Or.inr d3)]
    exact hnx
  rw [PREV_BLKP_step hs2 b9 b10 b11 b12 g2 hp8, a3]; simp only []
  rw [GET_SIZE_step hs2 b3 b4 g3 hn8]; simp only []
  rw [PACK_10 hn8]
  obtain ⟨s3, e3, m3, fl3, hs3⟩ := PUT_WORD_step hs2 (h + sz) (tag nsz true false) b3 b4
  rw [e3]
  exact ⟨s3, rfl, by rw [m3, m2, m1], by rw [fl3, fl2, fl1], hs3⟩

theorem case4_arith {lo brk h H P F sz psz nsz : Nat}
    (hlo : lo + 4 ≤ H) (hH : H + psz = h) (hP : P + 4 = h) (hF : F + 4 = h + sz + nsz)
    (hb : F + 8 ≤ brk) (h32 : brk < 4294967296)
    (hsz16 : 16 ≤ sz) (hsz8 : sz % 8 = 0) (hp16 : 16 ≤ psz) (hp8 : psz % 8 = 0)
    (hn16 : 16 ≤ nsz) (hn8 : nsz % 8 = 0) :
    (4 ≤ H + 4 ∧ H + 4 < 4294967296 ∧ H + 4 - 4 = H) ∧
    (psz + nsz < 4294967296 ∧ sz + (psz + nsz) < 4294967296) ∧
    (h + 4 - psz = H + 4) ∧
    (4 ≤ h + sz + nsz + 4 ∧ h + sz + nsz + 4 < 4294967296 ∧ h + sz + nsz + 4 - 4 = h + sz + nsz) ∧
    ((sz + (psz + nsz)) % 8 = 0) ∧
    (sz + (psz + nsz) + 2 < 4294967296) ∧
    (h - 4 = P) ∧
    (h + 4 + sz = h + sz + 4) ∧
    (H + 4 + (sz + (psz + nsz)) = h + sz + nsz + 4) ∧
    (lo ≤ h) ∧
    (h + 4 ≤ brk) ∧
    (lo ≤ h + sz) ∧
    (h + sz + 4 ≤ brk) ∧
    (lo ≤ F) ∧
    (F + 4 ≤ brk) ∧
    (lo ≤ H) ∧
    (H + 4 ≤ brk) ∧
    (lo + 4 ≤ h) ∧
    (h ≤ brk) ∧
    (h + 4 < 4294967296) ∧
    (psz ≤ h) ∧
    (lo ≤ h + sz + nsz) ∧
    (h + sz + nsz + 4 ≤ brk) ∧
    (h + 4 + sz < 4294967296) ∧
    (h + sz + 4 + nsz < 4294967296) ∧
    (F + 4 = h + sz + nsz) ∧
    (H + 4 + (sz + (psz + nsz)) < 4294967296) ∧
    (P + 4 ≤ F) ∧
    (H + 4 ≤ P) ∧
    (F + 4 ≤ h + sz + nsz) ∧
    (H + 4 ≤ h) ∧
    (h + 4 ≤ F) ∧
    (H + 4 ≤ h + sz) ∧
    (h + sz + 4 ≤ F) := by
  omega

theorem coalesce_case4_exec {s : State} {h H P F sz psz nsz n2 : Nat} {npa n2a n2p : Bool}
    (hlo : s.lo + 4 ≤ H) (hH : H + psz = h) (hP : P + 4 = h) (hF : F + 4 = h + sz + nsz)
    (hb : F + 8 ≤ s.brk) (h32 : s.brk < 4294967296)
    (hsz16 : 16 ≤ sz) (hsz8 : sz % 8 = 0) (hp16 : 16 ≤ psz) (hp8 : psz % 8 = 0)
    (hn16 : 16 ≤ nsz) (hn8 : nsz % 8 = 0) (h28 : n2 % 8 = 0)
    (hhd : getWord s.mem h = tag sz false false)
    (hpf : getWord s.mem P = tag psz false true)
    (hph : getWord s.mem H = tag psz false true)
    (hnx : getWord s.mem (h + sz) = tag nsz false npa)
    (hnf : getWord s.mem F = tag nsz false true)
    (hn2 : getWord s.mem (h + sz + nsz) = tag n2 n2a n2p) :
    ∃ s3, coalesce_case4 s (h + 4) (H + 4) (h + 4 + sz) sz
        = (match unlink s3 (h + 4 + sz) with
          | none => none
          | some s4 =>
          match unlink s4 (H + 4) with
          | none => none
          | some s5 => some (H + 4, s5)) ∧
      s3.mem = putWord (putWord (putWord s.mem H (tag (sz + (psz + nsz)) false true)) F
        (tag (sz + (psz + nsz)) false true)) (h + sz + nsz) (tag n2 true false) ∧
      s3.free_list = s.free_list ∧ Same s s3 := by
  have hs := Same.refl s
  obtain ⟨⟨x1, x2, x3⟩, ⟨x4, x5⟩, a3, ⟨x6, x7, x8⟩, s8, x9, a4, a5, a6, b1, b2, b3, b4, b5, b6, b7, b8, b9, b10, b11, b12, b13, b14, c1, c2, c3, c5, d1, d2, d3, d4, d5, d6, d7⟩ :=
    case4_arith hlo hH hP hF hb h32 hsz16 hsz8 hp16 hp8 hn16 hn8
  have a0 : HDRP (H + 4) = H := by rw [HDRP_eq x1 x2]; exact x3
  have a2 : uadd sz (uadd psz nsz) = sz + (psz + nsz) := by
    rw [uadd_eq (a := psz) x4, uadd_eq x5]
  have a7 : HDRP (h + sz + nsz + 4) = h + sz + nsz := by rw [HDRP_eq x6 x7]; exact x8
  have c4 : tag (sz + (psz + nsz)) false true < 4294967296 := by rw [tag_false_true]; exact x9
  have hpf0 : getWord s.mem (h - 4) = tag psz false true := by rw [a4]; exact hpf
  unfold coalesce_case4
  rw [PREV_BLKP_step hs b9 b10 b11 b12 hpf0 hp8, a3]; simp only []
  rw [a0, GET_SIZE_step hs b7 b8 hph hp8]; simp only []
  rw [NEXT_BLKP_step hs b1 b2 c1 hhd hsz8]; simp only []
  rw [a5, FTRP_step hs b3 b4 c2 c3 hnx hn8]; simp only []
  rw [GET_SIZE_step hs b5 b6 hnf hn8]; simp only [a2]
  rw [PACK_01 s8]
  clear a2 hlo hb h32 hsz16 hp16 hn16 hpf0
  obtain ⟨s1, e1, m1, fl1, hs1⟩ := PUT_WORD_step hs H (tag (sz + (psz + nsz)) false true) b7 b8
  rw [e1]; simp only []
  have g1 : getWord s1.mem h = tag sz false false := by
    rw [m1, getWord_putWord_other _ _ _ _ (Or.inr d4)]; exact hhd
  have g2 : getWord s1.mem (h + sz) = tag nsz false npa := by
    rw [m1, getWord_putWord_other _ _ _ _ (Or.inr d6)]; exact hnx
  rw [NEXT_BLKP_step hs1 b1 b2 c1 g1 hsz8]; simp only []
  rw [a5, FTRP_step hs1 b3 b4 c2 c3 g2 hn8]; simp only []
  obtain ⟨s2, e2, m2, fl2, hs2⟩ := PUT_WORD_step hs1 F (tag (sz + (psz + nsz)) false true) b5 b6
  rw [e2]; simp only []
  have g3 : getWord s2.mem (h - 4) = tag psz false true := by
    rw [a4, m2, getWord_putWord_other _ _ _ _ (Or.inl d1), m1,
      getWord_putWord_other _ _ _ _ (Or.inr d2)]
    exact hpf
  have g4 : getWord s2.mem H = tag (sz + (psz + nsz)) false true := by
    rw [m2, getWord_putWord_other _ _ _ _ (by clear * - d1 d2; omega), m1, getWord_same_lt c4]
  have g5 : getWord s2.mem (h + sz + nsz) = tag n2 n2a n2p := by
    rw [m2, getWord_putWord_other _ _ _ _ (Or.inr d3), m1,
      getWord_putWord_other _ _ _ _ (by clear * - d6; omega)]
    exact hn2
  rw [PREV_BLKP_step hs2 b9 b10 b11 b12 g3 hp8, a3]; simp only []
  rw [NEXT_BLKP_step hs2 b7 b8 c5 g4 s8, a6]; simp only []
  rw [a7, GET_SIZE_step hs2 b13 b14 g5 h28]; simp only []
  rw [PACK_10 h28]
  obtain ⟨s3, e3, m3, fl3, hs3⟩ := PUT_WORD_step hs2 (h + sz + nsz) (tag n2 true false) b13 b14
  rw [e3]
  exact ⟨s3, rfl, by rw [m3, m2, m1], by rw [fl3, fl2, fl1], hs3⟩

/-- A heap whose tags around a merged free block `(H, S)` have been rewritten. -/
theorem merged_tinv {s s1 : State} {pre post : List Blk} {S H F E : Nat} {x : Bool}
    (hbm : s.brk ≤ s.max) (hml : s.max < M32) (hhl : s.heap_listp = s.lo + 8)
    (hpro : getWord s.mem (s.lo + 4) = tag 8 true false)
    (hpre : Seg s.mem (s.lo + 12) true pre) (hpa : lastAlloc true pre = true)
    (hH : H = s.lo + 12 + total pre) (hS16 : 16 ≤ S) (hS8 : S % 8 = 0)
    (hF : F + 4 = H + S) (hE : E = H + S)
    (hpost : Seg s.mem E x post)
    (hepi : getWord s.mem (E + total post) = tag 0 true (lastAlloc x post))
    (hal : headAlloc post = true)
    (hsize : E + total post + 4 = s.brk)
    (hsame : Same s s1)
    (hM : Merged s.mem s1.mem H F E (tag S false true) (tag (headSize post) true false)) :
    TInv s1 (pre ++ ⟨S, false⟩ :: post) ∧
    (∀ y, InAlloc (s.lo + 12) (pre ++ ⟨S, false⟩ :: post) y → s1.mem y = s.mem y) := by
  obtain ⟨k1, k2, k3, hfr⟩ := hM
  obtain ⟨elo, ebrk, emax, ehl⟩ := hsame
  have hfr1 : ∀ y, y < H ∨ E + 4 ≤ y → s1.mem y = s.mem y := fun y hy =>
    hfr y (by clear * - hy hF hE; omega) (by clear * - hy hF hE hS16; omega)
      (by clear * - hy hF hE hS16; omega)
  obtain ⟨hseg2, hepi2⟩ := @tail_repa _ s1.mem _ _ false _ hpost hepi hal k3
    (fun y hy => hfr1 y (Or.inr hy))
  have htot : total (pre ++ ⟨S, false⟩ :: post) = total pre + S + total post := by
    simp only [total_append, total]; omega
  refine ⟨⟨by rw [ebrk, emax]; exact hbm, by rw [emax]; exact hml,
    by rw [ehl, elo]; exact hhl, ?_, ?_, ?_, ?_⟩, ?_⟩
  · rw [elo, ← hpro]
    exact getWord_congr fun y h1 h2 => hfr1 y (by clear * - h2 hH; omega)
  · rw [elo]
    refine (Seg_append _ _ _ _ _).2 ⟨Seg_frame_range hpre fun y h1 h2 =>
      hfr1 y (by clear * - h2 hH; omega), ?_⟩
    rw [hpa, ← hH]
    refine Seg_cons.2 ⟨k1, hS16, hS8, fun _ => ⟨rfl, ?_⟩, ?_⟩
    · rw [show H + S - 4 = F from by clear * - hF; omega]; exact k2
    · rw [← hE]; exact hseg2
  · rw [htot, ebrk, elo]; clear * - hsize hE hH; omega
  · rw [elo, htot]
    simp only [lastAlloc_append, lastAlloc]
    rw [show s.lo + 12 + (total pre + S + total post) = E + total post from by
      clear * - hE hH; omega]
    exact hepi2
  · intro y hy
    rw [InAlloc_append] at hy
    rcases hy with hy | hy
    · have := InAlloc_range hy; exact hfr1 y (by clear * - this hH; omega)
    · rcases InAlloc_cons.1 hy with ⟨h, _⟩ | hy
      · simp at h
      · have := InAlloc_range hy
        simp only [] at this
        exact hfr1 y (by clear * - this hH hE; omega)

theorem seg_last_free {m : Mem} {a : Nat} {pre : List Blk} (h : Seg m a true pre)
    (hl : lastAlloc true pre = false) :
    ∃ pre1 psz, pre = pre1 ++ [⟨psz, false⟩] ∧ Seg m a true pre1 ∧
      lastAlloc true pre1 = true ∧ getWord m (a + total pre1) = tag psz false true ∧
      getWord m (a + total pre1 + psz - 4) = tag psz false true ∧ 16 ≤ psz ∧ psz % 8 = 0 := by
  rcases List.eq_nil_or_concat pre with rfl | ⟨pre1, b, hb⟩
  · simp [lastAlloc] at hl
  · rw [List.concat_eq_append] at hb
    subst hb
    rw [lastAlloc_append] at hl
    simp only [lastAlloc] at hl
    obtain ⟨h1, h2⟩ := (Seg_append _ _ _ _ _).1 h
    obtain ⟨k0, k1, k2, k3, _⟩ := Seg_cons.1 h2
    obtain ⟨k4, k5⟩ := k3 hl
    refine ⟨pre1, b.size, ?_, h1, k4, ?_, ?_, k1, k2⟩
    · cases b; simp only [] at hl; rw [hl]
    · rw [k0, hl, k4]
    · rw [k5, k4]

theorem seg_head_free {m : Mem} {e : Nat} {x : Bool} {post : List Blk} (h : Seg m e x post)
    (hal : headAlloc post = false) :
    ∃ nsz post1, post = ⟨nsz, false⟩ :: post1 ∧ x = true ∧
      getWord m e = tag nsz false true ∧ getWord m (e + nsz - 4) = tag nsz false true ∧
      16 ≤ nsz ∧ nsz % 8 = 0 ∧ Seg m (e + nsz) false post1 := by
  cases post with
  | nil => simp [headAlloc] at hal
  | cons b post1 =>
    have hb : b.alloc = false := hal
    obtain ⟨k0, k1, k2, k3, k6⟩ := Seg_cons.1 h
    obtain ⟨k4, k5⟩ := k3 hb
    refine ⟨b.size, post1, ?_, k4, ?_, ?_, k1, k2, ?_⟩
    · cases b; simp only [] at hb; rw [hb]
    · rw [k0, hb, k4]
    · rw [k5, k4]
    · rw [← hb]; exact k6

theorem mem_merged {A B : List Nat} {r y : Nat} (hA : r ∉ A) (hB : r ∉ B) :
    (y ∈ A ++ r :: B ∧ y ≠ r) ↔ y ∈ A ++ B := by
  simp only [List.mem_append, List.mem_cons]
  constructor
  · rintro ⟨h | h | h, hne⟩
    · exact Or.inl h
    · exact absurd h hne
    · exact Or.inr h
  · rintro (h | h)
    · exact ⟨Or.inl h, fun e => hA (e ▸ h)⟩
    · exact ⟨Or.inr (Or.inr h), fun e => hB (e ▸ h)⟩

theorem merged_fl {m m1 : Mem} {fl H F E T N : Nat} {l : List Nat}
    (hfl : FLseg m 0 fl l 0) (hM : Merged m m1 H F E T N) (hHF : H + 4 ≤ F)
    (hFE : F + 4 ≤ E)
    (hl : ∀ f ∈ l, f + 8 ≤ H ∨ (H + 4 ≤ f ∧ f + 8 ≤ F) ∨ E + 4 ≤ f) :
    FLseg m1 0 fl l 0 := by
  refine FLseg_frame hfl fun f hf y h1 h2 => ?_
  have := hl f hf
  exact hM.2.2.2 y (by omega) (by omega) (by omega)

theorem PreC.pre_geom {s : State} {pre post : List Blk} {sz : Nat} {l : List Nat} {x : Bool}
    (hP : PreC s pre sz post l x) : Geom s l where
  nodup := hP.nodup
  sep := fun f hf g hg hne => by
    have h1 := (hP.mem_iff f).1 hf
    have h2 := (hP.mem_iff g).1 hg
    have hs1 := hP.segpre.sized
    have hs2 := hP.segpost.sized
    have hz := hP.sz16
    rcases List.mem_append.1 h1 with a | a <;> rcases List.mem_append.1 h2 with b | b
    · have := freeAddrs_sep hs1 a b hne; omega
    · have := freeAddrs_range hs1 a; have := freeAddrs_range hs2 b; omega
    · have := freeAddrs_range hs2 a; have := freeAddrs_range hs1 b; omega
    · have := freeAddrs_sep hs2 a b hne; omega
  inb := fun f hf => by
    have h1 := (hP.mem_iff f).1 hf
    have hsz := hP.size
    rcases List.mem_append.1 h1 with a | a
    · have := freeAddrs_range hP.segpre.sized a; omega
    · have := freeAddrs_range hP.segpost.sized a; omega
  brk := Nat.lt_of_le_of_lt hP.brk_max hP.max_lt

/-- Case 1: both neighbours allocated. -/
theorem coalesce_c1 {s : State} {pre post : List Blk} {sz : Nat} {l : List Nat} {x : Bool}
    (hP : PreC s pre sz post l x) (hpa : lastAlloc true pre = true)
    (hal : headAlloc post = true) :
    ∃ s1, coalesce s (s.lo + 12 + total pre + 4) = some (s.lo + 12 + total pre + 4, s1) ∧
      InvX s1 (pre ++ ⟨sz, false⟩ :: post) l (s.lo + 12 + total pre + 4) ∧
      (∀ y, InAlloc (s.lo + 12) (pre ++ ⟨sz, false⟩ :: post) y → s1.mem y = s.mem y) ∧
      Same s s1 := by
  have hbrk : s.brk < 4294967296 := Nat.lt_of_le_of_lt hP.brk_max hP.max_lt
  have hsize := hP.size
  have hz := hP.sz16
  have hz8 := hP.sz8
  obtain ⟨hnx, hn8, hnle⟩ := tail_word hP.segpost hP.epi
  have hhd := hP.hd
  have hft := hP.ft
  rw [hpa] at hhd hft
  rw [hal] at hnx
  obtain ⟨F, hF⟩ : ∃ F, F + 4 = s.lo + 12 + total pre + sz :=
    ⟨s.lo + 12 + total pre + sz - 4, by clear * - hz; omega⟩
  rw [show s.lo + 12 + total pre + sz - 4 = F from by clear * - hF; omega] at hft
  have q1 : s.lo + 4 ≤ s.lo + 12 + total pre := by omega
  have q2 : s.lo + 12 + total pre + sz + 4 ≤ s.brk := by clear * - hsize; omega
  have q3 : tag (headSize post) true false < 4294967296 := by
    rw [tag_true_false]; clear * - hsize hbrk hnle; omega
  obtain ⟨prev, _, hco⟩ := coalesce_reads q1 q2 hbrk hz8 hn8 hhd hnx
  rw [if_pos (by decide)] at hco
  obtain ⟨s1, e1, m1, fl1, hs1⟩ := coalesce_case1_exec q1 q2 hbrk hn8 hnx
  have hM : Merged s.mem s1.mem (s.lo + 12 + total pre) F (s.lo + 12 + total pre + sz)
      (tag sz false true) (tag (headSize post) true false) := by
    rw [m1]
    exact merged_E (by clear * - hF hz; omega) (by clear * - hF; omega) hhd hft q3
  obtain ⟨hT, hfrA⟩ := merged_tinv hP.brk_max hP.max_lt hP.hl hP.prologue hP.segpre hpa rfl hz hz8
    hF rfl hP.segpost hP.epi hal hsize hs1 hM
  have hSpre := hP.segpre.sized
  have hSpost := hP.segpost.sized
  have hfl1 : FLseg s1.mem 0 s1.free_list l 0 := by
    rw [fl1]
    refine merged_fl hP.fl hM (by clear * - hF hz; omega) (by clear * - hF; omega) fun f hf => ?_
    rcases List.mem_append.1 ((hP.mem_iff f).1 hf) with a | a
    · have := freeAddrs_range hSpre a; left; clear * - this; omega
    · have := freeAddrs_range hSpost a; right; right; clear * - this; omega
  have hfa : freeAddrs (s.lo + 12) (pre ++ ⟨sz, false⟩ :: post)
      = freeAddrs (s.lo + 12) pre ++
        (s.lo + 12 + total pre + 4) :: freeAddrs (s.lo + 12 + total pre + sz) post := by
    rw [freeAddrs_append]; simp [freeAddrs]
  refine ⟨s1, by rw [hco]; exact e1, ?_, hfrA, hs1⟩
  refine ⟨hT.brk_max, hT.max_lt, hT.hl, hT.prologue, hT.seg, hT.size, hT.epi, hfl1, hP.nodup,
    ?_, ?_⟩
  · rw [hs1.lo, hfa]; simp
  · intro y
    rw [hs1.lo, hfa, hP.mem_iff y]
    refine (mem_merged (fun a => ?_) (fun a => ?_)).symm
    · have := freeAddrs_range hSpre a; clear * - this; omega
    · have := freeAddrs_range hSpost a; clear * - this hz; omega

theorem Geom.same {s s1 : State} {L : List Nat} (hg : Geom s L) (hs : Same s s1) : Geom s1 L :=
  ⟨hg.nodup, hg.sep, fun f hf => by rw [hs.lo, hs.brk]; exact hg.inb f hf,
    by rw [hs.brk]; exact hg.brk⟩

/-- Case 2: the next block is free. -/
theorem coalesce_c2 {s : State} {pre post1 : List Blk} {sz nsz h : Nat} {l : List Nat}
    {x : Bool} (hP : PreC s pre sz (⟨nsz, false⟩ :: post1) l x)
    (hpa : lastAlloc true pre = true) (hh : h = s.lo + 12 + total pre) :
    ∃ s1, coalesce s (h + 4) = some (h + 4, s1) ∧
      InvX s1 (pre ++ ⟨sz + nsz, false⟩ :: post1) (l.erase (h + 4 + sz)) (h + 4) ∧
      (∀ y, InAlloc (s.lo + 12) (pre ++ ⟨sz + nsz, false⟩ :: post1) y → s1.mem y = s.mem y) ∧
      Same s s1 := by
  have hbrk : s.brk < 4294967296 := Nat.lt_of_le_of_lt hP.brk_max hP.max_lt
  have hsize := hP.size
  have hz := hP.sz16
  have hz8 := hP.sz8
  have hhd := hP.hd
  have hepi := hP.epi
  have hmem := hP.mem_iff
  have hgeom := hP.pre_geom
  obtain ⟨k0, n16, n8, k3, kpost⟩ := Seg_cons.1 hP.segpost
  obtain ⟨hx, _⟩ := k3 rfl
  simp only [] at k0 n16 n8 kpost
  rw [hx] at k0
  rw [hpa] at hhd
  simp only [total, lastAlloc] at hepi hsize
  simp only [freeAddrs, Bool.false_eq_true, if_false] at hmem
  rw [← hh] at hhd k0 kpost hepi hsize hmem
  rw [show h + sz + (nsz + total post1) = h + sz + nsz + total post1 from by omega] at hepi hsize
  obtain ⟨hn2, h28, hnle⟩ := tail_word kpost hepi
  have hal1 := headAlloc_of_false kpost
  rw [hal1] at hn2
  obtain ⟨F, hF⟩ : ∃ F, F + 4 = h + sz + nsz := ⟨h + sz + nsz - 4, by clear * - n16; omega⟩
  have q1 : s.lo + 4 ≤ h := by clear * - hh; omega
  have q2 : h + sz + 4 ≤ s.brk := by clear * - hsize; omega
  have q3 : F + 8 ≤ s.brk := by clear * - hsize hF; omega
  have q4 : tag (headSize post1) true false < 4294967296 := by
    rw [tag_true_false]; clear * - hsize hbrk hnle; omega
  have q5 : tag (sz + nsz) false true < 4294967296 := by
    rw [tag_false_true]; clear * - hsize hbrk; omega
  have q6 : (sz + nsz) % 8 = 0 := by clear * - hz8 n8; omega
  obtain ⟨prev, _, hco⟩ := coalesce_reads q1 q2 hbrk hz8 n8 hhd k0
  rw [if_neg (by decide), if_pos (by decide)] at hco
  obtain ⟨s3, e3, m3, fl3, hs3⟩ := coalesce_case2_exec q1 hF q3 hbrk hz hz8 n16 n8 h28 k0 hn2
  have hM : Merged s.mem s3.mem h F (h + sz + nsz) (tag (sz + nsz) false true)
      (tag (headSize post1) true false) := by
    rw [m3]
    exact merged_HFE (by clear * - hF hz n16; omega) (by clear * - hF; omega) q5 q4
  obtain ⟨hT, hfrA⟩ := merged_tinv (S := sz + nsz) hP.brk_max hP.max_lt hP.hl hP.prologue
    hP.segpre hpa hh (by clear * - hz; omega) q6 (by clear * - hF; omega)
    (by clear * - hF; omega : h + sz + nsz = h + (sz + nsz)) kpost hepi hal1 hsize hs3 hM
  have hSpre := hP.segpre.sized
  have hSpost := kpost.sized
  have hfl3 : FLseg s3.mem 0 s3.free_list l 0 := by
    rw [fl3]
    refine merged_fl hP.fl hM (by clear * - hF hz n16; omega) (by clear * - hF; omega)
      fun f hf => ?_
    rcases List.mem_append.1 ((hmem f).1 hf) with a | a
    · have := freeAddrs_range hSpre a; left; clear * - this hh; omega
    · rcases List.mem_cons.1 a with rfl | a
      · right; left; clear * - hF n16; omega
      · have := freeAddrs_range hSpost a; right; right; clear * - this; omega
  have hfa : freeAddrs (s.lo + 12) (pre ++ ⟨sz + nsz, false⟩ :: post1)
      = freeAddrs (s.lo + 12) pre ++ (h + 4) :: freeAddrs (h + sz + nsz) post1 := by
    rw [freeAddrs_append]
    simp only [freeAddrs, Bool.false_eq_true, if_false]
    rw [← hh, show h + (sz + nsz) = h + sz + nsz from by omega]
  have hbL : h + 4 + sz ∈ l :=
    (hmem _).2 (List.mem_append_right _ (by
      rw [show h + sz + 4 = h + 4 + sz from by omega]; exact List.mem_cons_self _ _))
  have hb1 : h + 4 + sz ∉ freeAddrs (s.lo + 12) pre := fun a => by
    have := freeAddrs_range hSpre a; clear * - this hh; omega
  have hb2 : h + 4 + sz ∉ freeAddrs (h + sz + nsz) post1 := fun a => by
    have := freeAddrs_range hSpost a; clear * - this n16; omega
  have hr1 : h + 4 ∉ freeAddrs (s.lo + 12) pre := fun a => by
    have := freeAddrs_range hSpre a; clear * - this hh; omega
  have hr2 : h + 4 ∉ freeAddrs (h + sz + nsz) post1 := fun a => by
    have := freeAddrs_range hSpost a; clear * - this n16; omega
  obtain ⟨s4, e4, hT4, hfl4, hg4, hfrA4, _, lo4, brk4, max4, hl4⟩ :=
    unlink_step (b := h + 4 + sz) hT hfl3 (hgeom.same hs3) hbL (fun y hy hne => by
      rw [hs3.lo, hfa]
      rcases List.mem_append.1 ((hmem y).1 hy) with a | a
      · exact List.mem_append_left _ a
      · rcases List.mem_cons.1 a with rfl | a
        · exact absurd (by clear * -; omega) hne
        · exact List.mem_append_right _ (List.mem_cons_of_mem _ a))
  rw [e4] at e3
  have hs4 : Same s s4 := ⟨lo4.trans hs3.lo, brk4.trans hs3.brk, max4.trans hs3.max,
    hl4.trans hs3.hl⟩
  rw [hs3.lo] at hfrA4
  refine ⟨s4, by rw [hco]; exact e3, ?_, fun y hy => by rw [hfrA4 y hy, hfrA y hy], hs4⟩
  refine ⟨hT4.brk_max, hT4.max_lt, hT4.hl, hT4.prologue, hs4.lo ▸ hT4.seg, hs4.lo ▸ hT4.size,
    hs4.lo ▸ hT4.epi, hfl4, hg4.nodup, ?_, ?_⟩
  · rw [hs4.lo, hfa]; simp
  · intro y
    rw [hs4.lo, hfa, hP.nodup.mem_erase_iff, hmem y, mem_merged hr1 hr2]
    simp only [List.mem_append, List.mem_cons]
    constructor
    · rintro ⟨hne, a | a | a⟩
      · exact Or.inl a
      · exact absurd (by clear * - a; omega) hne
      · exact Or.inr a
    · rintro (a | a)
      · exact ⟨fun e => hb1 (e ▸ a), Or.inl a⟩
      · exact ⟨fun e => hb2 (e ▸ a), Or.inr (Or.inr a)⟩

/-- What `PreC` says when the block before the freed one is free. -/
theorem PreC.prev_free {s : State} {pre1 post : List Blk} {sz psz H h : Nat} {l : List Nat}
    {x : Bool} (hP : PreC s (pre1 ++ [⟨psz, false⟩]) sz post l x)
    (hH : H = s.lo + 12 + total pre1) (hh : h = H + psz) :
    Seg s.mem (s.lo + 12) true pre1 ∧ lastAlloc true pre1 = true ∧
    getWord s.mem H = tag psz false true ∧ getWord s.mem (h - 4) = tag psz false true ∧
    16 ≤ psz ∧ psz % 8 = 0 ∧
    getWord s.mem h = tag sz false false ∧
    Seg s.mem (h + sz) x post ∧ h + sz + total post + 4 = s.brk ∧
    getWord s.mem (h + sz + total post) = tag 0 true (lastAlloc x post) ∧
    (∀ y, y ∈ l ↔ y ∈ freeAddrs (s.lo + 12) pre1 ++ (H + 4) :: freeAddrs (h + sz) post) := by
  have e1 : s.lo + 12 + total (pre1 ++ [⟨psz, false⟩]) = h := by
    simp only [total_append, total]; omega
  have la : lastAlloc true (pre1 ++ [⟨psz, false⟩]) = false := by
    simp only [lastAlloc_append, lastAlloc]
  have hhd := hP.hd
  have hpost := hP.segpost
  have hsize := hP.size
  have hepi := hP.epi
  have hmem := hP.mem_iff
  rw [e1] at hhd hpost hsize hepi hmem
  rw [la] at hhd
  obtain ⟨h1, h2⟩ := (Seg_append _ _ _ _ _).1 hP.segpre
  obtain ⟨k0, k1, k2, k3, _⟩ := Seg_cons.1 h2
  obtain ⟨k4, k5⟩ := k3 rfl
  simp only [] at k0 k1 k2 k5
  rw [k4, ← hH] at k0 k5
  rw [show H + psz - 4 = h - 4 from by omega] at k5
  refine ⟨h1, k4, k0, k5, k1, k2, hhd, hpost, hsize, hepi, fun y => ?_⟩
  rw [hmem y, freeAddrs_append]
  simp only [freeAddrs, Bool.false_eq_true, if_false, ← hH, List.append_assoc, List.singleton_append]

/-- Case 3: the previous block is free. -/
theorem coalesce_c3 {s : State} {pre1 post : List Blk} {sz psz H h : Nat} {l : List Nat}
    {x : Bool} (hP : PreC s (pre1 ++ [⟨psz, false⟩]) sz post l x)
    (hal : headAlloc post = true)
    (hH : H = s.lo + 12 + total pre1) (hh : h = H + psz) :
    ∃ s1, coalesce s (h + 4) = some (H + 4, s1) ∧
      InvX s1 (pre1 ++ ⟨sz + psz, false⟩ :: post) (l.erase (H + 4)) (H + 4) ∧
      (∀ y, InAlloc (s.lo + 12) (pre1 ++ ⟨sz + psz, false⟩ :: post) y → s1.mem y = s.mem y) ∧
      Same s s1 := by
  have hbrk : s.brk < 4294967296 := Nat.lt_of_le_of_lt hP.brk_max hP.max_lt
  have hz := hP.sz16
  have hz8 := hP.sz8
  have hgeom := hP.pre_geom
  obtain ⟨hpre1, hpa1, hph, hpf, p16, p8, hhd, hpost, hsize, hepi, hmem⟩ := hP.prev_free hH hh
  obtain ⟨hnx, hn8, hnle⟩ := tail_word hpost hepi
  rw [hal] at hnx
  obtain ⟨F, hF⟩ : ∃ F, F + 4 = h + sz := ⟨h + sz - 4, by clear * - hz; omega⟩
  obtain ⟨P, hPP⟩ : ∃ P, P + 4 = h := ⟨h - 4, by clear * - hh p16; omega⟩
  have q0 : s.lo + 4 ≤ H := by clear * - hH; omega
  have q1 : s.lo + 4 ≤ h := by clear * - hH hh; omega
  have q2 : h + sz + 4 ≤ s.brk := by clear * - hsize; omega
  have q4 : tag (headSize post) true false < 4294967296 := by
    rw [tag_true_false]; clear * - hsize hbrk hnle; omega
  have q5 : tag (sz + psz) false true < 4294967296 := by
    rw [tag_false_true]; clear * - hsize hbrk hh; omega
  have q6 : (sz + psz) % 8 = 0 := by clear * - hz8 p8; omega
  obtain ⟨prev, hprev, hco⟩ := coalesce_reads q1 q2 hbrk hz8 hn8 hhd hnx
  rw [if_neg (by decide), if_neg (by decide), if_pos (by decide)] at hco
  have hprev2 := PREV_BLKP_step (Same.refl s) q1 (by clear * - q2; omega)
    (by clear * - q2 hbrk; omega) (by clear * - hh; omega) hpf p8
  rw [hprev2] at hprev
  have eprev : prev = H + 4 := by
    have := Option.some.inj hprev; clear * - this hh; omega
  rw [eprev] at hco
  obtain ⟨s3, e3, m3, fl3, hs3⟩ := coalesce_case3_exec q0 hh.symm hPP hF q2 hbrk hz hz8 p16 p8
    hn8 hhd (by rw [show P = h - 4 from by clear * - hPP; omega]; exact hpf) hph hnx
  have hM : Merged s.mem s3.mem H F (h + sz) (tag (sz + psz) false true)
      (tag (headSize post) true false) := by
    rw [m3]
    exact merged_FHE (by clear * - hF hh hz p16; omega) (by clear * - hF; omega) q5 q4
  obtain ⟨hT, hfrA⟩ := merged_tinv (S := sz + psz) hP.brk_max hP.max_lt hP.hl hP.prologue
    hpre1 hpa1 hH (by clear * - hz; omega) q6 (by clear * - hF hh; omega)
    (by clear * - hh; omega : h + sz = H + (sz + psz)) hpost hepi hal hsize hs3 hM
  have hSpre := hpre1.sized
  have hSpost := hpost.sized
  have hfl3 : FLseg s3.mem 0 s3.free_list l 0 := by
    rw [fl3]
    refine merged_fl hP.fl hM (by clear * - hF hh hz p16; omega) (by clear * - hF; omega)
      fun f hf => ?_
    rcases List.mem_append.1 ((hmem f).1 hf) with a | a
    · have := freeAddrs_range hSpre a; left; clear * - this hH; omega
    · rcases List.mem_cons.1 a with rfl | a
      · right; left; clear * - hF hh hz p16; omega
      · have := freeAddrs_range hSpost a; right; right; clear * - this; omega
  have hfa : freeAddrs (s.lo + 12) (pre1 ++ ⟨sz + psz, false⟩ :: post)
      = freeAddrs (s.lo + 12) pre1 ++ (H + 4) :: freeAddrs (h + sz) post := by
    rw [freeAddrs_append]
    simp only [freeAddrs, Bool.false_eq_true, if_false]
    rw [← hH, show H + (sz + psz) = h + sz from by clear * - hh; omega]
  have hbL : H + 4 ∈ l := (hmem _).2 (List.mem_append_right _ (List.mem_cons_self _ _))
  obtain ⟨s4, e4, hT4, hfl4, hg4, hfrA4, _, lo4, brk4, max4, hl4⟩ :=
    unlink_step (b := H + 4) hT hfl3 (hgeom.same hs3) hbL (fun y hy hne => by
      rw [hs3.lo, hfa]
      rcases List.mem_append.1 ((hmem y).1 hy) with a | a
      · exact List.mem_append_left _ a
      · exact List.mem_append_right _ a)
  rw [e4] at e3
  have hs4 : Same s s4 := ⟨lo4.trans hs3.lo, brk4.trans hs3.brk, max4.trans hs3.max,
    hl4.trans hs3.hl⟩
  rw [hs3.lo] at hfrA4
  refine ⟨s4, by rw [hco]; exact e3, ?_, fun y hy => by rw [hfrA4 y hy, hfrA y hy], hs4⟩
  refine ⟨hT4.brk_max, hT4.max_lt, hT4.hl, hT4.prologue, hs4.lo ▸ hT4.seg, hs4.lo ▸ hT4.size,
    hs4.lo ▸ hT4.epi, hfl4, hg4.nodup, ?_, ?_⟩
  · rw [hs4.lo, hfa]; simp
  · intro y
    rw [hs4.lo, hfa, hP.nodup.mem_erase_iff, hmem y]
    exact And.comm

/-- What `PreC` says when the block after the freed one is free too. -/
theorem PreC.next_free {s : State} {pre post1 : List Blk} {sz nsz h : Nat}
    {x : Bool} (hpost : Seg s.mem (h + sz) x (⟨nsz, false⟩ :: post1))
    (hsize : h + sz + total (⟨nsz, false⟩ :: post1) + 4 = s.brk)
    (hepi : getWord s.mem (h + sz + total (⟨nsz, false⟩ :: post1))
      = tag 0 true (lastAlloc x (⟨nsz, false⟩ :: post1))) :
    getWord s.mem (h + sz) = tag nsz false true ∧
    getWord s.mem (h + sz + nsz - 4) = tag nsz false true ∧ 16 ≤ nsz ∧ nsz % 8 = 0 ∧
    Seg s.mem (h + sz + nsz) false post1 ∧ h + sz + nsz + total post1 + 4 = s.brk ∧
    getWord s.mem (h + sz + nsz + total post1) = tag 0 true (lastAlloc false post1) := by
  obtain ⟨k0, n16, n8, k3, kpost⟩ := Seg_cons.1 hpost
  obtain ⟨hx, k5⟩ := k3 rfl
  simp only [] at k0 n16 n8 kpost k5
  rw [hx] at k0 k5
  simp only [total, lastAlloc] at hepi hsize
  rw [show h + sz + (nsz + total post1) = h + sz + nsz + total post1 from by omega] at hepi hsize
  exact ⟨k0, k5, n16, n8, kpost, hsize, hepi⟩

/-- Case 4: both neighbours are free. -/
theorem coalesce_c4 {s : State} {pre1 post1 : List Blk} {sz psz nsz H h : Nat} {l : List Nat}
    {x : Bool} (hP : PreC s (pre1 ++ [⟨psz, false⟩]) sz (⟨nsz, false⟩ :: post1) l x)
    (hH : H = s.lo + 12 + total pre1) (hh : h = H + psz) :
    ∃ s1, coalesce s (h + 4) = some (H + 4, s1) ∧
      InvX s1 (pre1 ++ ⟨sz + (psz + nsz), false⟩ :: post1)
        ((l.erase (h + 4 + sz)).erase (H + 4)) (H + 4) ∧
      (∀ y, InAlloc (s.lo + 12) (pre1 ++ ⟨sz + (psz + nsz), false⟩ :: post1) y →
        s1.mem y = s.mem y) ∧
      Same s s1 := by
  have hbrk : s.brk < 4294967296 := Nat.lt_of_le_of_lt hP.brk_max hP.max_lt
  have hz := hP.sz16
  have hz8 := hP.sz8
  have hgeom := hP.pre_geom
  obtain ⟨hpre1, hpa1, hph, hpf, p16, p8, hhd, hpost, hsize0, hepi0, hmem0⟩ :=
    hP.prev_free hH hh
  obtain ⟨k0, hnf, n16, n8, kpost, hsize, hepi⟩ := @PreC.next_free _ pre1 _ _ _ _ _ hpost hsize0 hepi0
  have hmem : ∀ y, y ∈ l ↔ y ∈ freeAddrs (s.lo + 12) pre1 ++
      (H + 4) :: (h + 4 + sz) :: freeAddrs (h + sz + nsz) post1 := by
    intro y
    rw [hmem0 y]
    simp only [freeAddrs, Bool.false_eq_true, if_false]
    rw [show h + sz + 4 = h + 4 + sz from by omega]
  clear hmem0 hsize0 hepi0 hpost
  obtain ⟨hn2, h28, hnle⟩ := tail_word kpost hepi
  have hal1 := headAlloc_of_false kpost
  rw [hal1] at hn2
  obtain ⟨F, hF⟩ : ∃ F, F + 4 = h + sz + nsz := ⟨h + sz + nsz - 4, by clear * - n16; omega⟩
  obtain ⟨P, hPP⟩ : ∃ P, P + 4 = h := ⟨h - 4, by clear * - hh p16; omega⟩
  rw [show h + sz + nsz - 4 = F from by clear * - hF; omega] at hnf
  have q0 : s.lo + 4 ≤ H := by clear * - hH; omega
  have q1 : s.lo + 4 ≤ h := by clear * - hH hh; omega
  have q2 : h + sz + 4 ≤ s.brk := by clear * - hsize; omega
  have q3 : F + 8 ≤ s.brk := by clear * - hsize hF; omega
  have q4 : tag (headSize post1) true false < 4294967296 := by
    rw [tag_true_false]; clear * - hsize hbrk hnle; omega
  have q5 : tag (sz + (psz + nsz)) false true < 4294967296 := by
    rw [tag_false_true]; clear * - hsize hbrk hh; omega
  have q6 : (sz + (psz + nsz)) % 8 = 0 := by clear * - hz8 p8 n8; omega
  obtain ⟨prev, hprev, hco⟩ := coalesce_reads q1 q2 hbrk hz8 n8 hhd k0
  rw [if_neg (by decide), if_neg (by decide), if_neg (by decide)] at hco
  have hprev2 := PREV_BLKP_step (Same.refl s) q1 (by clear * - q2; omega)
    (by clear * - q2 hbrk; omega) (by clear * - hh; omega) hpf p8
  rw [hprev2] at hprev
  have eprev : prev = H + 4 := by
    have := Option.some.inj hprev; clear * - this hh; omega
  rw [eprev] at hco
  obtain ⟨s3, e3, m3, fl3, hs3⟩ := coalesce_case4_exec q0 hh.symm hPP hF q3 hbrk hz hz8 p16 p8
    n16 n8 h28 hhd (by rw [show P = h - 4 from by clear * - hPP; omega]; exact hpf) hph k0 hnf hn2
  have hM : Merged s.mem s3.mem H F (h + sz + nsz) (tag (sz + (psz + nsz)) false true)
      (tag (headSize post1) true false) := by
    rw [m3]
    exact merged_HFE (by clear * - hF hh hz p16; omega) (by clear * - hF; omega) q5 q4
  obtain ⟨hT, hfrA⟩ := merged_tinv (S := sz + (psz + nsz)) hP.brk_max hP.max_lt hP.hl
    hP.prologue hpre1 hpa1 hH (by clear * - hz; omega) q6 (by clear * - hF hh; omega)
    (by clear * - hh; omega : h + sz + nsz = H + (sz + (psz + nsz))) kpost hepi hal1 hsize
    hs3 hM
  have hSpre := hpre1.sized
  have hSpost := kpost.sized
  have hfl3 : FLseg s3.mem 0 s3.free_list l 0 := by
    rw [fl3]
    refine merged_fl hP.fl hM (by clear * - hF hh hz p16; omega) (by clear * - hF; omega)
      fun f hf => ?_
    rcases List.mem_append.1 ((hmem f).1 hf) with a | a
    · have := freeAddrs_range hSpre a; left; clear * - this hH; omega
    · rcases List.mem_cons.1 a with rfl | a
      · right; left; clear * - hF hh hz p16; omega
      · rcases List.mem_cons.1 a with rfl | a
        · right; left; clear * - hF hh n16; omega
        · have := freeAddrs_range hSpost a; right; right; clear * - this; omega
  have hfa : freeAddrs (s.lo + 12) (pre1 ++ ⟨sz + (psz + nsz), false⟩ :: post1)
      = freeAddrs (s.lo + 12) pre1 ++ (H + 4) :: freeAddrs (h + sz + nsz) post1 := by
    rw [freeAddrs_append]
    simp only [freeAddrs, Bool.false_eq_true, if_false]
    rw [← hH, show H + (sz + (psz + nsz)) = h + sz + nsz from by clear * - hh; omega]
  have hnL : h + 4 + sz ∈ l := (hmem _).2 (by simp)
  have hrL : H + 4 ∈ l := (hmem _).2 (by simp)
  have hnr : H + 4 ≠ h + 4 + sz := by clear * - hh hz; omega
  have hn1 : h + 4 + sz ∉ freeAddrs (s.lo + 12) pre1 := fun a => by
    have := freeAddrs_range hSpre a; clear * - this hH hh; omega
  have hn2' : h + 4 + sz ∉ freeAddrs (h + sz + nsz) post1 := fun a => by
    have := freeAddrs_range hSpost a; clear * - this n16; omega
  obtain ⟨s4, e4, hT4, hfl4, hg4, hfrA4, _, lo4, brk4, max4, hl4⟩ :=
    unlink_step (b := h + 4 + sz) hT hfl3 (hgeom.same hs3) hnL (fun y hy hne => by
      rw [hs3.lo, hfa]
      rcases List.mem_append.1 ((hmem y).1 hy) with a | a
      · exact List.mem_append_left _ a
      · rcases List.mem_cons.1 a with rfl | a
        · exact List.mem_append_right _ (List.mem_cons_self _ _)
        · rcases List.mem_cons.1 a with rfl | a
          · exact absurd rfl hne
          · exact List.mem_append_right _ (List.mem_cons_of_mem _ a))
  have hrL4 : H + 4 ∈ l.erase (h + 4 + sz) := (hP.nodup.mem_erase_iff).2 ⟨hnr, hrL⟩
  obtain ⟨s5, e5, hT5, hfl5, hg5, hfrA5, _, lo5, brk5, max5, hl5⟩ :=
    unlink_step (b := H + 4) hT4 hfl4 hg4 hrL4 (fun y hy hne => by
      rw [lo4, hs3.lo, hfa]
      have hy1 := (hP.nodup.mem_erase_iff.1 hy)
      rcases List.mem_append.1 ((hmem y).1 hy1.2) with a | a
      · exact List.mem_append_left _ a
      · rcases List.mem_cons.1 a with rfl | a
        · exact absurd rfl hne
        · rcases List.mem_cons.1 a with rfl | a
          · exact absurd rfl hy1.1
          · exact List.mem_append_right _ (List.mem_cons_of_mem _ a))
  rw [e4] at e3
  simp only [] at e3
  rw [e5] at e3
  have hs5 : Same s s5 := ⟨lo5.trans (lo4.trans hs3.lo), brk5.trans (brk4.trans hs3.brk),
    max5.trans (max4.trans hs3.max), hl5.trans (hl4.trans hs3.hl)⟩
  rw [hs3.lo] at hfrA4
  rw [lo4, hs3.lo] at hfrA5
  refine ⟨s5, by rw [hco]; exact e3, ?_,
    fun y hy => by rw [hfrA5 y hy, hfrA4 y hy, hfrA y hy], hs5⟩
  refine ⟨hT5.brk_max, hT5.max_lt, hT5.hl, hT5.prologue, hs5.lo ▸ hT5.seg, hs5.lo ▸ hT5.size,
    hs5.lo ▸ hT5.epi, hfl5, hg5.nodup, ?_, ?_⟩
  · rw [hs5.lo, hfa]; simp
  · intro y
    rw [hs5.lo, hfa, hg4.nodup.mem_erase_iff, hP.nodup.mem_erase_iff, hmem y]
    simp only [List.mem_append, List.mem_cons]
    constructor
    · rintro ⟨hne, hne2, a | a | a | a⟩
      · exact ⟨Or.inl a, hne⟩
      · exact absurd a hne
      · exact absurd a hne2
      · exact ⟨Or.inr (Or.inr a), hne⟩
    · rintro ⟨a | a | a, hne⟩
      · exact ⟨hne, fun e => hn1 (e ▸ a), Or.inl a⟩
      · exact absurd a hne
      · exact ⟨hne, fun e => hn2' (e ▸ a), Or.inr (Or.inr (Or.inr a))⟩

/-- `coalesce`, all cases: it returns a block `r`, and the state satisfies the invariant except
that `r` is not on the free list. -/
theorem coalesce_spec {s : State} {pre post : List Blk} {sz : Nat} {l : List Nat} {x : Bool}
    (hP : PreC s pre sz post l x) :
    ∃ r s1 bs1 l1, coalesce s (s.lo + 12 + total pre + 4) = some (r, s1) ∧
      InvX s1 bs1 l1 r ∧ CoalOut (s.lo + 12) pre sz post l r bs1 l1 ∧
      (∀ y, InAlloc (s.lo + 12) bs1 y → s1.mem y = s.mem y) ∧ Same s s1 := by
  cases hpa : lastAlloc true pre <;> cases hal : headAlloc post
  · obtain ⟨pre1, psz, rfl, _⟩ := seg_last_free hP.segpre hpa
    obtain ⟨nsz, post1, rfl, _⟩ := seg_head_free hP.segpost hal
    have e : s.lo + 12 + total (pre1 ++ [⟨psz, false⟩]) = s.lo + 12 + total pre1 + psz := by
      simp only [total_append, total]; omega
    obtain ⟨s1, h1, h2, h3, h4⟩ := coalesce_c4 hP rfl rfl
    rw [e]
    exact ⟨_, s1, _, _, h1, h2, Or.inr (Or.inr (Or.inr ⟨pre1, psz, nsz, post1, rfl, rfl, rfl, rfl,
      by rw [e, show s.lo + 12 + total pre1 + psz + sz + 4
        = s.lo + 12 + total pre1 + psz + 4 + sz from by omega]⟩)), h3, h4⟩
  · obtain ⟨pre1, psz, rfl, _⟩ := seg_last_free hP.segpre hpa
    have e : s.lo + 12 + total (pre1 ++ [⟨psz, false⟩]) = s.lo + 12 + total pre1 + psz := by
      simp only [total_append, total]; omega
    obtain ⟨s1, h1, h2, h3, h4⟩ := coalesce_c3 hP hal rfl rfl
    rw [e]
    exact ⟨_, s1, _, _, h1, h2, Or.inr (Or.inr (Or.inl ⟨hal, pre1, psz, rfl, rfl, rfl, rfl⟩)),
      h3, h4⟩
  · obtain ⟨nsz, post1, rfl, _⟩ := seg_head_free hP.segpost hal
    obtain ⟨s1, h1, h2, h3, h4⟩ := coalesce_c2 hP hpa rfl
    exact ⟨_, s1, _, _, h1, h2, Or.inr (Or.inl ⟨hpa, nsz, post1, rfl, rfl, rfl,
      by rw [show s.lo + 12 + total pre + sz + 4 = s.lo + 12 + total pre + 4 + sz from by omega]⟩),
      h3, h4⟩
  · obtain ⟨s1, h1, h2, h3, h4⟩ := coalesce_c1 hP hpa hal
    exact ⟨_, s1, _, _, h1, h2, Or.inl ⟨hpa, hal, rfl, rfl, rfl⟩, h3, h4⟩

theorem insert_free {s : State} {bs : List Blk} {l : List Nat} {r : Nat}
    (hX : InvX s bs l r) :
    ∃ s1, insert_head s r = some s1 ∧ Inv s1 bs (r :: l) ∧
      (∀ y, InAlloc (s.lo + 12) bs y → s1.mem y = s.mem y) ∧ Same s s1 := by
  have hS := hX.seg.sized
  have hbrk : s.brk < 4294967296 := Nat.lt_of_le_of_lt hX.brk_max hX.max_lt
  have hrl : r ∉ l := fun h => ((hX.mem_iff r).1 h).2 rfl
  have hnd : (r :: l).Nodup := List.nodup_cons.2 ⟨hrl, hX.nodup⟩
  have hsub : ∀ f ∈ r :: l, f ∈ freeAddrs (s.lo + 12) bs := by
    intro f hf
    rcases List.mem_cons.1 hf with rfl | hf
    · exact hX.r_free
    · exact ((hX.mem_iff f).1 hf).1
  have hg : Geom s (r :: l) := Geom_of_subset hS hnd hsub hX.size hbrk
  have hr0 : r ≠ 0 := by
    have := freeAddrs_range hS hX.r_free; omega
  obtain ⟨s1, e1, hfl1, hfr1, lo1, brk1, max1, hl1⟩ := insert_head_spec hg hX.fl hr0
  obtain ⟨hT1, hfrA⟩ := @TInv.links _ s1 _ hX.tinv_x ⟨lo1, brk1, max1, hl1⟩
    (fun y hy => hfr1 y fun f hf => hy f (hsub f hf))
  refine ⟨s1, e1, ⟨hT1.brk_max, hT1.max_lt, hT1.hl, hT1.prologue, hT1.seg, hT1.size, hT1.epi,
    hfl1, hnd, fun y => ?_⟩, hfrA, ⟨lo1, brk1, max1, hl1⟩⟩
  rw [lo1, List.mem_cons, hX.mem_iff y]
  constructor
  · rintro (rfl | h)
    · exact hX.r_free
    · exact h.1
  · intro h
    by_cases hy : y = r
    · exact Or.inl hy
    · exact Or.inr ⟨h, hy⟩

theorem mm_free_exec {s : State} {h sz F : Nat} {pa : Bool}
    (hlo : s.lo ≤ h) (hF : F + 4 = h + sz) (hb : F + 8 ≤ s.brk) (h32 : s.brk < 4294967296)
    (hsz16 : 16 ≤ sz) (hsz8 : sz % 8 = 0)
    (hhd : getWord s.mem h = tag sz true pa) :
    ∃ s2, mm_free s (h + 4) = (match coalesce s2 (h + 4) with
        | none => none
        | some (new_ptr, s3) => insert_head s3 new_ptr) ∧
      s2.mem = putWord (putWord s.mem h (tag sz false pa)) F (tag sz false pa) ∧
      s2.free_list = s.free_list ∧ Same s s2 := by
  have hs := Same.refl s
  have hH : HDRP (h + 4) = h := by rw [HDRP_eq (by omega) (by omega)]; omega
  have b1 : h + 4 ≤ s.brk := by omega
  have b2 : s.lo ≤ F := by omega
  have b3 : F + 4 ≤ s.brk := by omega
  have c1 : h + 4 + sz < 4294967296 := by omega
  have c4 : tag sz false pa < 4294967296 := by have := tag_le sz false pa; omega
  unfold mm_free
  simp only [hH]
  rw [GET_SIZE_step hs hlo b1 hhd hsz8]; simp only []
  rw [GET_PREV_ALLOC_step hs hlo b1 hhd hsz8]; simp only []
  rw [show PACK sz 0 pa.toNat = tag sz false pa from PACK_tag sz false pa hsz8]
  clear hH h32 hsz16 hb
  obtain ⟨s1, e1, m1, fl1, hs1⟩ := PUT_WORD_step hs h (tag sz false pa) hlo b1
  rw [e1]; simp only []
  have g1 : getWord s1.mem h = tag sz false pa := by rw [m1, getWord_same_lt c4]
  rw [FTRP_step hs1 hlo b1 c1 hF g1 hsz8]; simp only []
  obtain ⟨s2, e2, m2, fl2, hs2⟩ := PUT_WORD_step hs1 F (tag sz false pa) b2 b3
  rw [e2]
  exact ⟨s2, rfl, by rw [m2, m1], by rw [fl2, fl1], hs2⟩

/-- The state of `mm_free` when it calls `coalesce`. -/
theorem mm_free_prec {s s2 : State} {pre post : List Blk} {sz F : Nat} {l : List Nat}
    (hI : Inv s (pre ++ ⟨sz, true⟩ :: post) l)
    (hF : F + 4 = s.lo + 12 + total pre + sz)
    (hm : s2.mem = putWord (putWord s.mem (s.lo + 12 + total pre)
      (tag sz false (lastAlloc true pre))) F (tag sz false (lastAlloc true pre)))
    (hfl : s2.free_list = s.free_list) (hs : Same s s2) :
    PreC s2 pre sz post l true ∧
    (∀ y, y < s.lo + 12 + total pre ∨ s.lo + 12 + total pre + sz ≤ y → s2.mem y = s.mem y) := by
  have hsize := hI.size
  have hepi := hI.epi
  have hbrk := hI.brk_lt
  obtain ⟨hpre, hmid⟩ := (Seg_append _ _ _ _ _).1 hI.seg
  obtain ⟨hhd, hsz16, hsz8, _, hpost⟩ := Seg_cons.1 hmid
  obtain ⟨hSpre, hSmid⟩ := Sized_append.1 hI.blocks_sized
  have hSpost := (Sized_cons.1 hSmid).2
  simp only [] at hsz16 hsz8 hpost
  simp only [total_append, total] at hsize hepi
  simp only [lastAlloc_append, lastAlloc] at hepi
  rw [show s.lo + 12 + (total pre + (sz + total post)) = s.lo + 12 + total pre + sz + total post
    from by omega] at hsize hepi
  have c4 : tag sz false (lastAlloc true pre) < 4294967296 := by
    have := tag_le sz false (lastAlloc true pre); clear * - this hsize hbrk; omega
  have hfr : ∀ y, y < s.lo + 12 + total pre ∨ s.lo + 12 + total pre + sz ≤ y →
      s2.mem y = s.mem y := by
    intro y hy
    rw [hm, putWord_other _ _ _ _ (by clear * - hy hF hsz16; omega),
      putWord_other _ _ _ _ (by clear * - hy hsz16; omega)]
  have hfa : freeAddrs (s.lo + 12) (pre ++ ⟨sz, true⟩ :: post)
      = freeAddrs (s.lo + 12) pre ++ freeAddrs (s.lo + 12 + total pre + sz) post := by
    rw [freeAddrs_append]; simp [freeAddrs]
  refine ⟨⟨by rw [hs.brk, hs.max]; exact hI.brk_max, by rw [hs.max]; exact hI.max_lt,
    by rw [hs.hl, hs.lo]; exact hI.hl, ?_, ?_, ?_, ?_, hsz16, hsz8, ?_, ?_, ?_, ?_, hI.nodup, ?_⟩,
    hfr⟩
  · rw [hs.lo, ← hI.prologue]
    exact getWord_congr fun y h1 h2 => hfr y (by clear * - h2; omega)
  · rw [hs.lo]
    exact Seg_frame_range hpre fun y h1 h2 => hfr y (Or.inl h2)
  · rw [hs.lo, hm, getWord_putWord_other _ _ _ _ (by clear * - hF hsz16; omega),
      getWord_same_lt c4]
  · rw [hs.lo, show s.lo + 12 + total pre + sz - 4 = F from by clear * - hF; omega, hm,
      getWord_same_lt c4]
  · rw [hs.lo]
    exact Seg_frame_range hpost fun y h1 h2 => hfr y (Or.inr h1)
  · rw [hs.lo, hs.brk]; exact hsize
  · rw [hs.lo, ← hepi]
    exact getWord_congr fun y h1 h2 => hfr y (by clear * - h1; omega)
  · rw [hfl]
    refine FLseg_frame hI.fl fun f hf y h1 h2 => hfr y ?_
    have hf1 := (hI.mem_iff f).1 hf
    rw [hfa] at hf1
    rcases List.mem_append.1 hf1 with a | a
    · have := freeAddrs_range hSpre a; clear * - this h2; omega
    · have := freeAddrs_range hSpost a; clear * - this h1; omega
  · intro y
    rw [hs.lo, hI.mem_iff y, hfa]

/-- `mm_free` of an allocated block: the invariant is kept, allocated payloads are untouched,
and the block is merged with its free neighbours and put at the head of the free list. -/
theorem mm_free_spec {s : State} {pre post : List Blk} {sz : Nat} {l : List Nat}
    (hI : Inv s (pre ++ ⟨sz, true⟩ :: post) l) :
    ∃ s1 r bs1 l1, mm_free s (s.lo + 12 + total pre + 4) = some s1 ∧
      Inv s1 bs1 (r :: l1) ∧ CoalOut (s.lo + 12) pre sz post l r bs1 l1 ∧
      (∀ y, InAlloc (s.lo + 12) bs1 y → s1.mem y = s.mem y) ∧ Same s s1 := by
  have hsize := hI.size
  have hbrk := hI.brk_lt
  obtain ⟨hpre, hmid⟩ := (Seg_append _ _ _ _ _).1 hI.seg
  obtain ⟨hhd, hsz16, hsz8, _, hpost⟩ := Seg_cons.1 hmid
  simp only [] at hhd hsz16 hsz8
  simp only [total_append, total] at hsize
  obtain ⟨F, hF⟩ : ∃ F, F + 4 = s.lo + 12 + total pre + sz :=
    ⟨s.lo + 12 + total pre + sz - 4, by clear * - hsz16; omega⟩
  obtain ⟨s2, e2, m2, fl2, hs2⟩ := mm_free_exec (s := s) (h := s.lo + 12 + total pre)
    (by omega) hF (by clear * - hF hsize; omega) hbrk hsz16 hsz8 hhd
  obtain ⟨hP, hfr⟩ := mm_free_prec hI hF m2 fl2 hs2
  obtain ⟨r, s3, bs1, l1, e3, hX, hout, hfrA, hs3⟩ := coalesce_spec hP
  rw [hs2.lo] at e3 hout hfrA
  obtain ⟨s4, e4, hI4, hfrB, hs4⟩ := insert_free hX
  rw [hs3.lo, hs2.lo] at hfrB
  rw [e3] at e2
  simp only [] at e2
  refine ⟨s4, r, bs1, l1, e2.trans e4, hI4, hout, fun y hy => ?_, (hs2.trans hs3).trans hs4⟩
  rw [hfrB y hy, hfrA y hy]
  apply hfr
  -- an allocated payload of the new heap lies outside of the freed block
  have hr := InAlloc_range hy
  rcases hout with ⟨_, _, _, rfl, _⟩ | ⟨_, nsz, post1, rfl, _, rfl, _⟩ |
    ⟨_, pre1, psz, rfl, _, rfl, _⟩ | ⟨pre1, psz, nsz, post1, rfl, rfl, _, rfl, _⟩
  · rw [InAlloc_append] at hy
    rcases hy with hy | hy
    · have := InAlloc_range hy; left; clear * - this; omega
    · rcases InAlloc_cons.1 hy with ⟨a, _⟩ | hy
      · simp at a
      · have := InAlloc_range hy; simp only [] at this; right; clear * - this; omega
  · rw [InAlloc_append] at hy
    rcases hy with hy | hy
    · have := InAlloc_range hy; left; clear * - this; omega
    · rcases InAlloc_cons.1 hy with ⟨a, _⟩ | hy
      · simp at a
      · have := InAlloc_range hy; simp only [] at this; right; clear * - this; omega
  · rw [InAlloc_append] at hy
    rcases hy with hy | hy
    · have := InAlloc_range hy; left
      simp only [total_append, total]; clear * - this; omega
    · rcases InAlloc_cons.1 hy with ⟨a, _⟩ | hy
      · simp at a
      · have := InAlloc_range hy; simp only [] at this; right
        simp only [total_append, total]; clear * - this; omega
  · rw [InAlloc_append] at hy
    rcases hy with hy | hy
    · have := InAlloc_range hy; left
      simp only [total_append, total]; clear * - this; omega
    · rcases InAlloc_cons.1 hy with ⟨a, _⟩ | hy
      · simp at a
      · have := InAlloc_range hy; simp only [] at this; right
        simp only [total_append, total]; clear * - this; omega

theorem extend_heap_fail {s : State} {n : Nat} (hn8 : n % 8 = 0) (hn : n < 4294967296)
    (hmax : s.max < s.brk + n) : extend_heap s (n / 4) = some (0, s) := by
  have esz : (if n / 4 % 2 ≠ 0 then ((n / 4 + 1) * WSIZE) % M32 else (n / 4 * WSIZE) % M32)
      = n := by
    rw [if_neg (by omega)]; unfold WSIZE M32; omega
  unfold extend_heap
  simp only [esz]
  unfold mem_sbrk
  rw [if_neg (by omega)]

theorem extend_heap_exec {s : State} {h n F : Nat} {pa : Bool}
    (hh : h + 4 = s.brk) (hlo : s.lo + 4 ≤ h) (hmax : s.brk + n ≤ s.max)
    (h32 : s.max < 4294967296) (hF : F + 4 = h + n)
    (hn16 : 16 ≤ n) (hn8 : n % 8 = 0)
    (hw : getWord s.mem h = tag 0 true pa) :
    ∃ s3, extend_heap s (n / 4) = coalesce s3 (h + 4) ∧
      s3.mem = putWord (putWord (putWord s.mem h (tag n false pa)) F (tag n false pa))
        (h + n) (tag 0 true false) ∧
      s3.free_list = s.free_list ∧ s3.lo = s.lo ∧ s3.brk = s.brk + n ∧ s3.max = s.max ∧
      s3.heap_listp = s.heap_listp := by
  have esz : (if n / 4 % 2 ≠ 0 then ((n / 4 + 1) * WSIZE) % M32 else (n / 4 * WSIZE) % M32)
      = n := by
    rw [if_neg (by omega)]; unfold WSIZE M32; omega
  have hs : Same { s with brk := s.brk + n } { s with brk := s.brk + n } := Same.refl _
  have hH : HDRP s.brk = h := by rw [HDRP_eq (by omega) (by omega)]; omega
  have hbp : s.brk = h + 4 := hh.symm
  have b0 : s.lo ≤ h := by omega
  have b1 : h + 4 ≤ s.brk + n := by omega
  have b2 : s.lo ≤ F := by omega
  have b3 : F + 4 ≤ s.brk + n := by omega
  have b4 : s.lo ≤ h + n := by omega
  have b5 : h + n + 4 ≤ s.brk + n := by omega
  have c1 : h + 4 + n < 4294967296 := by omega
  have c4 : tag n false pa < 4294967296 := by have := tag_le n false pa; omega
  have d1 : h + 4 ≤ F := by omega
  have a1 : HDRP (h + 4 + n) = h + n := by rw [HDRP_eq (by omega) (by omega)]; omega
  have hw1 : getWord ({ s with brk := s.brk + n } : State).mem h = tag 0 true pa := hw
  unfold extend_heap
  simp only [esz]
  unfold mem_sbrk
  rw [if_pos hmax]
  simp only [hH]
  rw [GET_PREV_ALLOC_step hs b0 b1 hw1 rfl]; simp only []
  rw [show PACK n 0 pa.toNat = tag n false pa from PACK_tag n false pa hn8,
    show PACK 0 1 0 = tag 0 true false from PACK_10 rfl]
  clear hH esz hmax h32 hlo hn16 hh hw1
  obtain ⟨s1, e1, m1, fl1, hs1⟩ := PUT_WORD_step hs h (tag n false pa) b0 b1
  rw [e1]; simp only []
  have g1 : getWord s1.mem h = tag n false pa := by rw [m1, getWord_same_lt c4]
  rw [show FTRP s1 s.brk = some F from by rw [hbp]; exact FTRP_step hs1 b0 b1 c1 hF g1 hn8]
  simp only []
  obtain ⟨s2, e2, m2, fl2, hs2⟩ := PUT_WORD_step hs1 F (tag n false pa) b2 b3
  rw [e2]; simp only []
  have g2 : getWord s2.mem h = tag n false pa := by
    rw [m2, getWord_putWord_other _ _ _ _ (Or.inl d1)]; exact g1
  rw [show NEXT_BLKP s2 s.brk = some (h + 4 + n) from by
    rw [hbp]; exact NEXT_BLKP_step hs2 b0 b1 c1 g2 hn8]
  simp only []
  rw [a1]
  obtain ⟨s3, e3, m3, fl3, hs3⟩ := PUT_WORD_step hs2 (h + n) (tag 0 true false) b4 b5
  rw [e3]
  exact ⟨s3, by rw [hbp], by rw [m3, m2, m1], by rw [fl3, fl2, fl1], hs3.lo, hs3.brk, hs3.max,
    hs3.hl⟩

/-- The state of `extend_heap` when it calls `coalesce`. -/
theorem extend_heap_prec {s s3 : State} {bs : List Blk} {l : List Nat} {n F : Nat}
    (hI : Inv s bs l) (hn16 : 16 ≤ n) (hn8 : n % 8 = 0) (hmax : s.brk + n ≤ s.max)
    (hF : F + 4 = s.lo + 12 + total bs + n)
    (hm : s3.mem = putWord (putWord (putWord s.mem (s.lo + 12 + total bs)
      (tag n false (lastAlloc true bs))) F (tag n false (lastAlloc true bs)))
      (s.lo + 12 + total bs + n) (tag 0 true false))
    (hfl : s3.free_list = s.free_list) (hlo : s3.lo = s.lo) (hbrk : s3.brk = s.brk + n)
    (hmx : s3.max = s.max) (hhl : s3.heap_listp = s.heap_listp) :
    PreC s3 bs n [] l false ∧ (∀ y, y < s.lo + 12 + total bs → s3.mem y = s.mem y) := by
  have hsize := hI.size
  have h32 := hI.max_lt
  have hS := hI.blocks_sized
  have c4 : tag n false (lastAlloc true bs) < 4294967296 := by
    have := tag_le n false (lastAlloc true bs)
    unfold M32 at h32; clear * - this hsize hmax h32; omega
  have hfr : ∀ y, y < s.lo + 12 + total bs → s3.mem y = s.mem y := by
    intro y hy
    rw [hm, putWord_other _ _ _ _ (by clear * - hy; omega),
      putWord_other _ _ _ _ (by clear * - hy hF hn16; omega),
      putWord_other _ _ _ _ (by clear * - hy; omega)]
  refine ⟨⟨by rw [hbrk, hmx]; exact hmax, by rw [hmx]; exact hI.max_lt,
    by rw [hhl, hlo]; exact hI.hl, ?_, ?_, ?_, ?_, hn16, hn8, trivial, ?_, ?_, ?_, hI.nodup, ?_⟩,
    hfr⟩
  · rw [hlo, ← hI.prologue]
    exact getWord_congr fun y h1 h2 => hfr y (by clear * - h2; omega)
  · rw [hlo]
    exact Seg_frame_range hI.seg fun y h1 h2 => hfr y h2
  · rw [hlo, hm, getWord_putWord_other _ _ _ _ (by clear * - hn16; omega),
      getWord_putWord_other _ _ _ _ (by clear * - hF hn16; omega), getWord_same_lt c4]
  · rw [hlo, show s.lo + 12 + total bs + n - 4 = F from by clear * - hF; omega, hm,
      getWord_putWord_other _ _ _ _ (by clear * - hF; omega), getWord_same_lt c4]
  · rw [hlo, hbrk]; simp only [total]; clear * - hsize; omega
  · rw [hlo, hm]; simp only [total, lastAlloc, Nat.add_zero]
    rw [getWord_same_lt (by rw [tag_true_false]; omega)]
  · rw [hfl]
    refine FLseg_frame hI.fl fun f hf y h1 h2 => hfr y ?_
    have := freeAddrs_range hS ((hI.mem_iff f).1 hf); clear * - this h2; omega
  · intro y
    rw [hlo, hI.mem_iff y]; simp [freeAddrs]

/-- `extend_heap` when `sbrk` succeeds. -/
theorem extend_heap_spec {s : State} {bs : List Blk} {l : List Nat} {n : Nat}
    (hI : Inv s bs l) (hn16 : 16 ≤ n) (hn8 : n % 8 = 0) (hmax : s.brk + n ≤ s.max) :
    ∃ r s1 bs1 l1, extend_heap s (n / 4) = some (r, s1) ∧
      InvX s1 bs1 l1 r ∧ CoalOut (s.lo + 12) bs n [] l r bs1 l1 ∧
      (∀ y, InAlloc (s.lo + 12) bs1 y → s1.mem y = s.mem y) ∧
      s1.lo = s.lo ∧ s1.brk = s.brk + n ∧ s1.max = s.max := by
  have hsize := hI.size
  have h32 := hI.max_lt
  obtain ⟨F, hF⟩ : ∃ F, F + 4 = s.lo + 12 + total bs + n :=
    ⟨s.lo + 12 + total bs + n - 4, by clear * - hn16; omega⟩
  obtain ⟨s3, e3, m3, fl3, lo3, brk3, max3, hl3⟩ :=
    extend_heap_exec (s := s) (h := s.lo + 12 + total bs) (by clear * - hsize; omega)
      (by omega) hmax h32 hF hn16 hn8 hI.epi
  obtain ⟨hP, hfr⟩ := extend_heap_prec hI hn16 hn8 hmax hF m3 fl3 lo3 brk3 max3 hl3
  obtain ⟨r, s4, bs1, l1, e4, hX, hout, hfrA, hs4⟩ := coalesce_spec hP
  rw [lo3] at e4 hout hfrA
  refine ⟨r, s4, bs1, l1, e3.trans e4, hX, hout, fun y hy => ?_, hs4.lo.trans lo3,
    hs4.brk.trans brk3, hs4.max.trans max3⟩
  rw [hfrA y hy]
  apply hfr
  rcases hout with ⟨_, _, _, rfl, _⟩ | ⟨_, nsz, post1, a, _⟩ |
    ⟨_, pre1, psz, rfl, _, rfl, _⟩ | ⟨pre1, psz, nsz, post1, _, a, _⟩
  · rw [InAlloc_append] at hy
    rcases hy with hy | hy
    · exact (InAlloc_range hy).2
    · rcases InAlloc_cons.1 hy with ⟨a, _⟩ | hy
      · simp at a
      · exact hy.elim
  · cases a
  · rw [InAlloc_append] at hy
    rcases hy with hy | hy
    · have := InAlloc_range hy
      simp only [total_append, total]; clear * - this; omega
    · rcases InAlloc_cons.1 hy with ⟨a, _⟩ | hy
      · simp at a
      · exact hy.elim
  · cases a

theorem find_fit_loop_eq {s : State} {asize : Nat} {l : List Nat} (h32 : s.brk < 4294967296) :
    ∀ {fuel p bp bf bd : Nat}, FLseg s.mem p bp l 0 →
      (∀ f ∈ l, s.lo + 4 ≤ f ∧ f + 8 ≤ s.brk) → l.length < fuel →
      find_fit_loop s asize fuel bp bf bd
        = some (bestFit asize (l.map fun f => (f, sizeOf s.mem f)) bf bd) := by
  induction l with
  | nil =>
    intro fuel p bp bf bd hfl _ hfuel
    have hbp : bp = 0 := hfl
    obtain ⟨k, rfl⟩ : ∃ k, fuel = k + 1 := ⟨fuel - 1, by simp at hfuel; omega⟩
    simp [find_fit_loop, hbp, bestFit]
  | cons b rest ih =>
    intro fuel p bp bf bd hfl hin hfuel
    obtain ⟨e1, e2, _, e4⟩ := hfl
    obtain ⟨k, rfl⟩ : ∃ k, fuel = k + 1 := ⟨fuel - 1, by simp at hfuel; omega⟩
    have hb := hin b (List.mem_cons_self _ _)
    have hH : HDRP b = b - 4 := HDRP_eq (by omega) (by omega)
    have r1 : GET_SIZE s (HDRP b) = some (sizeOf s.mem b) := by
      rw [hH]; unfold GET_SIZE; rw [GET_WORD_eq (by omega) (by omega)]; rfl
    have r2 : GET_WORD s (SUCC b) = some (getWord s.mem (b + 4)) := by
      rw [SUCC_eq (by omega)]; exact GET_WORD_eq (by omega) (by omega)
    have ih1 := fun bf1 bd1 => @ih k _ _ bf1 bd1 e4
      (fun f hf => hin f (List.mem_cons_of_mem _ hf))
      (by simp only [List.length_cons] at hfuel; omega)
    subst e1
    unfold find_fit_loop
    rw [if_neg e2, r1]
    simp only [r2, List.map_cons, bestFit]
    by_cases hsz : asize = sizeOf s.mem bp
    · rw [if_pos hsz, if_pos hsz]
    · rw [if_neg hsz, if_neg hsz]
      exact ih1 _ _

theorem bestFit_cases (asize : Nat) (L : List (Nat × Nat)) (bf bd : Nat) :
    bestFit asize L bf bd = bf ∨ ∃ p ∈ L, bestFit asize L bf bd = p.1 ∧ asize ≤ p.2 := by
  induction L generalizing bf bd with
  | nil => exact Or.inl rfl
  | cons q rest ih =>
    obtain ⟨b, size⟩ := q
    simp only [bestFit]
    by_cases hsz : asize = size
    · rw [if_pos hsz]
      exact Or.inr ⟨(b, size), List.mem_cons_self _ _, rfl, by simp only []; omega⟩
    · rw [if_neg hsz]
      rcases ih (if asize < size then
          (if (if bd < usub size asize then 0 else 1) ≠ 0 then b else bf) else bf)
        (if asize < size then
          (if (if bd < usub size asize then 0 else 1) ≠ 0 then usub size asize else bd) else bd)
        with h | ⟨p, hp, h1, h2⟩
      · rw [h]
        by_cases hlt : asize < size
        · rw [if_pos hlt]
          by_cases hbd : bd < usub size asize
          · left; simp [hbd]
          · right
            exact ⟨(b, size), List.mem_cons_self _ _, by simp [hbd], by simp only []; omega⟩
        · left; rw [if_neg hlt]
      · exact Or.inr ⟨p, List.mem_cons_of_mem _ hp, h1, h2⟩

theorem bestFit_nofit (asize : Nat) (L : List (Nat × Nat)) (bf bd : Nat)
    (h : ∀ p ∈ L, p.2 < asize) : bestFit asize L bf bd = bf := by
  induction L generalizing bf bd with
  | nil => rfl
  | cons q rest ih =>
    obtain ⟨b, size⟩ := q
    have hq : size < asize := h (b, size) (List.mem_cons_self _ _)
    simp only [bestFit]
    rw [if_neg (by omega), if_neg (by omega), if_neg (by omega)]
    exact ih bf bd fun p hp => h p (List.mem_cons_of_mem _ hp)

theorem Inv.sizeOf_free {s : State} {bs : List Blk} {l : List Nat} (hI : Inv s bs l)
    {f : Nat} (hf : f ∈ l) :
    ∃ pre post, bs = pre ++ ⟨sizeOf s.mem f, false⟩ :: post ∧ f = s.lo + 12 + total pre + 4 := by
  obtain ⟨pre, sz, post, rfl, rfl⟩ := mem_freeAddrs_iff.1 ((hI.mem_iff f).1 hf)
  obtain ⟨_, hhd, _, _, _, _, _, _, hsz8, _⟩ := hI.at_free
  refine ⟨pre, post, ?_, rfl⟩
  have : sizeOf s.mem (s.lo + 12 + total pre + 4) = sz := by
    unfold sizeOf
    rw [show s.lo + 12 + total pre + 4 - 4 = s.lo + 12 + total pre from by omega]
    exact mask_tag hhd (getWord_lt _ _) hsz8
  rw [this]

theorem Inv.length_lt {s : State} {bs : List Blk} {l : List Nat} (hI : Inv s bs l) :
    l.length < s.brk - s.lo := by
  have h1 : l.length ≤ (freeAddrs (s.lo + 12) bs).length :=
    (hI.nodup.subperm fun f hf => (hI.mem_iff f).1 hf).length_le
  have h2 := freeAddrs_length (s.lo + 12) bs
  have h3 := total_ge_length hI.blocks_sized
  have h4 := hI.size
  omega

/-- `find_fit` returns null or a free block that is large enough, and null when no free block
is. -/
theorem find_fit_spec {s : State} {bs : List Blk} {l : List Nat} (hI : Inv s bs l)
    (asize : Nat) :
    ∃ b, find_fit s asize = some b ∧
      (b = 0 ∨ ∃ pre sz post, bs = pre ++ ⟨sz, false⟩ :: post ∧
        b = s.lo + 12 + total pre + 4 ∧ asize ≤ sz) ∧
      ((∀ f ∈ l, sizeOf s.mem f < asize) → b = 0) ∧
      b = bestFit asize (l.map fun f => (f, sizeOf s.mem f)) 0 (M32 - 1) := by
  have hg := hI.geom
  have hS := hI.blocks_sized
  have e : find_fit s asize
      = some (bestFit asize (l.map fun f => (f, sizeOf s.mem f)) 0 (M32 - 1)) := by
    unfold find_fit
    refine find_fit_loop_eq hI.brk_lt hI.fl (fun f hf => ?_) hI.length_lt
    have := freeAddrs_range hS ((hI.mem_iff f).1 hf)
    have := hg.inb f hf
    omega
  refine ⟨_, e, ?_, fun h => ?_, rfl⟩
  · rcases bestFit_cases asize (l.map fun f => (f, sizeOf s.mem f)) 0 (M32 - 1)
      with h | ⟨p, hp, h1, h2⟩
    · exact Or.inl h
    · obtain ⟨f, hf, rfl⟩ := List.mem_map.1 hp
      obtain ⟨pre, post, hbs, hfe⟩ := hI.sizeOf_free hf
      exact Or.inr ⟨pre, _, post, hbs, by rw [h1]; exact hfe, h2⟩
  · apply bestFit_nofit
    intro p hp
    obtain ⟨f, hf, rfl⟩ := List.mem_map.1 hp
    exact h f hf

theorem IsBlock_unique {a h : Nat} {bs : List Blk} {b c : Blk} (hs : Sized bs)
    (hb : IsBlock a bs h b) (hc : IsBlock a bs h c) : b = c := by
  induction bs generalizing a with
  | nil => exact hb.elim
  | cons d bs ih =>
    obtain ⟨⟨h1, _⟩, h3⟩ := Sized_cons.1 hs
    rcases hb with ⟨rfl, rfl⟩ | hb <;> rcases hc with ⟨e, rfl⟩ | hc
    · rfl
    · have := IsBlock_range hc; omega
    · have := IsBlock_range hb; omega
    · exact ih h3 hb hc

theorem IsBlock_disjoint {a h k : Nat} {bs : List Blk} {b c : Blk} (hs : Sized bs)
    (hb : IsBlock a bs h b) (hc : IsBlock a bs k c) (hne : h ≠ k) :
    h + b.size ≤ k ∨ k + c.size ≤ h := by
  induction bs generalizing a with
  | nil => exact hb.elim
  | cons d bs ih =>
    obtain ⟨⟨h1, _⟩, h3⟩ := Sized_cons.1 hs
    rcases hb with ⟨rfl, rfl⟩ | hb <;> rcases hc with ⟨e, rfl⟩ | hc
    · exact absurd e.symm hne
    · have := IsBlock_range hc; left; omega
    · have := IsBlock_range hb; right; omega
    · exact ih h3 hb hc

theorem IsBlock_mod {a h : Nat} {bs : List Blk} {b : Blk} (hs : Sized bs)
    (hb : IsBlock a bs h b) : h % 8 = a % 8 ∧ 16 ≤ b.size ∧ b.size % 8 = 0 := by
  obtain ⟨pre, post, rfl, rfl⟩ := IsBlock_iff.1 hb
  obtain ⟨h1, h2⟩ := Sized_append.1 hs
  have := total_mod h1
  have := (Sized_cons.1 h2).1
  omega

/-- Replacing a free block by blocks of the same total size keeps the allocated blocks. -/
theorem IsBlock_replace {a h : Nat} {pre post mid : List Blk} {sz : Nat} {b : Blk}
    (hmid : total mid = sz) (hb : b.alloc = true)
    (h1 : IsBlock a (pre ++ ⟨sz, false⟩ :: post) h b) : IsBlock a (pre ++ mid ++ post) h b := by
  rw [IsBlock_append] at h1
  rw [List.append_assoc, IsBlock_append, IsBlock_append]
  rcases h1 with h1 | h1
  · exact Or.inl h1
  · rcases IsBlock_cons.1 h1 with ⟨_, e⟩ | h1
    · rw [e] at hb; simp at hb
    · right; right
      rw [hmid, Nat.add_assoc]
      simp only [] at h1
      rw [Nat.add_assoc] at h1
      exact h1

theorem place_spec {s : State} {pre post : List Blk} {l : List Nat} {sz asize : Nat}
    (hI : Inv s (pre ++ ⟨sz, false⟩ :: post) l)
    (h16 : 16 ≤ asize) (h8 : asize % 8 = 0) (hle : asize ≤ sz) :
    ∃ s1 bs1 l1 k, place s (s.lo + 12 + total pre + 4) asize = some s1 ∧ Inv s1 bs1 l1 ∧
      asize ≤ k ∧ k ≤ sz ∧ IsBlock (s.lo + 12) bs1 (s.lo + 12 + total pre) ⟨k, true⟩ ∧
      (∀ y, InAlloc (s.lo + 12) (pre ++ ⟨sz, false⟩ :: post) y → s1.mem y = s.mem y) ∧
      (∀ h b, b.alloc = true → IsBlock (s.lo + 12) (pre ++ ⟨sz, false⟩ :: post) h b →
        IsBlock (s.lo + 12) bs1 h b) ∧
      s1.lo = s.lo ∧ s1.brk = s.brk ∧ s1.max = s.max := by
  by_cases hd : asize + 16 ≤ sz
  · obtain ⟨d, rfl⟩ : ∃ d, sz = asize + d := ⟨sz - asize, by omega⟩
    obtain ⟨s1, l1, l2, e1, _, hI1, hfr, x1, x2, x3⟩ := place_split hI h16 h8 (by omega)
    refine ⟨s1, _, _, asize, e1, hI1, Nat.le_refl _, hle, ?_, hfr, fun h b hb hh => ?_, x1, x2, x3⟩
    · rw [IsBlock_append]; right; left; exact ⟨rfl, rfl⟩
    · have := @IsBlock_replace _ _ _ _ [⟨asize, true⟩, ⟨d, false⟩] _ _ (by simp [total]) hb hh
      simpa using this
  · obtain ⟨s1, l1, l2, e1, _, hI1, hfr, x1, x2, x3⟩ := place_nosplit hI hle (by omega)
    refine ⟨s1, _, _, sz, e1, hI1, hle, Nat.le_refl _, ?_, hfr, fun h b hb hh => ?_, x1, x2, x3⟩
    · rw [IsBlock_append]; right; left; exact ⟨rfl, rfl⟩
    · have := @IsBlock_replace _ _ _ _ [⟨sz, true⟩] _ _ (by simp [total]) hb hh
      simpa using this

theorem adjust_spec {n : Nat} (h0 : 0 < n) (h32 : n + 11 < 4294967296) :
    16 ≤ adjust n ∧ adjust n % 8 = 0 ∧ n + 4 ≤ adjust n ∧ adjust n ≤ n + 15 := by
  unfold adjust DSIZE WSIZE M32
  by_cases h : n ≤ 8
  · rw [if_pos h]; omega
  · rw [if_neg h]; omega

theorem extend_shape {a0 n r : Nat} {bs bs1 : List Blk} {l l1 : List Nat} {m : Mem}
    (hseg : Seg m a0 true bs) (ho : CoalOut a0 bs n [] l r bs1 l1) :
    ∃ pre S, bs1 = pre ++ [⟨S, false⟩] ∧ r = a0 + total pre + 4 ∧ n ≤ S ∧
      total bs1 = total bs + n ∧
      (∀ h b, b.alloc = true → IsBlock a0 bs h b → IsBlock a0 bs1 h b) ∧
      (∀ y, InAlloc a0 bs y → InAlloc a0 bs1 y) ∧
      (∀ k, ¬ IsBlock a0 bs (a0 + total pre) ⟨k, true⟩) := by
  rcases ho with ⟨_, _, rfl, rfl, _⟩ | ⟨_, nsz, post1, a, _⟩ |
    ⟨_, pre1, psz, rfl, rfl, rfl, _⟩ | ⟨pre1, psz, nsz, post1, _, a, _⟩
  · refine ⟨bs, n, rfl, rfl, Nat.le_refl _, by simp [total_append, total],
      fun h b _ hh => ?_, fun y hy => ?_, fun k hk => ?_⟩
    · rw [IsBlock_append]; exact Or.inl hh
    · rw [InAlloc_append]; exact Or.inl hy
    · have := IsBlock_range hk
      have := (IsBlock_mod hseg.sized hk).2.1
      simp only [] at *; omega
  · cases a
  · have hS := hseg.sized
    refine ⟨pre1, n + psz, rfl, rfl, by omega, by simp [total_append, total]; omega,
      fun h b hb hh => ?_, fun y hy => ?_, fun k hk => ?_⟩
    · rw [IsBlock_append] at hh ⊢
      rcases hh with hh | hh
      · exact Or.inl hh
      · rcases IsBlock_cons.1 hh with ⟨_, e⟩ | hh
        · rw [e] at hb; simp at hb
        · exact hh.elim
    · rw [InAlloc_append] at hy ⊢
      rcases hy with hy | hy
      · exact Or.inl hy
      · rcases InAlloc_cons.1 hy with ⟨e, _⟩ | hy
        · simp at e
        · exact hy.elim
    · have h2 : IsBlock a0 (pre1 ++ [⟨psz, false⟩]) (a0 + total pre1) ⟨psz, false⟩ := by
        rw [IsBlock_append]; right; left; exact ⟨rfl, rfl⟩
      have := IsBlock_unique hS hk h2
      simp at this
  · cases a

theorem extendsize_spec (n : Nat) :
    adjust n ≤ extendsize n ∧ 4096 ≤ extendsize n ∧ extendsize n % 8 = 0 ∧
      extendsize n < 4294967296 := by
  have h : extendsize n = if adjust n ≤ 4096 then 4096 else adjust n := rfl
  have h2 : adjust n % 8 = 0 ∧ adjust n < 4294967296 := by
    unfold adjust DSIZE WSIZE M32
    by_cases h : n ≤ 8
    · rw [if_pos h]; omega
    · rw [if_neg h]; omega
  rw [h]
  by_cases h3 : adjust n ≤ 4096
  · rw [if_pos h3]; omega
  · rw [if_neg h3]; omega

theorem mm_malloc_zero (s : State) : mm_malloc s 0 = some (0, s) := by
  unfold mm_malloc; rw [if_pos rfl]

theorem mm_malloc_fit {s s1 : State} {n b : Nat} (hn : n ≠ 0)
    (hf : find_fit s (adjust n) = some b) (hb : b ≠ 0)
    (hp : place s b (adjust n) = some s1) : mm_malloc s n = some (b, s1) := by
  unfold mm_malloc; rw [if_neg hn]; simp only [hf, if_pos hb, hp]

theorem mm_malloc_fail {s s1 : State} {n : Nat} (hn : n ≠ 0)
    (hf : find_fit s (adjust n) = some 0)
    (he : extend_heap s (extendsize n / 4) = some (0, s1)) : mm_malloc s n = some (0, s1) := by
  unfold extendsize at he
  unfold mm_malloc WSIZE; rw [if_neg hn]
  simp only [hf, he, ne_eq, not_true_eq_false, if_false, if_true]

theorem mm_malloc_ext {s s1 s2 s3 : State} {n r : Nat} (hn : n ≠ 0)
    (hf : find_fit s (adjust n) = some 0)
    (he : extend_heap s (extendsize n / 4) = some (r, s1)) (hr : r ≠ 0)
    (hi : insert_head s1 r = some s2) (hp : place s2 r (adjust n) = some s3) :
    mm_malloc s n = some (r, s3) := by
  unfold extendsize at he
  unfold mm_malloc WSIZE; rw [if_neg hn]
  simp only [hf, he, ne_eq, not_true_eq_false, if_false, if_neg hr, hi, hp]

/-- When nothing fits and the heap cannot grow, `mm_malloc` answers `NULL` in the same state. -/
theorem mm_malloc_null {s : State} {n : Nat}
    (hf : find_fit s (adjust n) = some 0) (hmax : s.max < s.brk + extendsize n) :
    mm_malloc s n = some (0, s) := by
  by_cases hn : n = 0
  · rw [hn]; exact mm_malloc_zero s
  · obtain ⟨_, _, h8, h32⟩ := extendsize_spec n
    exact mm_malloc_fail hn hf (extend_heap_fail h8 h32 hmax)

theorem mm_malloc_spec {s : State} {bs : List Blk} {l : List Nat} {n : Nat}
    (hI : Inv s bs l) (hn : 0 < n) (hn32 : n + 11 < 4294967296) :
    ∃ p s1 bs1 l1, mm_malloc s n = some (p, s1) ∧ Inv s1 bs1 l1 ∧
      (∀ y, InAlloc (s.lo + 12) bs y → s1.mem y = s.mem y) ∧
      (∀ h b, b.alloc = true → IsBlock (s.lo + 12) bs h b → IsBlock (s.lo + 12) bs1 h b) ∧
      s1.lo = s.lo ∧ s1.max = s.max ∧ s.brk ≤ s1.brk ∧
      ((p = 0 ∧ s1 = s ∧ bs1 = bs) ∨
       (∃ k, 4 ≤ p ∧ IsBlock (s.lo + 12) bs1 (p - 4) ⟨k, true⟩ ∧ n + 4 ≤ k ∧
          ∀ j, ¬ IsBlock (s.lo + 12) bs (p - 4) ⟨j, true⟩)) := by
  obtain ⟨a16, a8, an, _⟩ := adjust_spec hn hn32
  obtain ⟨b, hf, hb, _, _⟩ := find_fit_spec hI (adjust n)
  have hn0 : n ≠ 0 := by omega
  by_cases hb0 : b = 0
  · subst hb0
    obtain ⟨e1, e2, e8, e32⟩ := extendsize_spec n
    by_cases hmax : s.brk + extendsize n ≤ s.max
    · obtain ⟨r, s1, bs1, l1, he, hX, ho, hfr1, lo1, brk1, max1⟩ :=
        extend_heap_spec hI (by omega) e8 hmax
      obtain ⟨s2, hi, hI2, hfr2, hS⟩ := insert_free hX
      obtain ⟨pre, S, rfl, rfl, hS1, _, hkeep, hin, hnew⟩ := extend_shape hI.seg ho
      have lo2 : s2.lo = s.lo := by rw [hS.lo, lo1]
      have hI2c : Inv s2 (pre ++ ⟨S, false⟩ :: []) ((s.lo + 12 + total pre + 4) :: l1) := hI2
      obtain ⟨s3, bs3, l3, k, hp, hI3, hk1, hk2, hblk, hfr3, hkeep3, lo3, brk3, max3⟩ :=
        place_spec hI2c a16 a8 (by omega)
      rw [lo2] at hp hblk hfr3 hkeep3
      rw [lo1] at hfr2
      refine ⟨_, s3, bs3, l3, mm_malloc_ext hn0 hf he (by omega) hi hp, hI3,
        fun y hy => ?_, fun h c hc hh => hkeep3 h c hc (hkeep h c hc hh),
        by rw [lo3, lo2], by rw [max3, hS.max, max1], by rw [brk3, hS.brk, brk1]; omega,
        Or.inr ⟨k, by omega, ?_, by omega, ?_⟩⟩
      · rw [hfr3 y (hin y hy), hfr2 y (hin y hy), hfr1 y (hin y hy)]
      · rw [show s.lo + 12 + total pre + 4 - 4 = s.lo + 12 + total pre from by omega]
        exact hblk
      · rw [show s.lo + 12 + total pre + 4 - 4 = s.lo + 12 + total pre from by omega]
        exact hnew
    · exact ⟨0, s, bs, l, mm_malloc_null hf (by omega), hI, fun _ _ => rfl,
        fun _ _ _ hh => hh, rfl, rfl, Nat.le_refl _, Or.inl ⟨rfl, rfl, rfl⟩⟩
  · rcases hb with hb | ⟨pre, sz, post, rfl, rfl, hsz⟩
    · exact absurd hb hb0
    · obtain ⟨s1, bs1, l1, k, hp, hI1, hk1, hk2, hblk, hfr, hkeep, lo1, brk1, max1⟩ :=
        place_spec hI a16 a8 hsz
      refine ⟨_, s1, bs1, l1, mm_malloc_fit hn0 hf hb0 hp, hI1, hfr, hkeep, lo1, max1,
        by rw [brk1], Or.inr ⟨k, by omega, ?_, by omega, fun j hj => ?_⟩⟩
      · rw [show s.lo + 12 + total pre + 4 - 4 = s.lo + 12 + total pre from by omega]
        exact hblk
      · rw [show s.lo + 12 + total pre + 4 - 4 = s.lo + 12 + total pre from by omega] at hj
        have h2 : IsBlock (s.lo + 12) (pre ++ ⟨sz, false⟩ :: post) (s.lo + 12 + total pre)
            ⟨sz, false⟩ := by
          rw [IsBlock_append]; right; left; exact ⟨rfl, rfl⟩
        have := IsBlock_unique hI.seg.sized hj h2
        simp at this

theorem Seg_frame_alloc {m m1 : Mem} {a : Nat} {pa : Bool} {bs : List Blk} (h : Seg m a pa bs)
    (hm : ∀ x, a ≤ x → ¬ InAlloc a bs x → m1 x = m x) : Seg m1 a pa bs := by
  induction bs generalizing a pa with
  | nil => trivial
  | cons b bs ih =>
    obtain ⟨h0, h1, h2, h3, h4⟩ := h
    have hnot : ∀ x, a ≤ x → (x < a + 4 ∨ (b.alloc = false ∧ x < a + b.size)) →
        m1 x = m x := fun x hx hc => hm x hx fun hin => by
      rcases InAlloc_cons.1 hin with ⟨e, q1, q2⟩ | hin
      · rcases hc with hc | ⟨hc, _⟩
        · omega
        · rw [e] at hc; cases hc
      · have := InAlloc_range hin; omega
    refine Seg_cons.2 ⟨?_, h1, h2, fun hb => ⟨(h3 hb).1, ?_⟩, ?_⟩
    · rw [← h0]; exact getWord_congr fun x q1 q2 => hnot x q1 (Or.inl (by omega))
    · rw [← (h3 hb).2]
      exact getWord_congr fun x q1 q2 => hnot x (by omega) (Or.inr ⟨hb, by omega⟩)
    · exact ih h4 fun x hx hn => hm x (by omega) fun hin => by
        rcases InAlloc_cons.1 hin with ⟨_, _, q2⟩ | hin
        · omega
        · exact hn hin

/-- Overwriting bytes of allocated payloads keeps the invariant. -/
theorem Inv.frame_alloc {s s1 : State} {bs : List Blk} {l : List Nat} (hI : Inv s bs l)
    (hS : Same s s1) (hfl : s1.free_list = s.free_list)
    (hm : ∀ x, ¬ InAlloc (s.lo + 12) bs x → s1.mem x = s.mem x) : Inv s1 bs l := by
  have hS0 := hI.seg.sized
  refine ⟨by rw [hS.brk, hS.max]; exact hI.brk_max, by rw [hS.max]; exact hI.max_lt,
    by rw [hS.hl, hS.lo]; exact hI.hl, ?_, ?_, by rw [hS.lo, hS.brk]; exact hI.size, ?_, ?_,
    hI.nodup, by rw [hS.lo]; exact hI.mem_iff⟩
  · rw [hS.lo, ← hI.prologue]
    exact getWord_congr fun x q1 q2 => hm x fun hin => by
      have := InAlloc_range hin; omega
  · rw [hS.lo]
    exact Seg_frame_alloc hI.seg fun x _ hn => hm x hn
  · rw [hS.lo, ← hI.epi]
    exact getWord_congr fun x q1 q2 => hm x fun hin => by
      have := InAlloc_range hin; omega
  · rw [hfl]
    exact FLseg_frame hI.fl fun b hb x q1 q2 => hm x fun hin => by
      have := InAlloc_free hS0 hin ((hI.mem_iff b).1 hb); omega

theorem Seg_block {m : Mem} {a h : Nat} {pa : Bool} {bs : List Blk} {b : Blk}
    (hs : Seg m a pa bs) (hb : IsBlock a bs h b) :
    ∃ pa1, getWord m h = tag b.size b.alloc pa1 := by
  induction bs generalizing a pa with
  | nil => exact hb.elim
  | cons c bs ih =>
    obtain ⟨h0, _, _, _, h4⟩ := hs
    rcases IsBlock_cons.1 hb with ⟨rfl, rfl⟩ | hb
    · exact ⟨pa, h0⟩
    · exact ih h4 hb

theorem IsBlock_addr {a a1 h : Nat} {bs : List Blk} {b : Blk} (e : a = a1)
    (hb : IsBlock a bs h b) : IsBlock a1 bs h b := e ▸ hb

theorem CoalOut.keep {a0 sz r : Nat} {pre post bs1 : List Blk} {l l1 : List Nat}
    (ho : CoalOut a0 pre sz post l r bs1 l1) (h : Nat) (b : Blk) (hb : b.alloc = true)
    (hh : IsBlock a0 (pre ++ ⟨sz, true⟩ :: post) h b) (hne : h ≠ a0 + total pre) :
    IsBlock a0 bs1 h b := by
  have hno : ∀ {a k}, ¬ IsBlock a [⟨k, false⟩] h b := fun hx => by
    rcases IsBlock_cons.1 hx with ⟨_, e⟩ | hx
    · rw [e] at hb; cases hb
    · exact hx.elim
  rw [IsBlock_append, IsBlock_cons] at hh
  rcases ho with ⟨_, _, _, rfl, _⟩ | ⟨_, nsz, post1, rfl, _, rfl, _⟩ |
    ⟨_, pre1, psz, rfl, _, rfl, _⟩ | ⟨pre1, psz, nsz, post1, rfl, rfl, _, rfl, _⟩
  · rw [IsBlock_append, IsBlock_cons]
    rcases hh with hh | ⟨e, _⟩ | hh
    · exact Or.inl hh
    · exact absurd e hne
    · exact Or.inr (Or.inr hh)
  · rw [IsBlock_append, IsBlock_cons]
    rcases hh with hh | ⟨e, _⟩ | hh
    · exact Or.inl hh
    · exact absurd e hne
    · rcases IsBlock_cons.1 hh with ⟨_, e⟩ | hh
      · rw [e] at hb; cases hb
      · exact Or.inr (Or.inr (IsBlock_addr (by simp only []; omega) hh))
  · rw [IsBlock_append, IsBlock_cons]
    rw [IsBlock_append] at hh
    rcases hh with (hh | hh) | ⟨e, _⟩ | hh
    · exact Or.inl hh
    · exact absurd hh hno
    · exact absurd e hne
    · exact Or.inr (Or.inr (IsBlock_addr (by simp only [total_append, total]; omega) hh))
  · rw [IsBlock_append, IsBlock_cons]
    rw [IsBlock_append] at hh
    rcases hh with (hh | hh) | ⟨e, _⟩ | hh
    · exact Or.inl hh
    · exact absurd hh hno
    · exact absurd e hne
    · rcases IsBlock_cons.1 hh with ⟨_, e⟩ | hh
      · rw [e] at hb; cases hb
      · exact Or.inr (Or.inr (IsBlock_addr (by simp only [total_append, total]; omega) hh))

theorem CoalOut.freed {a0 sz r : Nat} {pre post bs1 : List Blk} {l l1 : List Nat}
    (ho : CoalOut a0 pre sz post l r bs1 l1) :
    ∃ c, IsBlock a0 bs1 (r - 4) ⟨c, false⟩ ∧ 4 ≤ r ∧ r - 4 ≤ a0 + total pre ∧
      a0 + total pre + sz ≤ r - 4 + c := by
  have hin : ∀ (P Q : List Blk) (c : Nat),
      IsBlock a0 (P ++ ⟨c, false⟩ :: Q) (a0 + total P + 4 - 4) ⟨c, false⟩ := fun P Q c => by
    rw [IsBlock_append, IsBlock_cons]; right; left; exact ⟨by omega, rfl⟩
  rcases ho with ⟨_, _, rfl, rfl, _⟩ | ⟨_, nsz, post1, rfl, rfl, rfl, _⟩ |
    ⟨_, pre1, psz, rfl, rfl, rfl, _⟩ | ⟨pre1, psz, nsz, post1, rfl, rfl, rfl, rfl, _⟩
  · exact ⟨_, hin _ _ _, by omega, by omega, by omega⟩
  · exact ⟨_, hin _ _ _, by omega, by omega, by omega⟩
  · exact ⟨_, hin _ _ _, by omega, by simp only [total_append, total]; omega,
      by simp only [total_append, total]; omega⟩
  · exact ⟨_, hin _ _ _, by omega, by simp only [total_append, total]; omega,
      by simp only [total_append, total]; omega⟩

theorem mm_realloc_null {s s1 : State} {p m : Nat} (h : mm_malloc s m = some (0, s1)) :
    mm_realloc s p m = some (0, s1) := by
  unfold mm_realloc; simp only [h, if_true]

theorem mm_realloc_exec {s s1 s2 s3 : State} {p m q k : Nat}
    (h : mm_malloc s m = some (q, s1)) (hq : q ≠ 0) (hk : GET_SIZE s1 (HDRP p) = some k)
    (hc : memcpy s1 q p (if m < k then m else k) = some s2) (hf : mm_free s2 p = some s3) :
    mm_realloc s p m = some (q, s3) := by
  unfold mm_realloc; simp only [h, if_neg hq, hk, hc, hf]

theorem memcpy_eq {s : State} {d r n : Nat} (h1 : s.lo ≤ d) (h2 : d + n ≤ s.brk)
    (h3 : s.lo ≤ r) (h4 : r + n ≤ s.brk) (h5 : d + n ≤ r ∨ r + n ≤ d) :
    ∃ s2, memcpy s d r n = some s2 ∧
      (∀ a, s2.mem a = if d ≤ a ∧ a < d + n then s.mem (r + (a - d)) else s.mem a) ∧
      Same s s2 ∧ s2.free_list = s.free_list := by
  unfold memcpy; rw [if_pos ⟨h1, h2, h3, h4, h5⟩]
  exact ⟨_, rfl, fun _ => rfl, ⟨rfl, rfl, rfl, rfl⟩, rfl⟩

theorem mm_realloc_spec {s : State} {bs : List Blk} {l : List Nat} {p k m : Nat}
    (hI : Inv s bs l) (hp4 : 4 ≤ p) (hblk : IsBlock (s.lo + 12) bs (p - 4) ⟨k, true⟩)
    (hm : 0 < m) (hm32 : m + 11 < 4294967296) :
    ∃ q s1 bs1 l1, mm_realloc s p m = some (q, s1) ∧ Inv s1 bs1 l1 ∧
      s1.lo = s.lo ∧ s1.max = s.max ∧ s.brk ≤ s1.brk ∧
      ((q = 0 ∧ s1 = s ∧ bs1 = bs) ∨
       (∃ j, 4 ≤ q ∧ IsBlock (s.lo + 12) bs1 (q - 4) ⟨j, true⟩ ∧ m + 4 ≤ j ∧
          (∀ i, i < m → i + 4 < k → s1.mem (q + i) = s.mem (p + i)) ∧
          (∀ h b, b.alloc = true → IsBlock (s.lo + 12) bs h b → h ≠ p - 4 →
            IsBlock (s.lo + 12) bs1 h b) ∧
          (∃ r c, l1.head? = some r ∧ IsBlock (s.lo + 12) bs1 (r - 4) ⟨c, false⟩ ∧ 4 ≤ r ∧
            r - 4 ≤ p - 4 ∧ p - 4 + k ≤ r - 4 + c))) := by
  obtain ⟨q, s1, bs1, l1, hmal, hI1, hfr1, hkeep1, lo1, max1, brk1, hq⟩ :=
    mm_malloc_spec hI hm hm32
  rcases hq with ⟨rfl, rfl, rfl⟩ | ⟨j, hq4, hqb, hmj, hnew⟩
  · exact ⟨0, s1, bs1, l1, mm_realloc_null hmal, hI1, rfl, rfl, Nat.le_refl _,
      Or.inl ⟨rfl, rfl, rfl⟩⟩
  · have hpb := hkeep1 _ _ rfl hblk
    have hS1 := hI1.seg.sized
    have hsize1 := hI1.size
    have h32 : s1.brk < 4294967296 := Nat.lt_of_le_of_lt hI1.brk_max hI1.max_lt
    rw [← lo1] at hpb hqb
    have hne : q - 4 ≠ p - 4 := fun e => hnew k (by rw [e]; exact hblk)
    have hdis := IsBlock_disjoint hS1 hpb hqb (Ne.symm hne)
    have hpr := IsBlock_range hpb
    have hqr := IsBlock_range hqb
    have hpm := (IsBlock_mod hS1 hpb).2
    simp only [] at hdis hpr hqr hpm
    obtain ⟨pa, hw⟩ := Seg_block hI1.seg hpb
    have hk : GET_SIZE s1 (HDRP p) = some k := by
      rw [HDRP_eq hp4 (by clear * - hpr hsize1 h32 hpm; omega)]
      exact GET_SIZE_tag (by clear * - hpr; omega) (by clear * - hpr hsize1 hpm; omega) hw hpm.2
    obtain ⟨cs, hce, hcs⟩ : ∃ cs, cs = (if m < k then m else k) ∧
        (cs ≤ m ∧ cs ≤ k ∧ (cs = m ∨ cs = k)) := by
      refine ⟨_, rfl, ?_⟩
      by_cases h : m < k
      · rw [if_pos h]; omega
      · rw [if_neg h]; omega
    obtain ⟨s2, hc, hmem2, hS2, hfl2⟩ := memcpy_eq (s := s1) (d := q) (r := p) (n := cs)
      (by clear * - hqr hq4; omega) (by clear * - hqr hq4 hcs hmj hsize1; omega)
      (by clear * - hpr hp4; omega) (by clear * - hpr hp4 hcs hsize1 hpm; omega)
      (by clear * - hdis hcs hp4 hq4 hmj hpm; omega)
    have hI2 : Inv s2 bs1 l1 := by
      refine hI1.frame_alloc hS2 hfl2 fun x hx => ?_
      rw [hmem2, if_neg]
      rintro ⟨x1, x2⟩
      exact hx (InAlloc_of_block hqb (by clear * - x1 hq4; omega)
        (by clear * - x2 hq4 hcs hmj; omega))
    obtain ⟨pre, post, rfl, hpa⟩ := IsBlock_iff.1 hpb
    have hpe : p = s2.lo + 12 + total pre + 4 := by rw [hS2.lo]; clear * - hpa hp4; omega
    obtain ⟨s3, r, bs3, l3, hfree, hI3, ho, hfr3, hS3⟩ := mm_free_spec hI2
    have hfree2 : mm_free s2 p = some s3 := by rw [hpe]; exact hfree
    rw [hS2.lo] at ho hfr3
    have hqb3 := ho.keep _ _ rfl hqb (by rw [← hpa]; exact hne)
    obtain ⟨c, hc1, hc2, hc3, hc4⟩ := ho.freed
    have lo3 : s3.lo = s.lo := by rw [hS3.lo, hS2.lo]; exact lo1
    refine ⟨q, s3, bs3, r :: l3, mm_realloc_exec hmal (by clear * - hq4; omega) hk (hce ▸ hc) hfree2,
      hI3, lo3, by rw [hS3.max, hS2.max]; exact max1, by rw [hS3.brk, hS2.brk]; exact brk1,
      Or.inr ⟨j, hq4, by rw [← lo1]; exact hqb3, hmj, fun i hi1 hi2 => ?_,
        fun h b hb hh hnp => ?_, r, c, rfl, by rw [← lo1]; exact hc1, hc2,
        by rw [hpa]; exact hc3, by rw [hpa]; exact hc4⟩⟩
    · rw [hfr3 _ (InAlloc_of_block hqb3 (by clear * - hq4; omega)
        (by clear * - hq4 hi1 hmj; omega))]
      rw [hmem2]
      have hin : InAlloc (s.lo + 12) bs (p + i) :=
        InAlloc_of_block hblk (by clear * - hp4; omega) (by clear * - hp4 hi2; omega)
      by_cases hi : i < cs
      · rw [if_pos ⟨by omega, by omega⟩, show q + i - q = i from by omega]
        exact hfr1 _ hin
      · exfalso; clear * - hi hi1 hi2 hcs; omega
    · have := hkeep1 h b hb hh
      rw [← lo1] at this
      rw [← lo1]
      exact ho.keep h b hb this (by rw [← hpa]; exact hnp)

/-- The first part of `mm_init`: the initial `sbrk` and the three sentinel words. -/
theorem mm_init_head {s0 : State} (h0 : s0.brk = s0.lo) (hmax : s0.lo + 16 ≤ s0.max)
    (h32 : s0.max < 4294967296) :
    ∃ s4, s4.mem = putWord (putWord (putWord s0.mem s0.lo 0) (s0.lo + 4) 9) (s0.lo + 12) 3 ∧
      s4.lo = s0.lo ∧ s4.brk = s0.lo + 16 ∧ s4.max = s0.max ∧ s4.heap_listp = s0.lo + 8 ∧
      s4.free_list = s0.free_list ∧
      mm_init s0 =
        match extend_heap s4 (CHUNKSIZE / WSIZE) with
        | none => none
        | some (r, s) =>
        if r = 0 then some (-1, s)
        else
          match PUT_WORD { s with free_list := uadd s.heap_listp (2 * WSIZE) }
            (PRED (uadd s.heap_listp (2 * WSIZE))) 0 with
          | none => none
          | some s =>
          match PUT_WORD s (SUCC s.free_list) 0 with
          | none => none
          | some s =>
          some (0, s) := by
  have e16 : 4 * WSIZE = 16 := rfl
  have u1 : uadd s0.brk (1 * WSIZE) = s0.lo + 4 := by
    rw [h0]; exact uadd_eq (by omega)
  have u2 : uadd s0.brk (2 * WSIZE) = s0.lo + 8 := by
    rw [h0]; exact uadd_eq (by omega)
  have u3 : uadd s0.brk (3 * WSIZE) = s0.lo + 12 := by
    rw [h0]; exact uadd_eq (by omega)
  have p1 : PACK DSIZE 1 0 = 9 := by decide
  have p2 : PACK 0 1 1 = 3 := by decide
  unfold mm_init mem_sbrk
  rw [e16, if_pos (by omega)]
  dsimp only
  rw [PUT_WORD_eq 0 (by dsimp only; omega) (by dsimp only; omega)]
  dsimp only
  rw [u1, p1, PUT_WORD_eq 9 (by dsimp only; omega) (by dsimp only; omega)]
  dsimp only
  rw [u3, p2, PUT_WORD_eq 3 (by dsimp only; omega) (by dsimp only; omega)]
  dsimp only
  rw [u2]
  refine ⟨_, ?_, ?_, ?_, ?_, ?_, ?_, rfl⟩
  · dsimp only; rw [h0]
  · rfl
  · dsimp only; rw [h0]
  · rfl
  · rfl
  · rfl

theorem mm_init_nomem {s0 : State} (hmax : s0.max < s0.brk + 16) :
    mm_init s0 = some (-1, { s0 with heap_listp := M32 - 1 }) := by
  have e16 : 4 * WSIZE = 16 := rfl
  unfold mm_init mem_sbrk
  rw [e16, if_neg (by omega)]

theorem mm_init_noext {s0 : State} (h0 : s0.brk = s0.lo) (hmax : s0.lo + 16 ≤ s0.max)
    (h32 : s0.max < 4294967296) (hx : s0.max < s0.lo + 4112) :
    ∃ s, mm_init s0 = some (-1, s) := by
  obtain ⟨s4, _, lo4, brk4, max4, _, _, e⟩ := mm_init_head h0 hmax h32
  have := extend_heap_fail (s := s4) (n := 4096) (by decide) (by decide)
    (by clear * - brk4 max4 hx; omega)
  have e4 : CHUNKSIZE / WSIZE = 4096 / 4 := rfl
  rw [e, e4, this]
  exact ⟨s4, rfl⟩

/-- The heap extension of `mm_init`, from the state left by the sentinel writes. -/
theorem init_ext {s0 s4 : State} (hmax : s0.lo + 4112 ≤ s0.max) (h32 : s0.max < 4294967296)
    (mem4 : s4.mem = putWord (putWord (putWord s0.mem s0.lo 0) (s0.lo + 4) 9) (s0.lo + 12) 3)
    (lo4 : s4.lo = s0.lo) (brk4 : s4.brk = s0.lo + 16) (max4 : s4.max = s0.max)
    (hl4 : s4.heap_listp = s0.lo + 8) :
    ∃ s6, extend_heap s4 (4096 / 4) = some (s0.lo + 16, s6) ∧
      s6.mem = putWord (putWord (putWord (putWord (putWord (putWord (putWord s0.mem
        s0.lo 0) (s0.lo + 4) 9) (s0.lo + 12) 3) (s0.lo + 12) (tag 4096 false true))
        (s0.lo + 4104) (tag 4096 false true)) (s0.lo + 12 + 4096) (tag 0 true false))
        (s0.lo + 12 + 4096) (tag 0 true false) ∧
      s6.lo = s0.lo ∧ s6.brk = s0.lo + 4112 ∧ s6.max = s0.max ∧ s6.heap_listp = s0.lo + 8 := by
  obtain ⟨s5, he, mem5, fl5, lo5, brk5, max5, hl5⟩ :=
    @extend_heap_exec s4 (s0.lo + 12) 4096 (s0.lo + 4104) true
      (by clear * - brk4; omega) (by clear * - lo4; omega) (by clear * - brk4 max4 hmax; omega)
      (by clear * - max4 h32; omega) (by omega) (by omega) (by omega)
      (by rw [mem4, getWord_putWord_same]; rfl)
  have hd5 : getWord s5.mem (s0.lo + 12) = tag 4096 false true := by
    rw [mem5, getWord_putWord_other _ _ _ _ (by omega),
      getWord_putWord_other _ _ _ _ (by omega), getWord_putWord_same]; rfl
  have nx5 : getWord s5.mem (s0.lo + 12 + 4096) = tag 0 true false := by
    rw [mem5, getWord_putWord_same]; rfl
  have q1 : s5.lo + 4 ≤ s0.lo + 12 := by clear * - lo5 lo4; omega
  have q2 : s0.lo + 12 + 4096 + 4 ≤ s5.brk := by clear * - brk5 brk4; omega
  have q3 : s5.brk < 4294967296 := by clear * - brk5 brk4 hmax h32; omega
  obtain ⟨prev, _, hco⟩ := @coalesce_reads s5 (s0.lo + 12) 4096 0 _ _ _
    q1 q2 q3 (by omega) (by omega) hd5 nx5
  obtain ⟨s6, hc1, mem6, fl6, hS6⟩ := @coalesce_case1_exec s5 (s0.lo + 12)
    4096 0 _ q1 q2 q3 (by omega) nx5
  have hco2 : coalesce s5 (s0.lo + 12 + 4) = some (s0.lo + 12 + 4, s6) := by
    rw [hco, if_pos ⟨by decide, by decide⟩]; exact hc1
  refine ⟨s6, by rw [he, hco2], by rw [mem6, mem5, mem4], by rw [hS6.lo, lo5, lo4],
    by rw [hS6.brk, brk5, brk4], by rw [hS6.max, max5, max4], by rw [hS6.hl, hl5, hl4]⟩

/-- The state once the free list holds the first block. -/
theorem init_inv {s0 s6 : State} (hmax : s0.lo + 4112 ≤ s0.max) (h32 : s0.max < 4294967296)
    (m6 : s6.mem = putWord (putWord (putWord (putWord (putWord (putWord (putWord s0.mem
        s0.lo 0) (s0.lo + 4) 9) (s0.lo + 12) 3) (s0.lo + 12) (tag 4096 false true))
        (s0.lo + 4104) (tag 4096 false true)) (s0.lo + 12 + 4096) (tag 0 true false))
        (s0.lo + 12 + 4096) (tag 0 true false))
    (lo6 : s6.lo = s0.lo) (brk6 : s6.brk = s0.lo + 4112) (max6 : s6.max = s0.max)
    (hl6 : s6.heap_listp = s0.lo + 8) {s : State}
    (hs : s = { s6 with
      free_list := s0.lo + 16
      mem := putWord (putWord s6.mem (s0.lo + 16) 0) (s0.lo + 20) 0 }) :
    Inv s [⟨4096, false⟩] [s0.lo + 16] ∧
      s.lo = s0.lo ∧ s.max = s0.max ∧ s.brk = s0.lo + 4112 ∧
      getWord s.mem s0.lo = 0 ∧ getWord s.mem (s0.lo + 4) = PACK 8 1 0 ∧
      (∀ x, s0.lo + 8 ≤ x → x < s0.lo + 12 → s.mem x = s0.mem x) := by
  subst hs
  refine ⟨⟨?_, ?_, ?_, ?_, ?_, ?_, ?_, ?_, ?_, ?_⟩, lo6, max6, brk6, ?_, ?_, ?_⟩
  · show s6.brk ≤ s6.max
    omega
  · show s6.max < M32
    rw [max6]; exact h32
  · show s6.heap_listp = s6.lo + 8
    rw [hl6, lo6]
  · show getWord (putWord (putWord s6.mem _ _) _ _) (s6.lo + 4) = _
    rw [lo6, m6]
    repeat rw [getWord_putWord_other _ _ _ _ (by omega)]
    rw [getWord_putWord_same]; rfl
  · show Seg (putWord (putWord s6.mem _ _) _ _) (s6.lo + 12) true _
    rw [lo6, m6]
    refine Seg_cons.2 ⟨?_, by decide, by decide, fun _ => ⟨rfl, ?_⟩, trivial⟩
    · repeat rw [getWord_putWord_other _ _ _ _ (by omega)]
      rw [getWord_putWord_same]; rfl
    · show getWord _ (s0.lo + 12 + 4096 - 4) = _
      rw [show s0.lo + 12 + 4096 - 4 = s0.lo + 4104 from by omega]
      repeat rw [getWord_putWord_other _ _ _ _ (by omega)]
      rw [getWord_putWord_same]; rfl
  · show s6.lo + 12 + (4096 + 0) + 4 = s6.brk
    omega
  · show getWord (putWord (putWord s6.mem _ _) _ _) (s6.lo + 12 + (4096 + 0)) = _
    rw [lo6, m6]
    repeat rw [getWord_putWord_other _ _ _ _ (by omega)]
    rw [getWord_putWord_same]; rfl
  · show FLseg (putWord (putWord s6.mem _ _) _ _) 0 (s0.lo + 16) [s0.lo + 16] 0
    refine FLseg_cons.2 ⟨rfl, by omega, ?_, ?_⟩
    · rw [getWord_putWord_other _ _ _ _ (by omega), getWord_putWord_same]
    · rw [getWord_putWord_same]; rfl
  · exact List.nodup_singleton _
  · intro x
    show x ∈ [s0.lo + 16] ↔ x ∈ freeAddrs (s6.lo + 12) [⟨4096, false⟩]
    rw [lo6]
    simp [freeAddrs]
  · show getWord (putWord (putWord s6.mem _ _) _ _) s0.lo = 0
    rw [m6]
    repeat rw [getWord_putWord_other _ _ _ _ (by omega)]
    rw [getWord_putWord_same]
  · show getWord (putWord (putWord s6.mem _ _) _ _) (s0.lo + 4) = _
    rw [m6]
    repeat rw [getWord_putWord_other _ _ _ _ (by omega)]
    rw [getWord_putWord_same]; rfl
  · intro x x1 x2
    show putWord (putWord s6.mem _ _) _ _ x = _
    rw [m6]
    repeat rw [putWord_other _ _ _ _ (by omega)]

theorem mm_init_ok {s0 : State} (h0 : s0.brk = s0.lo) (hmax : s0.lo + 4112 ≤ s0.max)
    (h32 : s0.max < 4294967296) :
    ∃ s, mm_init s0 = some (0, s) ∧ Inv s [⟨4096, false⟩] [s0.lo + 16] ∧
      s.lo = s0.lo ∧ s.max = s0.max ∧ s.brk = s0.lo + 4112 ∧
      getWord s.mem s0.lo = 0 ∧ getWord s.mem (s0.lo + 4) = PACK 8 1 0 ∧
      (∀ x, s0.lo + 8 ≤ x → x < s0.lo + 12 → s.mem x = s0.mem x) := by
  obtain ⟨s4, mem4, lo4, brk4, max4, hl4, fl4, e⟩ :=
    mm_init_head h0 (by clear * - hmax; omega) h32
  obtain ⟨s6, he, m6, lo6, brk6, max6, hl6⟩ := init_ext hmax h32 mem4 lo4 brk4 max4 hl4
  have e4 : CHUNKSIZE / WSIZE = 4096 / 4 := rfl
  have u6 : uadd s6.heap_listp (2 * WSIZE) = s0.lo + 16 := by
    rw [hl6]
    show uadd (s0.lo + 8) 8 = s0.lo + 16
    rw [uadd_eq (by clear * - hmax h32; omega)]
  have hs : SUCC (s0.lo + 16) = s0.lo + 20 := SUCC_eq (by clear * - hmax h32; omega)
  have b1 : s6.lo ≤ s0.lo + 16 ∧ s0.lo + 16 + 4 ≤ s6.brk := by clear * - lo6 brk6; omega
  have b2 : s6.lo ≤ s0.lo + 20 ∧ s0.lo + 20 + 4 ≤ s6.brk := by clear * - lo6 brk6; omega
  have r0 : ¬ s0.lo + 16 = 0 := by omega
  rw [e, e4, he]
  dsimp only
  rw [if_neg r0, u6]
  unfold PRED
  rw [PUT_WORD_eq (s := { s6 with free_list := s0.lo + 16 }) 0 b1.1 b1.2]
  dsimp only
  rw [hs, PUT_WORD_eq
    (s := { s6 with free_list := s0.lo + 16, mem := putWord s6.mem (s0.lo + 16) 0 })
    0 b2.1 b2.2]
  dsimp only
  exact ⟨_, rfl, init_inv hmax h32 m6 lo6 brk6 max6 hl6 rfl⟩

theorem LiveOK.block {s : State} {bs : List Blk} {live : List (Nat × Nat)} {p n : Nat}
    (h : LiveOK s bs live) (hm : (p, n) ∈ live) :
    4 ≤ p ∧ ∃ k, IsBlock (s.lo + 12) bs (p - 4) ⟨k, true⟩ ∧ n + 4 ≤ k := h (p, n) hm

theorem LiveOK.filter {s s1 : State} {bs bs1 : List Blk} {live : List (Nat × Nat)} {p : Nat}
    (h : LiveOK s bs live) (hp : 4 ≤ p) (hlo : s1.lo = s.lo)
    (hk : ∀ h b, b.alloc = true → IsBlock (s.lo + 12) bs h b → h ≠ p - 4 →
      IsBlock (s.lo + 12) bs1 h b) :
    LiveOK s1 bs1 (live.filter fun e => e.1 ≠ p) := by
  intro e he
  obtain ⟨he1, he2⟩ := List.mem_filter.1 he
  have hne : e.1 ≠ p := by simpa using he2
  obtain ⟨h4, k, hb, hk2⟩ := h e he1
  rw [hlo]
  exact ⟨h4, k, hk _ _ rfl hb (by omega), hk2⟩

theorem mm_init_zero {s0 s : State} (h0 : s0.brk = s0.lo) (h32 : s0.max < 4294967296)
    (h : mm_init s0 = some (0, s)) : s0.lo + 4112 ≤ s0.max := by
  by_contra hc
  by_cases h16 : s0.lo + 16 ≤ s0.max
  · obtain ⟨s1, e⟩ := mm_init_noext h0 h16 h32 (by omega)
    rw [e] at h
    have := congrArg Prod.fst (Option.some.inj h)
    simp at this
  · rw [mm_init_nomem (by omega)] at h
    have := congrArg Prod.fst (Option.some.inj h)
    simp at this

/-- The invariant holds in every reachable state. -/
theorem Reachable.inv {s : State} {live : List (Nat × Nat)} (hr : Reachable s live) :
    ∃ bs l, Inv s bs l ∧ LiveOK s bs live := by
  induction hr with
  | init h0 h32 h =>
    obtain ⟨s1, e, hI, _⟩ := mm_init_ok h0 (mm_init_zero h0 h32 h) h32
    rw [e] at h
    obtain rfl := congrArg Prod.snd (Option.some.inj h)
    exact ⟨_, _, hI, fun e he => by cases he⟩
  | @malloc s s1 live n p _ hn h ih =>
    obtain ⟨bs, l, hI, hL⟩ := ih
    by_cases hn0 : n = 0
    · subst hn0
      rw [mm_malloc_zero] at h
      obtain ⟨rfl, rfl⟩ := Prod.mk.inj (Option.some.inj h)
      exact ⟨bs, l, hI, by rw [if_pos rfl]; exact hL⟩
    · obtain ⟨p1, s2, bs1, l1, e, hI1, _, hkeep, lo1, _, _, hc⟩ :=
        mm_malloc_spec hI (by omega) hn
      rw [e] at h
      obtain ⟨rfl, rfl⟩ := Prod.mk.inj (Option.some.inj h)
      rcases hc with ⟨rfl, rfl, rfl⟩ | ⟨k, hp4, hb, hk, _⟩
      · exact ⟨_, l1, hI1, by rw [if_pos rfl]; exact hL⟩
      · refine ⟨bs1, l1, hI1, ?_⟩
        rw [if_neg (by omega)]
        intro e he
        rw [lo1]
        rcases List.mem_cons.1 he with rfl | he
        · exact ⟨hp4, k, hb, by omega⟩
        · obtain ⟨h4, k1, hb1, hk1⟩ := hL e he
          exact ⟨h4, k1, hkeep _ _ rfl hb1, hk1⟩
  | @free s s1 live p n _ hm h ih =>
    obtain ⟨bs, l, hI, hL⟩ := ih
    obtain ⟨hp4, k, hb, _⟩ := hL.block hm
    obtain ⟨pre, post, rfl, hpa⟩ := IsBlock_iff.1 hb
    obtain ⟨s2, r, bs1, l1, e, hI1, ho, _, hS⟩ := mm_free_spec hI
    rw [show s.lo + 12 + total pre + 4 = p from by omega, h] at e
    obtain rfl := Option.some.inj e
    exact ⟨bs1, _, hI1, hL.filter hp4 hS.lo fun h b hb hh hne =>
      ho.keep h b hb hh (by rw [← hpa]; exact hne)⟩
  | @realloc s s1 live p n m q _ hm hm32 h ih =>
    obtain ⟨bs, l, hI, hL⟩ := ih
    obtain ⟨hp4, k, hb, _⟩ := hL.block hm
    by_cases hm0 : m = 0
    · subst hm0
      rw [mm_realloc_null (mm_malloc_zero s)] at h
      obtain ⟨rfl, rfl⟩ := Prod.mk.inj (Option.some.inj h)
      exact ⟨bs, l, hI, by rw [if_pos rfl]; exact hL⟩
    · obtain ⟨q1, s2, bs1, l1, e, hI1, lo1, _, _, hc⟩ :=
        mm_realloc_spec hI hp4 hb (by omega) hm32
      rw [e] at h
      obtain ⟨rfl, rfl⟩ := Prod.mk.inj (Option.some.inj h)
      rcases hc with ⟨rfl, rfl, rfl⟩ | ⟨j, hq4, hqb, hj, _, hkeep, _⟩
      · exact ⟨_, l1, hI1, by rw [if_pos rfl]; exact hL⟩
      · refine ⟨bs1, l1, hI1, ?_⟩
        rw [if_neg (by omega)]
        intro e he
        rcases List.mem_cons.1 he with rfl | he
        · rw [lo1]; exact ⟨hq4, j, hqb, by omega⟩
        · exact hL.filter hp4 lo1 hkeep e he
  | @store s live p n x v _ hm hx1 hx2 ih =>
    obtain ⟨bs, l, hI, hL⟩ := ih
    obtain ⟨hp4, k, hb, hk⟩ := hL.block hm
    refine ⟨bs, l, hI.frame_alloc ⟨rfl, rfl, rfl, rfl⟩ rfl fun y hy => ?_, hL⟩
    show (if y = x then v % 256 else s.mem y) = s.mem y
    rw [if_neg]
    rintro rfl
    exact hy (InAlloc_of_block hb (by omega) (by omega))

theorem tag_lt32 {sz : Nat} (al pa : Bool) (h : sz + 4 ≤ 4294967296) :
    tag sz al pa < 4294967296 := by
  have := tag_le sz al pa; omega

theorem walk_seg {s : State} {e : Bool} (h32 : s.brk < 4294967296) :
    ∀ {bs : List Blk} {a : Nat} {pa : Bool} {fuel : Nat}, Seg s.mem a pa bs →
      getWord s.mem (a + total bs) = tag 0 true e → s.lo ≤ a → a + total bs + 4 ≤ s.brk →
      bs.length < fuel →
      walk s fuel a = some (hdrs a pa bs ++ [(a + total bs, tag 0 true e)]) := by
  intro bs
  induction bs with
  | nil =>
    intro a pa fuel _ he hlo hb hf
    obtain ⟨f, rfl⟩ : ∃ f, fuel = f + 1 := ⟨fuel - 1, by simp at hf; omega⟩
    simp only [total, Nat.add_zero] at he hb ⊢
    unfold walk
    rw [GET_WORD_eq hlo hb]
    simp only [he, mask_tag rfl (tag_lt32 true e (by omega)) (Nat.zero_mod 8), if_true]
    rfl
  | cons b bs ih =>
    intro a pa fuel hseg he hlo hb hf
    obtain ⟨f, rfl⟩ : ∃ f, fuel = f + 1 := ⟨fuel - 1, by simp at hf; omega⟩
    obtain ⟨h0, h1, h2, _, h4⟩ := Seg_cons.1 hseg
    simp only [total] at he hb
    have hm : getWord s.mem a &&& 0xFFFFFFF8 = b.size := mask_tag h0 (getWord_lt _ _) h2
    unfold walk
    rw [GET_WORD_eq hlo (by omega)]
    simp only [hm]
    rw [if_neg (by omega), uadd_eq (by omega),
      ih h4 (by rw [Nat.add_assoc]; exact he) (by omega) (by omega)
        (by simp only [List.length_cons] at hf; omega)]
    simp only [hdrs, total, h0, List.cons_append, Nat.add_assoc]

/-- The heap walk in a state satisfying the invariant. -/
theorem Inv.heapWalk_eq {s : State} {bs : List Blk} {l : List Nat} (hI : Inv s bs l) :
    heapWalk s = some ((s.lo + 4, tag 8 true false) :: (hdrs (s.lo + 12) true bs ++
      [(s.lo + 12 + total bs, tag 0 true (lastAlloc true bs))])) := by
  have h32 := hI.brk_lt
  have hsize := hI.size
  have hlen := total_ge_length hI.blocks_sized
  obtain ⟨f, hf⟩ : ∃ f, s.brk - s.lo = f + 1 := ⟨s.brk - s.lo - 1, by omega⟩
  have hm : getWord s.mem (s.lo + 4) &&& 0xFFFFFFF8 = 8 :=
    mask_tag hI.prologue (getWord_lt _ _) (by decide)
  unfold MallocLab.heapWalk
  rw [hI.hl, HDRP_eq (by omega) (by omega), hf,
    show s.lo + 8 - 4 = s.lo + 4 from by omega]
  unfold walk
  rw [GET_WORD_eq (by omega) (by omega)]
  simp only [hm]
  rw [if_neg (by omega), uadd_eq (by omega),
    show s.lo + 4 + 8 = s.lo + 12 from by omega,
    walk_seg h32 hI.seg hI.epi (by omega) (by omega) (by omega), hI.prologue]

theorem flWalk_seg {s : State} (h32 : s.brk < 4294967296) :
    ∀ {l : List Nat} {p h fuel : Nat}, FLseg s.mem p h l 0 →
      (∀ f ∈ l, s.lo ≤ f + 4 ∧ f + 8 ≤ s.brk) → l.length < fuel →
      flWalk s fuel h = some l := by
  intro l
  induction l with
  | nil =>
    intro p h fuel hfl _ hf
    obtain ⟨f, rfl⟩ : ∃ f, fuel = f + 1 := ⟨fuel - 1, by simp at hf; omega⟩
    rw [FLseg_nil.1 hfl]
    unfold flWalk
    rw [if_pos rfl]
  | cons b l ih =>
    intro p h fuel hfl hin hf
    obtain ⟨f, rfl⟩ : ∃ f, fuel = f + 1 := ⟨fuel - 1, by simp at hf; omega⟩
    obtain ⟨rfl, h2, _, h4⟩ := FLseg_cons.1 hfl
    obtain ⟨q1, q2⟩ := hin h (List.mem_cons_self _ _)
    unfold flWalk
    rw [if_neg h2, SUCC_eq (by omega), GET_WORD_eq q1 q2]
    simp only []
    rw [ih h4 (fun f hf => hin f (List.mem_cons_of_mem _ hf))
      (by simp only [List.length_cons] at hf; omega)]

theorem predWalk_seg {s : State} {h : Nat} {l1 : List Nat} :
    ∀ {l2 : List Nat} {fuel : Nat}, FLseg s.mem 0 h (l1 ++ l2) 0 →
      (∀ f ∈ l1, s.lo ≤ f ∧ f + 4 ≤ s.brk) → l1.length < fuel →
      predWalk s fuel (lastOr 0 l1) = some l1.reverse := by
  induction l1 using List.reverseRecOn with
  | nil =>
    intro l2 fuel _ _ hf
    obtain ⟨f, rfl⟩ : ∃ f, fuel = f + 1 := ⟨fuel - 1, by simp at hf; omega⟩
    unfold predWalk
    simp [lastOr]
  | append_singleton l1 b ih =>
    intro l2 fuel hfl hin hf
    obtain ⟨f, rfl⟩ : ∃ f, fuel = f + 1 := ⟨fuel - 1, by simp at hf; omega⟩
    have hfl2 : FLseg s.mem 0 h (l1 ++ b :: l2) 0 := by simpa using hfl
    obtain ⟨t1, _, hB⟩ := FLseg_append.1 hfl2
    obtain ⟨_, hb0, hpred, _⟩ := FLseg_cons.1 hB
    obtain ⟨q1, q2⟩ := hin b (by simp)
    rw [lastOr_append]
    simp only [lastOr, List.reverse_append, List.reverse_cons, List.reverse_nil,
      List.nil_append, List.singleton_append]
    unfold predWalk PRED
    rw [if_neg hb0, GET_WORD_eq q1 q2]
    simp only [hpred]
    rw [ih hfl2 (fun f hf => hin f (by simp [hf]))
      (by simp only [List.length_append, List.length_singleton] at hf; omega)]

/-- The free-list walks in a state satisfying the invariant. -/
theorem Inv.freeList_eq {s : State} {bs : List Blk} {l : List Nat} (hI : Inv s bs l) :
    freeList s = some l ∧ predWalk s (s.brk - s.lo) (lastOr 0 l) = some l.reverse := by
  have hg := hI.geom
  have hlen := hI.length_lt
  refine ⟨flWalk_seg hI.brk_lt hI.fl (fun f hf => ?_) hlen, ?_⟩
  · have := hg.inb f hf; omega
  · have h2 : FLseg s.mem 0 s.free_list (l ++ []) 0 := by simpa using hI.fl
    exact predWalk_seg h2 (fun f hf => by have := hg.inb f hf; omega) hlen

theorem hdrs_append (a : Nat) (pa : Bool) (xs ys : List Blk) :
    hdrs a pa (xs ++ ys) = hdrs a pa xs ++ hdrs (a + total xs) (lastAlloc pa xs) ys := by
  induction xs generalizing a pa with
  | nil => simp [hdrs, total, lastAlloc]
  | cons b xs ih => simp [hdrs, total, lastAlloc, ih, Nat.add_assoc]

theorem hdrs_sizes {a : Nat} {pa : Bool} {bs : List Blk} (hs : Sized bs) :
    (∀ x ∈ hdrs a pa bs, 16 ≤ x.2 &&& 0xFFFFFFF8 ∧ (x.2 &&& 0xFFFFFFF8) % 8 = 0) ∧
    ((hdrs a pa bs).map fun x => x.2 &&& 0xFFFFFFF8).sum = total bs ∨
      ¬ total bs + 4 < 4294967296 := by
  by_cases ht : total bs + 4 < 4294967296
  · left
    induction bs generalizing a pa with
    | nil => simp [hdrs, total]
    | cons b bs ih =>
      obtain ⟨⟨h1, h2⟩, h3⟩ := Sized_cons.1 hs
      simp only [total] at ht
      have hm : tag b.size b.alloc pa &&& 0xFFFFFFF8 = b.size :=
        mask_tag rfl (tag_lt32 _ _ (by omega)) h2
      obtain ⟨i1, i2⟩ := @ih (a + b.size) b.alloc h3 (by omega)
      constructor
      · intro x hx
        rcases List.mem_cons.1 hx with rfl | hx
        · simp only [hm]; omega
        · exact i1 x hx
      · simp only [hdrs, List.map_cons, List.sum_cons, hm, i2, total]
  · exact Or.inr ht

theorem hdrs_free {a : Nat} {pa : Bool} {bs : List Blk} (hs : Sized bs) :
    ((hdrs a pa bs).filter fun x => x.2 &&& 1 = 0).map (fun x => x.1 + 4) = freeAddrs a bs := by
  induction bs generalizing a pa with
  | nil => rfl
  | cons b bs ih =>
    obtain ⟨⟨h1, h2⟩, h3⟩ := Sized_cons.1 hs
    have hm : tag b.size b.alloc pa &&& 1 = b.alloc.toNat := alloc_tag rfl h2
    simp only [hdrs, freeAddrs, List.filter_cons, hm]
    cases hb : b.alloc
    · simp [-Nat.and_one_is_mod, ih h3]
    · simp [-Nat.and_one_is_mod, ih h3]

/-- Adjacent headers agree on the allocation status, and no two adjacent blocks are free. -/
theorem hdrs_chain {m : Mem} {e : Nat} :
    ∀ {bs : List Blk} {a : Nat} {pa : Bool} {x : Nat × Nat}, Seg m a pa bs →
      x.2 &&& 1 = pa.toNat →
      ∀ pr ∈ (x :: (hdrs a pa bs ++ [(e, tag 0 true (lastAlloc pa bs))])).zip
          (hdrs a pa bs ++ [(e, tag 0 true (lastAlloc pa bs))]),
        (pr.2.2 &&& 2) >>> 1 = pr.1.2 &&& 1 ∧ ¬ (pr.1.2 &&& 1 = 0 ∧ pr.2.2 &&& 1 = 0) := by
  intro bs
  induction bs with
  | nil =>
    intro a pa x _ hx pr hpr
    simp only [hdrs, List.nil_append, lastAlloc, List.zip_cons_cons, List.zip_nil_right,
      List.mem_singleton] at hpr
    subst hpr
    simp only []
    rw [prev_alloc_tag rfl (Nat.zero_mod 8), alloc_tag rfl (Nat.zero_mod 8), hx]
    exact ⟨rfl, fun h => by simp at h⟩
  | cons b bs ih =>
    intro a pa x hseg hx pr hpr
    obtain ⟨_, h1, h2, h3, h4⟩ := Seg_cons.1 hseg
    simp only [hdrs, List.cons_append, lastAlloc, List.zip_cons_cons, List.mem_cons] at hpr
    rcases hpr with rfl | hpr
    · simp only []
      rw [prev_alloc_tag rfl h2, alloc_tag rfl h2, hx]
      refine ⟨rfl, fun h => ?_⟩
      have hb : b.alloc = false := by
        cases hb : b.alloc
        · rfl
        · rw [hb] at h; simp at h
      rw [(h3 hb).1] at h
      simp at h
    · exact ih h4 (alloc_tag rfl h2) pr hpr

theorem bestFit_cons_eq (asize b : Nat) (rest : List (Nat × Nat)) (bf bd : Nat) :
    bestFit asize ((b, asize) :: rest) bf bd = b := by
  simp only [bestFit, if_true]

theorem bestFit_cons_lt {asize b size : Nat} (rest : List (Nat × Nat)) (bf bd : Nat)
    (h : size < asize) :
    bestFit asize ((b, size) :: rest) bf bd = bestFit asize rest bf bd := by
  simp only [bestFit]
  rw [if_neg (by omega), if_neg (by omega), if_neg (by omega)]

theorem bestFit_cons_worse {asize b size : Nat} (rest : List (Nat × Nat)) (bf bd : Nat)
    (h : asize < size) (h32 : size < 4294967296) (hd : bd < size - asize) :
    bestFit asize ((b, size) :: rest) bf bd = bestFit asize rest bf bd := by
  have hu : usub size asize = size - asize := by unfold usub M32; omega
  have hne : ¬ asize = size := by omega
  simp only [bestFit, hu]
  rw [if_neg hne]
  simp [h, hd]

theorem bestFit_cons_better {asize b size : Nat} (rest : List (Nat × Nat)) (bf bd : Nat)
    (h : asize < size) (h32 : size < 4294967296) (hd : size - asize ≤ bd) :
    bestFit asize ((b, size) :: rest) bf bd = bestFit asize rest b (size - asize) := by
  have hu : usub size asize = size - asize := by unfold usub M32; omega
  have hne : ¬ asize = size := by omega
  have hd2 : ¬ bd < size - asize := by omega
  simp only [bestFit, hu]
  rw [if_neg hne]
  simp [h, hd2]

/-- An exact fit is returned at its first occurrence. -/
theorem bestFit_exact {asize b : Nat} {L1 L2 : List (Nat × Nat)} (bf bd : Nat)
    (h32 : ∀ p ∈ L1, p.2 < 4294967296) (h : ∀ p ∈ L1, p.2 ≠ asize) :
    bestFit asize (L1 ++ (b, asize) :: L2) bf bd = b := by
  induction L1 generalizing bf bd with
  | nil => exact bestFit_cons_eq _ _ _ _ _
  | cons q L1 ih =>
    obtain ⟨c, size⟩ := q
    have hq : size ≠ asize := h (c, size) (List.mem_cons_self _ _)
    have hq32 : size < 4294967296 := h32 (c, size) (List.mem_cons_self _ _)
    have ih2 := fun bf bd => ih bf bd (fun p hp => h32 p (List.mem_cons_of_mem _ hp))
      (fun p hp => h p (List.mem_cons_of_mem _ hp))
    rw [List.cons_append]
    by_cases h1 : size < asize
    · rw [bestFit_cons_lt _ _ _ h1]; exact ih2 _ _
    · by_cases h2 : bd < size - asize
      · rw [bestFit_cons_worse _ _ _ (by omega) hq32 h2]; exact ih2 _ _
      · rw [bestFit_cons_better _ _ _ (by omega) hq32 (by omega)]; exact ih2 _ _

/-- Blocks that are too small or have more slack than the current best do not change it. -/
theorem bestFit_keep {asize : Nat} {L : List (Nat × Nat)} (bf bd : Nat)
    (h : ∀ p ∈ L, p.2 < 4294967296 ∧ (p.2 < asize ∨ asize + bd < p.2)) :
    bestFit asize L bf bd = bf := by
  induction L with
  | nil => rfl
  | cons q L ih =>
    obtain ⟨c, size⟩ := q
    obtain ⟨h32, hq⟩ := h (c, size) (List.mem_cons_self _ _)
    have ih2 := ih fun p hp => h p (List.mem_cons_of_mem _ hp)
    simp only [] at hq h32
    by_cases h1 : size < asize
    · rw [bestFit_cons_lt _ _ _ h1]; exact ih2
    · rw [bestFit_cons_worse _ _ _ (by omega) h32 (by omega)]; exact ih2

/-- Without an exact fit, the result is the last block of smallest sufficient size. -/
theorem bestFit_char {asize : Nat} {L : List (Nat × Nat)} (bf bd : Nat)
    (h32 : ∀ p ∈ L, p.2 < 4294967296) (hne : ∀ p ∈ L, p.2 ≠ asize) :
    (bestFit asize L bf bd = bf ∧ ∀ p ∈ L, p.2 < asize ∨ asize + bd < p.2) ∨
    (∃ L1 b sz L2, L = L1 ++ (b, sz) :: L2 ∧ bestFit asize L bf bd = b ∧ asize < sz ∧
      sz ≤ asize + bd ∧ (∀ p ∈ L1, p.2 < asize ∨ sz ≤ p.2) ∧
      (∀ p ∈ L2, p.2 < asize ∨ sz < p.2)) := by
  induction L generalizing bf bd with
  | nil => exact Or.inl ⟨rfl, fun p hp => by cases hp⟩
  | cons q L ih =>
    obtain ⟨c, size⟩ := q
    have hq : size ≠ asize := hne (c, size) (List.mem_cons_self _ _)
    have hq32 : size < 4294967296 := h32 (c, size) (List.mem_cons_self _ _)
    have ih2 := fun bf bd => ih bf bd (fun p hp => h32 p (List.mem_cons_of_mem _ hp))
      (fun p hp => hne p (List.mem_cons_of_mem _ hp))
    have keep : ∀ (hst : bestFit asize ((c, size) :: L) bf bd = bestFit asize L bf bd)
        (hc : size < asize ∨ asize + bd < size),
        (bestFit asize ((c, size) :: L) bf bd = bf ∧
          ∀ p ∈ (c, size) :: L, p.2 < asize ∨ asize + bd < p.2) ∨
        (∃ L1 b sz L2, (c, size) :: L = L1 ++ (b, sz) :: L2 ∧
          bestFit asize ((c, size) :: L) bf bd = b ∧ asize < sz ∧
          sz ≤ asize + bd ∧ (∀ p ∈ L1, p.2 < asize ∨ sz ≤ p.2) ∧
          (∀ p ∈ L2, p.2 < asize ∨ sz < p.2)) := by
      intro hst hc
      rw [hst]
      rcases ih2 bf bd with ⟨e, hall⟩ | ⟨L1, b, sz, L2, rfl, e, h1, h2, h3, h4⟩
      · refine Or.inl ⟨e, fun p hp => ?_⟩
        rcases List.mem_cons.1 hp with rfl | hp
        · exact hc
        · exact hall p hp
      · refine Or.inr ⟨(c, size) :: L1, b, sz, L2, rfl, e, h1, h2, fun p hp => ?_, h4⟩
        rcases List.mem_cons.1 hp with rfl | hp
        · simp only []; omega
        · exact h3 p hp
    by_cases h1 : size < asize
    · exact keep (bestFit_cons_lt _ _ _ h1) (Or.inl h1)
    · by_cases h2 : bd < size - asize
      · exact keep (bestFit_cons_worse _ _ _ (by omega) hq32 h2) (Or.inr (by omega))
      · rw [bestFit_cons_better _ _ _ (by omega) hq32 (by omega)]
        right
        rcases ih2 c (size - asize) with ⟨e, hall⟩ | ⟨L1, b, sz, L2, rfl, e, i1, i2, i3, i4⟩
        · refine ⟨[], c, size, L, rfl, e, by omega, by omega,
            fun p hp => absurd hp (List.not_mem_nil p), fun p hp => ?_⟩
          have := hall p hp; omega
        · refine ⟨(c, size) :: L1, b, sz, L2, rfl, e, i1, by omega, fun p hp => ?_, i4⟩
          rcases List.mem_cons.1 hp with rfl | hp
          · simp only []; omega
          · exact i3 p hp

theorem nodup_length_le {l : List Nat} {a b : Nat} (hn : l.Nodup)
    (h : ∀ f ∈ l, a ≤ f ∧ f < b) : l.length ≤ b - a := by
  have h1 : l.toFinset ⊆ Finset.Ico a b := fun f hf =>
    Finset.mem_Ico.2 (h f (List.mem_toFinset.1 hf))
  have h2 := Finset.card_le_card h1
  rw [List.toFinset_card_of_nodup hn, Nat.card_Ico] at h2
  exact h2

theorem WellFormed.find_fit_eq {s : State} {l : List Nat} (hw : WellFormed s l) (asize : Nat) :
    find_fit s asize = some (bestFit asize (l.map fun f => (f, sizeOf s.mem f)) 0 (M32 - 1)) := by
  have hlen := nodup_length_le hw.nodup fun f hf =>
    (show s.lo + 4 ≤ f ∧ f < s.brk from by have := hw.inb f hf; omega)
  have hheap := hw.heap
  have hl2 : l.length < s.brk - s.lo := by
    by_cases hl : l = []
    · subst hl; simp only [List.length_nil]; omega
    · obtain ⟨f, hf⟩ := List.exists_mem_of_ne_nil l hl
      have := hw.inb f hf
      omega
  exact find_fit_loop_eq hw.brk hw.fl hw.inb hl2

theorem Inv.wellFormed {s : State} {bs : List Blk} {l : List Nat} (hI : Inv s bs l) :
    WellFormed s l :=
  ⟨hI.fl, hI.nodup, fun f hf => by
    have := freeAddrs_range hI.blocks_sized ((hI.mem_iff f).1 hf)
    have := hI.size
    omega, by have := hI.size; omega, hI.brk_lt⟩

theorem sizeOf_lt (m : Mem) (f : Nat) : sizeOf m f < 4294967296 := by
  unfold sizeOf
  exact Nat.lt_of_le_of_lt Nat.and_le_left (getWord_lt _ _)

theorem lastOr_eq (p : Nat) (l : List Nat) : lastOr p l = l.getLastD p := by
  induction l generalizing p with
  | nil => rfl
  | cons b l ih => rw [List.getLastD_cons]; exact ih b

/-- The links of a list segment: the head's `PRED` word, and both links between neighbours. -/
theorem FLseg_links {m : Mem} {p h t : Nat} {l : List Nat} (hl : FLseg m p h l t) :
    (∀ b, l.head? = some b → getWord m b = p) ∧
    (∀ pr ∈ l.zip l.tail, getWord m pr.2 = pr.1 ∧ getWord m (pr.1 + 4) = pr.2) := by
  induction l generalizing p h with
  | nil => exact ⟨fun b hb => (by cases hb), fun pr hpr => (by cases hpr)⟩
  | cons c l ih =>
    obtain ⟨_, _, h3, h4⟩ := FLseg_cons.1 hl
    refine ⟨fun b hb => ?_, fun pr hpr => ?_⟩
    · obtain rfl : c = b := by simpa using hb
      exact h3
    · cases l with
      | nil => cases hpr
      | cons d l =>
        obtain ⟨i1, i2⟩ := ih h4
        obtain ⟨j1, _, _, _⟩ := FLseg_cons.1 h4
        simp only [List.tail_cons, List.zip_cons_cons, List.mem_cons] at hpr
        rcases hpr with rfl | hpr
        · exact ⟨i1 d rfl, j1⟩
        · exact i2 pr hpr

/-- The links of a block in the middle of a list segment. -/
theorem FLseg_mid {m : Mem} {p h t b : Nat} {l1 l2 : List Nat}
    (hl : FLseg m p h (l1 ++ b :: l2) t) :
    getWord m b = lastOr p l1 ∧ getWord m (b + 4) = l2.headD t := by
  obtain ⟨t1, _, hB⟩ := FLseg_append.1 hl
  obtain ⟨_, _, h3, h4⟩ := FLseg_cons.1 hB
  exact ⟨h3, FLseg_head h4⟩

theorem exists_first {α : Type} (P : α → Prop) (L : List α) (h : ∃ p ∈ L, P p) :
    ∃ L1 p L2, L = L1 ++ p :: L2 ∧ P p ∧ ∀ q ∈ L1, ¬ P q := by
  induction L with
  | nil => obtain ⟨p, hp, _⟩ := h; cases hp
  | cons c L ih =>
    by_cases hc : P c
    · exact ⟨[], c, L, rfl, hc, fun q hq => by cases hq⟩
    · obtain ⟨p, hp, hP⟩ := h
      rcases List.mem_cons.1 hp with rfl | hp
      · exact absurd hP hc
      · obtain ⟨L1, q, L2, rfl, hq, hall⟩ := ih ⟨p, hp, hP⟩
        refine ⟨c :: L1, q, L2, rfl, hq, fun r hr => ?_⟩
        rcases List.mem_cons.1 hr with rfl | hr
        · exact hc
        · exact hall r hr

/-- The result of the best-fit loop started with no candidate. -/
theorem bestFit_spec {asize : Nat} {L : List (Nat × Nat)} (bf : Nat)
    (h32 : ∀ p ∈ L, p.2 < 4294967296) :
    (bestFit asize L bf (M32 - 1) = bf ∧ ∀ p ∈ L, p.2 < asize) ∨
    (∃ L1 b sz L2, L = L1 ++ (b, sz) :: L2 ∧ bestFit asize L bf (M32 - 1) = b ∧ asize ≤ sz ∧
      (∀ p ∈ L, p.2 < asize ∨ sz ≤ p.2) ∧ (sz = asize → ∀ p ∈ L1, p.2 ≠ asize) ∧
      (asize < sz → ∀ p ∈ L2, p.2 < asize ∨ sz < p.2)) := by
  by_cases hex : ∃ p ∈ L, p.2 = asize
  · obtain ⟨L1, ⟨b, sz⟩, L2, rfl, hsz, hall⟩ := exists_first _ L hex
    simp only [] at hsz
    subst hsz
    right
    refine ⟨L1, b, sz, L2, rfl,
      bestFit_exact _ _ (fun p hp => h32 p (List.mem_append_left _ hp)) hall,
      Nat.le_refl _, fun p _ => by omega, fun _ => hall, fun h => absurd h (Nat.lt_irrefl _)⟩
  · have hne : ∀ p ∈ L, p.2 ≠ asize := fun p hp e => hex ⟨p, hp, e⟩
    rcases bestFit_char bf (M32 - 1) h32 hne with ⟨e, hall⟩ |
      ⟨L1, b, sz, L2, rfl, e, i1, i2, i3, i4⟩
    · refine Or.inl ⟨e, fun p hp => ?_⟩
      have := hall p hp
      have := h32 p hp
      unfold M32 at *
      omega
    · refine Or.inr ⟨L1, b, sz, L2, rfl, e, by omega, fun p hp => ?_, fun h => by omega,
        fun _ => i4⟩
      rcases List.mem_append.1 hp with hp | hp
      · exact i3 p hp
      · rcases List.mem_cons.1 hp with rfl | hp
        · right; exact Nat.le_refl _
        · have := i4 p hp; omega

/-- The decision of `find_fit` on a well-formed free list. -/
theorem WellFormed.fit_spec {s : State} {l : List Nat} (hw : WellFormed s l)
    (asize : Nat) :
    (find_fit s asize = some 0 ∧ ∀ f ∈ l, sizeOf s.mem f < asize) ∨
    (∃ l1 b l2, l = l1 ++ b :: l2 ∧ find_fit s asize = some b ∧ b ≠ 0 ∧
      asize ≤ sizeOf s.mem b ∧
      (∀ f ∈ l, sizeOf s.mem f < asize ∨ sizeOf s.mem b ≤ sizeOf s.mem f) ∧
      (sizeOf s.mem b = asize → ∀ f ∈ l1, sizeOf s.mem f ≠ asize) ∧
      (asize < sizeOf s.mem b → ∀ f ∈ l2, sizeOf s.mem f < asize ∨
        sizeOf s.mem b < sizeOf s.mem f)) := by
  rw [hw.find_fit_eq asize]
  have h32 : ∀ p ∈ l.map (fun f => (f, sizeOf s.mem f)), p.2 < 4294967296 := fun p hp => by
    obtain ⟨f, _, rfl⟩ := List.mem_map.1 hp
    exact sizeOf_lt _ _
  rcases @bestFit_spec asize _ 0 h32 with ⟨e, hall⟩ |
    ⟨L1, b, sz, L2, hL, e, i1, i2, i3, i4⟩
  · exact Or.inl ⟨by rw [e], fun f hf => hall _ (List.mem_map.2 ⟨f, hf, rfl⟩)⟩
  · obtain ⟨l1, r, rfl, hL1, hr⟩ := List.map_eq_append_iff.1 hL
    obtain ⟨c, l2, rfl, hc, hL2⟩ := List.map_eq_cons_iff.1 hr
    obtain ⟨rfl, rfl⟩ := Prod.mk.inj hc
    subst hL1 hL2
    refine Or.inr ⟨l1, c, l2, rfl, by rw [e],
      FLseg_ne_zero hw.fl c (by simp), i1,
      fun f hf => i2 _ (List.mem_map.2 ⟨f, hf, rfl⟩),
      fun h f hf => i3 h _ (List.mem_map.2 ⟨f, hf, rfl⟩),
      fun h f hf => i4 h _ (List.mem_map.2 ⟨f, hf, rfl⟩)⟩

theorem mm_malloc_fit_eq {s : State} {bs : List Blk} {l : List Nat} {n b : Nat}
    (hI : Inv s bs l) (hn : 0 < n) (hn32 : n + 11 < 4294967296)
    (hf : find_fit s (adjust n) = some b) (hb : b ≠ 0) :
    ∃ s1, mm_malloc s n = some (b, s1) := by
  obtain ⟨a16, a8, _, _⟩ := adjust_spec hn hn32
  obtain ⟨b1, hf1, hb1, _, _⟩ := find_fit_spec hI (adjust n)
  rw [hf] at hf1
  obtain rfl := Option.some.inj hf1
  rcases hb1 with hb1 | ⟨pre, sz, post, rfl, rfl, hsz⟩
  · exact absurd hb1 hb
  · obtain ⟨s1, _, _, _, hp, _⟩ := place_spec hI a16 a8 hsz
    exact ⟨s1, mm_malloc_fit (by omega) hf hb hp⟩

theorem place_full {s : State} {bs : List Blk} {l : List Nat} {bp asize : Nat}
    (hI : Inv s bs l) (hbp : bp ∈ l) (h16 : 16 ≤ asize) (h8 : asize % 8 = 0)
    (hle : asize ≤ sizeOf s.mem bp) :
    ∃ s1 l1 l2, place s bp asize = some s1 ∧ l = l1 ++ bp :: l2 ∧
      (16 ≤ sizeOf s.mem bp - asize →
        getWord s1.mem (bp - 4) = PACK asize 1 1 ∧
        getWord s1.mem (bp + asize - 4) = PACK (sizeOf s.mem bp - asize) 0 1 ∧
        getWord s1.mem (bp + sizeOf s.mem bp - 8) = PACK (sizeOf s.mem bp - asize) 0 1 ∧
        freeList s1 = some (l1 ++ (bp + asize) :: l2) ∧
        getWord s1.mem (bp + asize) = getWord s.mem bp ∧
        getWord s1.mem (bp + asize + 4) = getWord s.mem (bp + 4)) ∧
      (sizeOf s.mem bp - asize < 16 →
        getWord s1.mem (bp - 4) = PACK (sizeOf s.mem bp) 1 1 ∧
        (sizeOf s.mem bp = asize ∨ sizeOf s.mem bp = asize + 8) ∧
        freeList s1 = some (l1 ++ l2)) := by
  obtain ⟨pre, post, rfl, rfl⟩ := hI.sizeOf_free hbp
  generalize sizeOf s.mem (s.lo + 12 + total pre + 4) = sz at hI hle ⊢
  obtain ⟨_, _, _, hpa, _, _, _, hsz16, hsz8, _⟩ := hI.at_free
  by_cases hd : asize + 16 ≤ sz
  · obtain ⟨d, rfl⟩ : ∃ d, sz = asize + d := ⟨sz - asize, by clear * - hd; omega⟩
    obtain ⟨s1, l1, l2, e1, hl, hI1, _, lo1, _, _⟩ := place_split hI h16 h8 (by clear * - hd; omega)
    refine ⟨s1, l1, l2, e1, hl, fun _ => ?_, fun h => by clear * - h hd; omega⟩
    obtain ⟨_, hB⟩ := (Seg_append _ _ _ _ _).1 hI1.seg
    obtain ⟨k0, _, _, _, k4⟩ := Seg_cons.1 hB
    obtain ⟨j0, _, j2, j3, _⟩ := Seg_cons.1 k4
    rw [hpa] at k0
    simp only [] at k0 j0 j2 j3
    rw [lo1] at k0 j0 j3
    rw [hl] at hI
    have m0 := (FLseg_mid hI.fl).1
    have m1 := (FLseg_mid hI.fl).2
    have n0 := (FLseg_mid hI1.fl).1
    have n1 := (FLseg_mid hI1.fl).2
    rw [Nat.add_sub_cancel_left, PACK_11 h8, PACK_01 j2]
    refine ⟨?_, ?_, ?_, hI1.freeList_eq.1, by rw [n0, m0], by rw [n1, m1]⟩
    · rw [Nat.add_sub_cancel]
      exact k0
    · rw [show s.lo + 12 + total pre + 4 + asize - 4 = s.lo + 12 + total pre + asize
        from by clear * - h16; omega]
      exact j0
    · rw [show s.lo + 12 + total pre + 4 + (asize + d) - 8
        = s.lo + 12 + total pre + asize + d - 4 from by clear * - h16; omega]
      exact (j3 trivial).2
  · obtain ⟨s1, l1, l2, e1, hl, hI1, _, lo1, _, _⟩ := place_nosplit hI hle (by clear * - hd; omega)
    refine ⟨s1, l1, l2, e1, hl, fun h => by clear * - h hd; omega, fun _ => ?_⟩
    obtain ⟨_, hB⟩ := (Seg_append _ _ _ _ _).1 hI1.seg
    obtain ⟨k0, _, _, _, _⟩ := Seg_cons.1 hB
    rw [hpa] at k0
    simp only [] at k0
    rw [lo1] at k0
    rw [PACK_11 hsz8]
    refine ⟨?_, by clear * - hle hd hsz8 h8; omega, hI1.freeList_eq.1⟩
    rw [Nat.add_sub_cancel]
    exact k0

/-- The header and footer of a free block, as the macros read them. -/
theorem Inv.free_words {s : State} {P Q : List Blk} {S : Nat} {l : List Nat}
    (hI : Inv s (P ++ ⟨S, false⟩ :: Q) l) :
    GET_SIZE s (s.lo + 12 + total P) = some S ∧ GET_ALLOC s (s.lo + 12 + total P) = some 0 ∧
    GET_SIZE s (s.lo + 12 + total P + S - 4) = some S ∧
    GET_ALLOC s (s.lo + 12 + total P + S - 4) = some 0 := by
  obtain ⟨_, hhd, hft, _, _, hsize, _, hsz16, hsz8, _⟩ := hI.at_free
  exact ⟨GET_SIZE_tag (by omega) (by omega) hhd hsz8, GET_ALLOC_tag (by omega) (by omega) hhd hsz8,
    GET_SIZE_tag (by omega) (by omega) hft hsz8, GET_ALLOC_tag (by omega) (by omega) hft hsz8⟩

/-- What `mm_free` leaves: one free block at the head of the free list, starting at the free
lower neighbour if there is one, spanning the freed block and its free neighbours. -/
theorem free_full {s : State} {bs : List Blk} {l : List Nat} {p k : Nat}
    (hI : Inv s bs l) (hp4 : 4 ≤ p) (hb : IsBlock (s.lo + 12) bs (p - 4) ⟨k, true⟩) :
    ∃ s1 bs1 l1 P Q, mm_free s p = some s1 ∧ sizeOf s.mem p = k ∧
      Inv s1 bs1 ((p - prevFreeSize s p) :: l1) ∧ s1.lo = s.lo ∧
      bs1 = P ++ ⟨k + prevFreeSize s p + nextFreeSize s p, false⟩ :: Q ∧
      p - prevFreeSize s p = s.lo + 12 + total P + 4 := by
  obtain ⟨pre, post, rfl, hpa⟩ := IsBlock_iff.1 hb
  obtain rfl : p = s.lo + 12 + total pre + 4 := by omega
  obtain ⟨s1, r, bs1, l1, e, hI1, ho, _, hS⟩ := mm_free_spec hI
  obtain ⟨hpre, hmid⟩ := (Seg_append _ _ _ _ _).1 hI.seg
  obtain ⟨h0, hk16, hk8, _, hpost⟩ := Seg_cons.1 hmid
  simp only [] at h0 hk16 hk8 hpost
  have hepi := hI.epi
  have hsize := hI.size
  have h32 := hI.brk_lt
  simp only [total_append, total, lastAlloc_append, lastAlloc] at hepi hsize
  obtain ⟨hnx, hn8, hnle⟩ := tail_word hpost (by rw [← hepi]; congr 1; omega)
  have e4 : s.lo + 12 + total pre + 4 - 4 = s.lo + 12 + total pre := by omega
  have hsz : sizeOf s.mem (s.lo + 12 + total pre + 4) = k := by
    unfold sizeOf; rw [e4]; exact mask_tag h0 (getWord_lt _ _) hk8
  have hprevA : lastAlloc true pre = true → prevFreeSize s (s.lo + 12 + total pre + 4) = 0 := by
    intro ha
    unfold prevFreeSize
    rw [e4, prev_alloc_tag h0 hk8, ha, if_neg (by decide)]
  have hprevF : ∀ pre1 psz, pre = pre1 ++ [⟨psz, false⟩] →
      prevFreeSize s (s.lo + 12 + total pre + 4) = psz := by
    intro pre1 psz hp
    subst hp
    obtain ⟨_, hx⟩ := (Seg_append _ _ _ _ _).1 hpre
    obtain ⟨_, x16, x8, x3, _⟩ := Seg_cons.1 hx
    have hft := (x3 rfl).2
    simp only [] at hft x8 x16
    have hla : lastAlloc true (pre1 ++ [⟨psz, false⟩]) = false := by
      rw [lastAlloc_append]; rfl
    unfold prevFreeSize
    rw [e4, prev_alloc_tag h0 hk8, hla, if_pos (show false.toNat = 0 from rfl),
      show s.lo + 12 + total (pre1 ++ [⟨psz, false⟩]) + 4 - 8 = s.lo + 12 + total pre1 + psz - 4
        from by simp only [total_append, total]; omega]
    exact mask_tag hft (getWord_lt _ _) x8
  have hnextA : headAlloc post = true → nextFreeSize s (s.lo + 12 + total pre + 4) = 0 := by
    intro ha
    unfold nextFreeSize
    rw [hsz, e4, alloc_tag hnx hn8, ha, if_neg (by decide)]
  have hnextF : ∀ nsz post1, post = ⟨nsz, false⟩ :: post1 →
      nextFreeSize s (s.lo + 12 + total pre + 4) = nsz := by
    intro nsz post1 hp
    subst hp
    unfold nextFreeSize
    rw [hsz, e4, alloc_tag hnx hn8,
      if_pos (show (headAlloc (⟨nsz, false⟩ :: post1)).toNat = 0 from rfl)]
    exact mask_tag hnx (getWord_lt _ _) hn8
  rcases ho with ⟨a1, a2, rfl, rfl, _⟩ | ⟨a1, nsz, post1, rfl, rfl, rfl, _⟩ |
    ⟨a2, pre1, psz, rfl, rfl, rfl, _⟩ | ⟨pre1, psz, nsz, post1, rfl, rfl, rfl, rfl, _⟩
  · refine ⟨s1, pre ++ ⟨k, false⟩ :: post, l1, pre, post, e, hsz, ?_, hS.lo, ?_, ?_⟩
    · rw [hprevA a1]; exact hI1
    · simp only [hprevA a1, hnextA a2, Nat.add_zero]
    · rw [hprevA a1]; rfl
  · refine ⟨s1, pre ++ ⟨k + nsz, false⟩ :: post1, l1, pre, post1, e, hsz, ?_, hS.lo, ?_, ?_⟩
    · rw [hprevA a1]; exact hI1
    · simp only [hprevA a1, hnextF nsz post1 rfl, Nat.add_zero]
    · rw [hprevA a1]; rfl
  · have hx := hprevF pre1 psz rfl
    have ht : total (pre1 ++ [⟨psz, false⟩]) = total pre1 + psz := by
      simp only [total_append, total]; omega
    have hr : s.lo + 12 + total (pre1 ++ [⟨psz, false⟩]) + 4 - psz
        = s.lo + 12 + total pre1 + 4 := by rw [ht]; omega
    refine ⟨s1, pre1 ++ ⟨k + psz, false⟩ :: post, l1, pre1, post, e, hsz, ?_, hS.lo, ?_, ?_⟩
    · rw [hx, hr]; exact hI1
    · simp only [hx, hnextA a2, Nat.add_zero]
    · rw [hx, hr]
  · have hx := hprevF pre1 psz rfl
    have ht : total (pre1 ++ [⟨psz, false⟩]) = total pre1 + psz := by
      simp only [total_append, total]; omega
    have hr : s.lo + 12 + total (pre1 ++ [⟨psz, false⟩]) + 4 - psz
        = s.lo + 12 + total pre1 + 4 := by rw [ht]; omega
    refine ⟨s1, pre1 ++ ⟨k + (psz + nsz), false⟩ :: post1, l1, pre1, post1, e, hsz, ?_,
      hS.lo, ?_, ?_⟩
    · rw [hx, hr]; exact hI1
    · rw [hx, hnextF nsz post1 rfl, Nat.add_assoc]
    · rw [hx, hr]

/-- The header of a block of the sequence, as the macros read it. -/
theorem Inv.block_words {s : State} {bs : List Blk} {l : List Nat} {h k : Nat} {al : Bool}
    (hI : Inv s bs l) (hb : IsBlock (s.lo + 12) bs h ⟨k, al⟩) :
    GET_SIZE s h = some k ∧ GET_ALLOC s h = some al.toNat ∧
      getWord s.mem h &&& 0xFFFFFFF8 = k ∧ s.lo + 12 ≤ h ∧ h + k + 4 ≤ s.brk ∧
      16 ≤ k ∧ k % 8 = 0 := by
  obtain ⟨pa, hw⟩ := Seg_block hI.seg hb
  have hr := IsBlock_range hb
  have hm := (IsBlock_mod hI.blocks_sized hb).2
  have hsize := hI.size
  simp only [] at hw hr hm
  exact ⟨GET_SIZE_tag (by omega) (by omega) hw hm.2, GET_ALLOC_tag (by omega) (by omega) hw hm.2,
    mask_tag hw (getWord_lt _ _) hm.2, hr.1, by omega, hm.1, hm.2⟩

theorem Reachable.at_freeList {s : State} {live : List (Nat × Nat)} {l : List Nat}
    (hr : Reachable s live) (hl : freeList s = some l) : ∃ bs, Inv s bs l ∧ LiveOK s bs live := by
  obtain ⟨bs, l0, hI, hL⟩ := hr.inv
  rw [hI.freeList_eq.1] at hl
  obtain rfl := Option.some.inj hl
  exact ⟨bs, hI, hL⟩

theorem reach_sInit : Reachable sInit [] := @Reachable.init heap0 sInit rfl (by decide) rfl

theorem reach_sOne : Reachable sOne [(24, 1)] :=
  Reachable.malloc (n := 1) (p := 24) reach_sInit (by decide) rfl

theorem reach_sFour : Reachable sFour [(136, 8), (88, 40), (72, 8), (24, 40)] :=
  Reachable.malloc (n := 8) (p := 136) (Reachable.malloc (n := 40) (p := 88)
    (Reachable.malloc (n := 8) (p := 72) (Reachable.malloc (n := 40) (p := 24) reach_sInit
      (by decide) rfl) (by decide) rfl) (by decide) rfl) (by decide) rfl

theorem reach_sFive : Reachable sFive [(136, 8), (88, 40), (72, 8)] :=
  Reachable.free (p := 24) (n := 40) reach_sFour (by decide) rfl

theorem reach_sSix : Reachable sSix [(136, 8), (72, 8)] :=
  Reachable.free (p := 88) (n := 40) reach_sFive (by decide) rfl

theorem reach_small : Reachable (afterInit heapSmall) [] :=
  @Reachable.init heapSmall (afterInit heapSmall) rfl (by decide) rfl

/-- C1: in every state reached from a successful `mm_init` by valid calls, on a heap whose
base is 8-byte aligned, `mm_malloc` returns, and the address it returns is a multiple of 8. -/
theorem C1_malloc_aligned {s : State} {live : List (Nat × Nat)} {n : Nat}
    (hr : Reachable s live) (hb : s.lo % 8 = 0) (hn : n + 11 < M32) :
    ∃ p s1, mm_malloc s n = some (p, s1) ∧ p % 8 = 0 := by
  obtain ⟨bs, l, hI, _⟩ := hr.inv
  by_cases hn0 : n = 0
  · subst hn0
    exact ⟨0, s, mm_malloc_zero s, rfl⟩
  · obtain ⟨p, s1, bs1, l1, e, hI1, _, _, _, _, _, hc⟩ := mm_malloc_spec hI (by omega) hn
    refine ⟨p, s1, e, ?_⟩
    rcases hc with ⟨rfl, _⟩ | ⟨k, hp4, hblk, _⟩
    · rfl
    · have := (IsBlock_mod hI1.blocks_sized hblk).1
      omega

/-- C1 witness: the state with three live blocks and a free first block. -/
theorem C1_witness : sFive.lo % 8 = 0 ∧ ∃ p s1, mm_malloc sFive 100 = some (p, s1) ∧ p % 8 = 0 :=
  ⟨rfl, C1_malloc_aligned reach_sFive rfl (by decide)⟩

/-- C2: `mm_malloc(0)` returns `NULL` and the state (heap bytes, heap end, free list head) is
the one before the call, in every state. -/
theorem C2_malloc_zero (s : State) : mm_malloc s 0 = some (0, s) := mm_malloc_zero s

/-- C3: in a reachable state, when no block of the free list is large enough for `n` and the
`sbrk` request of `mm_malloc` is refused, `mm_malloc(n)` returns `NULL` and the state (heap
bytes, heap end, free list) is the one before the call; this holds for every `n`. -/
theorem C3_malloc_no_memory {s : State} {live : List (Nat × Nat)} {n : Nat} {l : List Nat}
    (hr : Reachable s live) (hl : freeList s = some l)
    (hfit : ∀ f ∈ l, sizeOf s.mem f < adjust n)
    (hsbrk : mem_sbrk s (extendsize n) = none) : mm_malloc s n = some (0, s) := by
  obtain ⟨bs, hI, _⟩ := hr.at_freeList hl
  obtain ⟨b, hf, _, hnone, _⟩ := find_fit_spec hI (adjust n)
  obtain rfl := hnone hfit
  have hmax : s.max < s.brk + extendsize n := by
    unfold mem_sbrk at hsbrk
    by_cases h : s.brk + extendsize n ≤ s.max
    · rw [if_pos h] at hsbrk; cases hsbrk
    · omega
  exact mm_malloc_null hf hmax

/-- C3 witness: a heap that cannot grow beyond its first chunk, and a request of 5000 bytes. -/
theorem C3_witness : mm_malloc (afterInit heapSmall) 5000 = some (0, afterInit heapSmall) :=
  C3_malloc_no_memory reach_small
    (rfl : freeList (afterInit heapSmall) = some [24]) (by decide) rfl

/-- C4: for a request `n > 0` with `n + 11` below `2^32`, the adjusted size of `mm_malloc` is
`max(16, round_up_to_8(n + 4))`: a multiple of 8, at least 16 and at least `n + 4`. -/
theorem C4_adjust_eq {n : Nat} (h0 : 0 < n) (h32 : n + 11 < M32) :
    adjust n = asize_spec n ∧ adjust n % 8 = 0 ∧ 16 ≤ adjust n ∧ n + 4 ≤ adjust n := by
  unfold M32 at h32
  unfold adjust asize_spec round_up_to_8 DSIZE WSIZE M32
  simp only [Nat.max_def]
  by_cases h : n ≤ 8
  · rw [if_pos h]
    by_cases h2 : 16 ≤ (n + 4 + 7) / 8 * 8
    · rw [if_pos h2]; omega
    · rw [if_neg h2]; omega
  · rw [if_neg h]
    by_cases h2 : 16 ≤ (n + 4 + 7) / 8 * 8
    · rw [if_pos h2]; omega
    · rw [if_neg h2]; omega

/-- C4 witness: a request of 13 bytes. -/
theorem C4_witness :
    adjust 13 = asize_spec 13 ∧ adjust 13 % 8 = 0 ∧ 16 ≤ adjust 13 ∧ 13 + 4 ≤ adjust 13 :=
  C4_adjust_eq (by decide) (by decide)

/-- C6: `mm_realloc(NULL, n)` does not behave like `mm_malloc(n)`: whenever `mm_malloc(n)`
succeeds, `mm_realloc(NULL, n)` goes on to read the header word in front of address 0, which
lies outside the heap. -/
theorem C6_realloc_null_faults {s s1 : State} {live : List (Nat × Nat)} {n p : Nat}
    (hr : Reachable s live) (hn : n + 11 < M32) (hm : mm_malloc s n = some (p, s1))
    (hp : p ≠ 0) : mm_realloc s 0 n = none := by
  obtain ⟨bs, l, hI, _⟩ := (Reachable.malloc hr hn hm).inv
  have h32 := hI.brk_lt
  have hH : HDRP 0 = 4294967292 := by decide
  unfold mm_realloc
  simp only [hm, if_neg hp]
  unfold GET_SIZE GET_WORD
  rw [hH, if_neg (by omega)]
  rfl

/-- C6 witness: one byte requested right after initialisation. -/
theorem C6_witness :
    mm_malloc sInit 1 = some (24, sOne) ∧ mm_realloc sInit 0 1 = none :=
  ⟨rfl, C6_realloc_null_faults reach_sInit (by decide) (rfl : mm_malloc sInit 1 = some (24, sOne))
    (by decide)⟩

/-- C7: `mm_realloc(p, 0)` of a live block returns `NULL` and changes nothing: it does not
free the block, whose header still says allocated. -/
theorem C7_realloc_zero_keeps {s : State} {live : List (Nat × Nat)} {p n : Nat}
    (hr : Reachable s live) (hp : (p, n) ∈ live) :
    mm_realloc s p 0 = some (0, s) ∧ GET_ALLOC s (HDRP p) = some 1 := by
  obtain ⟨bs, l, hI, hL⟩ := hr.inv
  obtain ⟨hp4, k, hblk, _⟩ := hL.block hp
  obtain ⟨_, w2, _, _, w5, _, _⟩ := hI.block_words hblk
  have h32 := hI.brk_lt
  refine ⟨mm_realloc_null (mm_malloc_zero s), ?_⟩
  rw [HDRP_eq hp4 (by omega)]
  exact w2

/-- C7 witness: the block at 24 of the state with one allocation. -/
theorem C7_witness :
    mm_realloc sOne 24 0 = some (0, sOne) ∧ GET_ALLOC sOne (HDRP 24) = some 1 :=
  C7_realloc_zero_keeps (n := 1) reach_sOne (by decide)

/-- C8 counterexample: on a heap whose bytes all hold 255, `mm_init` succeeds and the word at
`base + 8` still holds `0xFFFFFFFF`, not `PACK(8, 1, 0)`. -/
theorem C8_counterexample :
    mm_init heapFF = some (0, afterInit heapFF) ∧
      getWord (afterInit heapFF).mem (heapFF.lo + 8) ≠ PACK 8 1 0 :=
  ⟨rfl, by decide⟩

/-- C8 amended: after a successful `mm_init` on a fresh heap, the word at `base` is 0, the
word at `base + 4` is `PACK(8, 1, 0)`, and the bytes of the word at `base + 8` are the ones
that were there before: no prologue footer is written. -/
theorem C8_init_words {s0 s : State} (h0 : s0.brk = s0.lo) (h32 : s0.max < M32)
    (h : mm_init s0 = some (0, s)) :
    getWord s.mem s0.lo = 0 ∧ getWord s.mem (s0.lo + 4) = PACK 8 1 0 ∧
      ∀ x, s0.lo + 8 ≤ x → x < s0.lo + 12 → s.mem x = s0.mem x := by
  obtain ⟨s1, e, _, _, _, _, w0, w1, w2⟩ := mm_init_ok h0 (mm_init_zero h0 h32 h) h32
  rw [e] at h
  obtain rfl := congrArg Prod.snd (Option.some.inj h)
  exact ⟨w0, w1, w2⟩

/-- C8 witness: the heap whose bytes all hold 255. -/
theorem C8_witness :
    getWord (afterInit heapFF).mem heapFF.lo = 0 ∧
      getWord (afterInit heapFF).mem (heapFF.lo + 4) = PACK 8 1 0 ∧
      ∀ x, heapFF.lo + 8 ≤ x → x < heapFF.lo + 12 → (afterInit heapFF).mem x = heapFF.mem x :=
  C8_init_words (rfl : heapFF.brk = heapFF.lo) (by decide) rfl

/-- C9: in a reachable state the heap walk from the prologue header reaches the epilogue, and
for every two adjacent headers (sentinels included) the `prev_alloc` bit of the upper one is
the `alloc` bit of the lower one. -/
theorem C9_prev_alloc_bit {s : State} {live : List (Nat × Nat)} (hr : Reachable s live) :
    ∃ ws, heapWalk s = some ws ∧
      ∀ pr ∈ ws.zip ws.tail, (pr.2.2 &&& 2) >>> 1 = pr.1.2 &&& 1 := by
  obtain ⟨bs, l, hI, _⟩ := hr.inv
  refine ⟨_, hI.heapWalk_eq, fun pr hpr => ?_⟩
  exact (hdrs_chain hI.seg (alloc_tag rfl (by decide)) pr hpr).1

/-- C9 witness: the state with free blocks at 24, 88 and 152. -/
theorem C9_witness :
    ∃ ws, heapWalk sSix = some ws ∧
      ∀ pr ∈ ws.zip ws.tail, (pr.2.2 &&& 2) >>> 1 = pr.1.2 &&& 1 :=
  C9_prev_alloc_bit reach_sSix

/-- C10: in a reachable state no two adjacent blocks of the heap walk are both free. -/
theorem C10_no_adjacent_free {s : State} {live : List (Nat × Nat)} (hr : Reachable s live) :
    ∃ ws, heapWalk s = some ws ∧
      ∀ pr ∈ ws.zip ws.tail, ¬ (pr.1.2 &&& 1 = 0 ∧ pr.2.2 &&& 1 = 0) := by
  obtain ⟨bs, l, hI, _⟩ := hr.inv
  refine ⟨_, hI.heapWalk_eq, fun pr hpr => ?_⟩
  exact (hdrs_chain hI.seg (alloc_tag rfl (by decide)) pr hpr).2

/-- C10 witness: the state with free blocks at 24, 88 and 152. -/
theorem C10_witness :
    ∃ ws, heapWalk sSix = some ws ∧
      ∀ pr ∈ ws.zip ws.tail, ¬ (pr.1.2 &&& 1 = 0 ∧ pr.2.2 &&& 1 = 0) :=
  C10_no_adjacent_free reach_sSix

theorem Reachable.wf {s : State} {live : List (Nat × Nat)} {l : List Nat}
    (hr : Reachable s live) (hl : freeList s = some l) : WellFormed s l := by
  obtain ⟨bs, hI, _⟩ := hr.at_freeList hl
  exact hI.wellFormed

/-- The free headers of the heap walk are the free blocks of the block sequence. -/
theorem walk_free {a e : Nat} {x : Bool} {bs : List Blk} (hs : Sized bs) :
    ((((a, tag 8 true false) :: (hdrs (a + 8) true bs ++ [(e, tag 0 true x)])).filter
      fun y => y.2 &&& 1 = 0).map fun y => y.1 + 4) = freeAddrs (a + 8) bs := by
  have hp : tag 8 true false &&& 1 = 1 := by decide
  have he : tag 0 true x &&& 1 = 1 := by cases x <;> decide
  rw [List.filter_cons, List.filter_append, List.filter_cons]
  simp only [hp, he, List.filter_nil]
  simp only [Nat.one_ne_zero, decide_False, Bool.false_eq_true, if_false, List.append_nil]
  exact hdrs_free hs

/-- C11: in a reachable state the `SUCC` links from `free_list` end at `NULL` and visit,
each once, exactly the blocks whose header is free in the heap walk; the `PRED` word of the
head is `NULL`, the `PRED` word of every successor is its predecessor, and the `PRED` walk
from the last block is the reverse of the `SUCC` walk. -/
theorem C11_free_list {s : State} {live : List (Nat × Nat)} (hr : Reachable s live) :
    ∃ ws l, heapWalk s = some ws ∧ freeList s = some l ∧ l.Nodup ∧
      l.Perm ((ws.filter fun x => x.2 &&& 1 = 0).map fun x => x.1 + 4) ∧
      (∀ b, l.head? = some b → GET_WORD s (PRED b) = some 0) ∧
      (∀ pr ∈ l.zip l.tail, GET_WORD s (PRED pr.2) = some pr.1) ∧
      predWalk s (s.brk - s.lo) (l.getLastD 0) = some l.reverse := by
  obtain ⟨bs, l, hI, _⟩ := hr.inv
  have hg := hI.geom
  obtain ⟨k1, k2⟩ := FLseg_links hI.fl
  refine ⟨_, l, hI.heapWalk_eq, hI.freeList_eq.1, hI.nodup, ?_, fun b hb => ?_,
    fun pr hpr => ?_, ?_⟩
  · rw [show s.lo + 12 = s.lo + 4 + 8 from rfl, walk_free hI.blocks_sized]
    exact (List.perm_ext_iff_of_nodup hI.nodup (freeAddrs_nodup hI.blocks_sized _)).2 hI.mem_iff
  · have hm : b ∈ l := List.mem_of_mem_head? hb
    obtain ⟨q1, q2⟩ := hg.inb b hm
    unfold PRED
    rw [GET_WORD_eq q1 (by omega), k1 b hb]
  · have hm : pr.2 ∈ l := List.mem_of_mem_tail (List.of_mem_zip hpr).2
    obtain ⟨q1, q2⟩ := hg.inb _ hm
    unfold PRED
    rw [GET_WORD_eq q1 (by omega), (k2 pr hpr).1]
  · rw [← lastOr_eq]; exact hI.freeList_eq.2

/-- C11 witness: the state whose free list is 88, 24, 152. -/
theorem C11_witness :
    ∃ ws l, heapWalk sSix = some ws ∧ freeList sSix = some l ∧ l.Nodup ∧
      l.Perm ((ws.filter fun x => x.2 &&& 1 = 0).map fun x => x.1 + 4) ∧
      (∀ b, l.head? = some b → GET_WORD sSix (PRED b) = some 0) ∧
      (∀ pr ∈ l.zip l.tail, GET_WORD sSix (PRED pr.2) = some pr.1) ∧
      predWalk sSix (sSix.brk - sSix.lo) (l.getLastD 0) = some l.reverse :=
  C11_free_list reach_sSix

/-- C12: in a reachable state every header of the heap walk strictly between the prologue
and the epilogue has a size that is a multiple of 8 and at least 16. -/
theorem C12_block_sizes {s : State} {live : List (Nat × Nat)} (hr : Reachable s live) :
    ∃ ws, heapWalk s = some ws ∧
      ∀ x ∈ ws.tail.dropLast, (x.2 &&& 0xFFFFFFF8) % 8 = 0 ∧ 16 ≤ x.2 &&& 0xFFFFFFF8 := by
  obtain ⟨bs, l, hI, _⟩ := hr.inv
  have hsize := hI.size
  have h32 := hI.brk_lt
  refine ⟨_, hI.heapWalk_eq, fun x hx => ?_⟩
  rw [List.tail_cons, List.dropLast_concat] at hx
  rcases @hdrs_sizes (s.lo + 12) true _ hI.blocks_sized with ⟨h1, _⟩ | h
  · exact ⟨(h1 x hx).2, (h1 x hx).1⟩
  · omega

/-- C12 witness: the state with free blocks at 24, 88 and 152. -/
theorem C12_witness :
    ∃ ws, heapWalk sSix = some ws ∧
      ∀ x ∈ ws.tail.dropLast, (x.2 &&& 0xFFFFFFF8) % 8 = 0 ∧ 16 ≤ x.2 &&& 0xFFFFFFF8 :=
  C12_block_sizes reach_sSix

/-- C13: in a reachable state the bytes obtained from `sbrk` are 4 of padding, 8 of prologue,
the header sizes of the blocks of the heap walk, and 4 of epilogue; the walk ends on a header
of size 0 in the last 4 bytes of the heap. -/
theorem C13_heap_size {s : State} {live : List (Nat × Nat)} (hr : Reachable s live) :
    ∃ ws e, heapWalk s = some ws ∧
      s.brk - s.lo = 4 + 8 + (ws.tail.dropLast.map fun x => x.2 &&& 0xFFFFFFF8).sum + 4 ∧
      ws.getLast? = some (s.brk - 4, e) ∧ e &&& 0xFFFFFFF8 = 0 := by
  obtain ⟨bs, l, hI, _⟩ := hr.inv
  have hsize := hI.size
  have h32 := hI.brk_lt
  refine ⟨_, tag 0 true (lastAlloc true bs), hI.heapWalk_eq, ?_, ?_, ?_⟩
  · rw [List.tail_cons, List.dropLast_concat]
    rcases @hdrs_sizes (s.lo + 12) true _ hI.blocks_sized with ⟨_, h2⟩ | h
    · rw [h2]; omega
    · omega
  · rw [← List.cons_append, List.getLast?_concat]
    rw [show s.brk - 4 = s.lo + 12 + total bs from by omega]
  · exact mask_tag rfl (by cases lastAlloc true bs <;> decide) (by decide)

/-- C13 witness: the state with free blocks at 24, 88 and 152. -/
theorem C13_witness :
    ∃ ws e, heapWalk sSix = some ws ∧
      sSix.brk - sSix.lo
        = 4 + 8 + (ws.tail.dropLast.map fun x => x.2 &&& 0xFFFFFFF8).sum + 4 ∧
      ws.getLast? = some (sSix.brk - 4, e) ∧ e &&& 0xFFFFFFF8 = 0 :=
  C13_heap_size reach_sSix

/-- C14 counterexample: right after `mm_init` the epilogue word is `PACK(0, 1, 0)`; the valid
call `mm_malloc(4088)` takes the whole free block and leaves the epilogue word
`PACK(0, 1, 1)`. -/
theorem C14_counterexample :
    Reachable sInit [] ∧ 4088 + 11 < M32 ∧
      getWord sInit.mem (sInit.brk - 4) = PACK 0 1 0 ∧
      mm_malloc sInit 4088 = some (24, afterMalloc sInit 4088) ∧
      getWord (afterMalloc sInit 4088).mem ((afterMalloc sInit 4088).brk - 4) = PACK 0 1 1 ∧
      PACK 0 1 1 ≠ PACK 0 1 0 :=
  ⟨reach_sInit, by decide, by decide, rfl, by decide, by decide⟩

/-- C14 amended: in a reachable state the prologue header is `PACK(8, 1, 0)`, and the last
word of the heap is an epilogue header of size 0 and `alloc` 1 whose `prev_alloc` bit may be
either: the word is `PACK(0, 1, 0)` or `PACK(0, 1, 1)`. -/
theorem C14_sentinels {s : State} {live : List (Nat × Nat)} (hr : Reachable s live) :
    getWord s.mem (s.lo + 4) = PACK 8 1 0 ∧ s.lo + 16 ≤ s.brk ∧
      (getWord s.mem (s.brk - 4) = PACK 0 1 0 ∨ getWord s.mem (s.brk - 4) = PACK 0 1 1) := by
  obtain ⟨bs, l, hI, _⟩ := hr.inv
  have hsize := hI.size
  have hepi := hI.epi
  rw [show s.lo + 12 + total bs = s.brk - 4 from by omega] at hepi
  refine ⟨hI.prologue, by omega, ?_⟩
  rw [hepi]
  cases lastAlloc true bs
  · exact Or.inl rfl
  · exact Or.inr rfl

/-- C14 witness: the state with free blocks at 24, 88 and 152. -/
theorem C14_witness :
    getWord sSix.mem (sSix.lo + 4) = PACK 8 1 0 ∧ sSix.lo + 16 ≤ sSix.brk ∧
      (getWord sSix.mem (sSix.brk - 4) = PACK 0 1 0 ∨
        getWord sSix.mem (sSix.brk - 4) = PACK 0 1 1) :=
  C14_sentinels reach_sSix

/-- C15 counterexample: with live blocks at 72, 88, 136 and a free block of size 48 at 24,
`mm_free(88)` leaves a free block of size 48 at 88 at the head of the free list; the
adjusted size of a request of 24 bytes is 32, yet `mm_malloc(24)` returns 24, outside the
block just freed. -/
theorem C15_counterexample :
    Reachable sFive [(136, 8), (88, 40), (72, 8)] ∧
      mm_free sFive 88 = some sSix ∧ freeList sSix = some [88, 24, 152] ∧
      sizeOf sSix.mem 88 = 48 ∧ adjust 24 = 32 ∧
      mm_malloc sSix 24 = some (24, afterMalloc sSix 24) ∧ ¬ (88 ≤ 24 ∧ 24 < 88 + 48) :=
  ⟨reach_sFive, rfl, rfl, by decide, by decide, rfl, by decide⟩

/-- C15 amended: `mm_free(p)` of a live block leaves the merged free block at the head of the
free list; a following `mm_malloc(n)` whose adjusted size fits that block returns its payload
address provided every other block of the free list is too small or strictly larger than
it. -/
theorem C15_free_then_malloc {s : State} {live : List (Nat × Nat)} {p k n : Nat}
    (hr : Reachable s live) (hp : (p, k) ∈ live) (hn : 0 < n) (hn32 : n + 11 < M32) :
    ∃ s1 r rest, mm_free s p = some s1 ∧ freeList s1 = some (r :: rest) ∧ r ≤ p ∧
      p + sizeOf s.mem p ≤ r + sizeOf s1.mem r ∧
      (adjust n ≤ sizeOf s1.mem r →
        (∀ f ∈ rest, sizeOf s1.mem f < adjust n ∨ sizeOf s1.mem r < sizeOf s1.mem f) →
        ∃ s2, mm_malloc s1 n = some (r, s2)) := by
  obtain ⟨bs, l, hI, hL⟩ := hr.inv
  obtain ⟨hp4, j, hblk, _⟩ := hL.block hp
  obtain ⟨s1, bs1, l1, P, Q, e, hsz, hI1, lo1, rfl, hr1⟩ := free_full hI hp4 hblk
  obtain ⟨_, hhd, _, _, _, _, _, _, hS8, _⟩ := hI1.at_free
  have hszr : sizeOf s1.mem (p - prevFreeSize s p) = j + prevFreeSize s p + nextFreeSize s p := by
    unfold sizeOf
    rw [hr1, ← lo1, show s1.lo + 12 + total P + 4 - 4 = s1.lo + 12 + total P from by omega]
    exact mask_tag hhd (getWord_lt _ _) hS8
  have hw := hI1.wellFormed
  refine ⟨s1, _, l1, e, hI1.freeList_eq.1, Nat.sub_le _ _, by rw [hszr, hsz]; omega,
    fun hfit hrest => ?_⟩
  have hr0 : p - prevFreeSize s p ≠ 0 := by omega
  have h32 := sizeOf_lt s1.mem (p - prevFreeSize s p)
  have hkeep : bestFit (adjust n) (l1.map fun f => (f, sizeOf s1.mem f))
      (p - prevFreeSize s p) (sizeOf s1.mem (p - prevFreeSize s p) - adjust n)
      = p - prevFreeSize s p := by
    apply bestFit_keep
    intro q hq
    obtain ⟨f, hf, rfl⟩ := List.mem_map.1 hq
    have := hrest f hf
    have := sizeOf_lt s1.mem f
    simp only []
    omega
  have hf : find_fit s1 (adjust n) = some (p - prevFreeSize s p) := by
    rw [hw.find_fit_eq, List.map_cons]
    by_cases heq : adjust n = sizeOf s1.mem (p - prevFreeSize s p)
    · rw [← heq, bestFit_cons_eq]
    · rw [bestFit_cons_better _ _ _ (by omega) h32 (by unfold M32; omega), hkeep]
  exact mm_malloc_fit_eq hI1 hn hn32 hf hr0

/-- C15 witness: the block at 136 freed in the state with free blocks at 24, 88 and 152; it
merges with both neighbours into a block of size 4032 at 88, which a request of 1000 bytes
then receives. -/
theorem C15_witness :
    ∃ s1 r rest, mm_free sSix 136 = some s1 ∧ freeList s1 = some (r :: rest) ∧ r ≤ 136 ∧
      136 + sizeOf sSix.mem 136 ≤ r + sizeOf s1.mem r ∧ adjust 1000 ≤ sizeOf s1.mem r ∧
      ∃ s2, mm_malloc s1 1000 = some (r, s2) := by
  obtain ⟨s1, r, rest, e, hl, h1, h2, h3⟩ :=
    C15_free_then_malloc (p := 136) (k := 8) (n := 1000) reach_sSix (by decide) (by decide) (by decide)
  have e2 : mm_free sSix 136 = some (afterFree sSix 136) := rfl
  rw [e2] at e
  obtain rfl := Option.some.inj e
  have hl2 : freeList (afterFree sSix 136) = some [88, 24] := rfl
  rw [hl2] at hl
  obtain ⟨rfl, rfl⟩ := List.cons.inj (Option.some.inj hl)
  exact ⟨afterFree sSix 136, 88, [24], e2, hl2, h1, h2, by decide,
    h3 (by decide) (by decide)⟩

/-- C16: on a well-formed free list `find_fit` returns; it returns `NULL` exactly when no
listed block has a size of at least `asize`, and otherwise a listed block whose size is at
least `asize` and smallest among the listed blocks of size at least `asize`. -/
theorem C16_best_fit {s : State} {l : List Nat} (hw : WellFormed s l) (asize : Nat) :
    ∃ b, find_fit s asize = some b ∧ (b = 0 ↔ ∀ f ∈ l, sizeOf s.mem f < asize) ∧
      (b ≠ 0 → b ∈ l ∧ asize ≤ sizeOf s.mem b ∧
        ∀ f ∈ l, asize ≤ sizeOf s.mem f → sizeOf s.mem b ≤ sizeOf s.mem f) := by
  rcases hw.fit_spec asize with ⟨e, hall⟩ | ⟨l1, b, l2, rfl, e, hb, h1, h2, _, _⟩
  · exact ⟨0, e, ⟨fun _ => hall, fun _ => rfl⟩, fun h => absurd rfl h⟩
  · have hm : b ∈ l1 ++ b :: l2 := by simp
    refine ⟨b, e, ⟨fun h => absurd h hb, fun h => ?_⟩, fun _ => ⟨hm, h1, fun f hf hfa => ?_⟩⟩
    · have := h b hm; omega
    · have := h2 f hf; omega

/-- C16 witness: the free list 88, 24, 152 with sizes 48, 48, 3968 and `asize` 56. -/
theorem C16_witness :
    ∃ b, find_fit sSix 56 = some b ∧ (b = 0 ↔ ∀ f ∈ [88, 24, 152], sizeOf sSix.mem f < 56) ∧
      (b ≠ 0 → b ∈ [88, 24, 152] ∧ 56 ≤ sizeOf sSix.mem b ∧
        ∀ f ∈ [88, 24, 152], 56 ≤ sizeOf sSix.mem f → sizeOf sSix.mem b ≤ sizeOf sSix.mem f) :=
  C16_best_fit (reach_sSix.wf (rfl : freeList sSix = some [88, 24, 152])) 56

/-- C17 counterexample: the free list is 88, 24, 152 with sizes 48, 48, 3968; for `asize` 32
the smallest sufficient size is 48, first met at 88, and `find_fit` returns 24. -/
theorem C17_counterexample :
    WellFormed sSix [88, 24, 152] ∧ freeList sSix = some [88, 24, 152] ∧
      sizeOf sSix.mem 88 = 48 ∧ sizeOf sSix.mem 24 = 48 ∧ sizeOf sSix.mem 152 = 3968 ∧
      find_fit sSix 32 = some 24 :=
  ⟨reach_sSix.wf rfl, rfl, by decide, by decide, by decide, rfl⟩

/-- C17 amended: on a well-formed free list the block returned by `find_fit` has the smallest
size that is at least `asize`; among the blocks of that size it is the first in `SUCC` order
when the size equals `asize`, and the last one when the size is larger than `asize`. -/
theorem C17_tie_break {s : State} {l : List Nat} {asize b : Nat} (hw : WellFormed s l)
    (hf : find_fit s asize = some b) (hb : b ≠ 0) :
    ∃ l1 l2, l = l1 ++ b :: l2 ∧ asize ≤ sizeOf s.mem b ∧
      (∀ f ∈ l, asize ≤ sizeOf s.mem f → sizeOf s.mem b ≤ sizeOf s.mem f) ∧
      (sizeOf s.mem b = asize → ∀ f ∈ l1, sizeOf s.mem f ≠ sizeOf s.mem b) ∧
      (asize < sizeOf s.mem b → ∀ f ∈ l2, sizeOf s.mem f ≠ sizeOf s.mem b) := by
  rcases hw.fit_spec asize with ⟨e, _⟩ | ⟨l1, c, l2, rfl, e, _, h1, h2, h3, h4⟩
  · rw [hf] at e
    exact absurd (Option.some.inj e) hb
  · rw [hf] at e
    obtain rfl := Option.some.inj e
    refine ⟨l1, l2, rfl, h1, fun f hf hfa => ?_, fun h f hf => ?_, fun h f hf => ?_⟩
    · have := h2 f hf; omega
    · rw [h]; exact h3 h f hf
    · have := h4 h f hf; omega

/-- C17 witness: the free list 88, 24, 152 and `asize` 32, where the second block of size 48
is returned. -/
theorem C17_witness :
    ∃ l1 l2, [88, 24, 152] = l1 ++ 24 :: l2 ∧ 32 ≤ sizeOf sSix.mem 24 ∧
      (∀ f ∈ [88, 24, 152], 32 ≤ sizeOf sSix.mem f → sizeOf sSix.mem 24 ≤ sizeOf sSix.mem f) ∧
      (sizeOf sSix.mem 24 = 32 → ∀ f ∈ l1, sizeOf sSix.mem f ≠ sizeOf sSix.mem 24) ∧
      (32 < sizeOf sSix.mem 24 → ∀ f ∈ l2, sizeOf sSix.mem f ≠ sizeOf sSix.mem 24) :=
  C17_tie_break (reach_sSix.wf (rfl : freeList sSix = some [88, 24, 152]))
    (rfl : find_fit sSix 32 = some 24) (by decide)

/-- C18: in a reachable state, `place(bp, asize)` on a block of the free list of size
`sz >= asize` (`asize` a multiple of 8, at least 16) returns; when `sz - asize >= 16` it
leaves the header `PACK(asize, 1, 1)` at `bp` and a free block at `bp + asize` whose header
and footer are `PACK(sz - asize, 0, 1)`; otherwise `sz - asize` is 0 or 8 and it leaves the
header `PACK(sz, 1, 1)`. -/
theorem C18_place_split {s : State} {live : List (Nat × Nat)} {l : List Nat} {bp asize : Nat}
    (hr : Reachable s live) (hl : freeList s = some l) (hbp : bp ∈ l)
    (h16 : 16 ≤ asize) (h8 : asize % 8 = 0) (hle : asize ≤ sizeOf s.mem bp) :
    ∃ s1, place s bp asize = some s1 ∧
      (16 ≤ sizeOf s.mem bp - asize →
        getWord s1.mem (bp - 4) = PACK asize 1 1 ∧
        getWord s1.mem (bp + asize - 4) = PACK (sizeOf s.mem bp - asize) 0 1 ∧
        getWord s1.mem (bp + sizeOf s.mem bp - 8) = PACK (sizeOf s.mem bp - asize) 0 1) ∧
      (sizeOf s.mem bp - asize < 16 →
        getWord s1.mem (bp - 4) = PACK (sizeOf s.mem bp) 1 1 ∧
        (sizeOf s.mem bp - asize = 0 ∨ sizeOf s.mem bp - asize = 8)) := by
  obtain ⟨bs, hI, _⟩ := hr.at_freeList hl
  obtain ⟨s1, l1, l2, e, _, hA, hB⟩ := place_full hI hbp h16 h8 hle
  refine ⟨s1, e, fun h => ?_, fun h => ?_⟩
  · obtain ⟨a1, a2, a3, _⟩ := hA h
    exact ⟨a1, a2, a3⟩
  · obtain ⟨b1, b2, _⟩ := hB h
    exact ⟨b1, by omega⟩

/-- C18 witness: the free block of size 48 at 24 and `asize` 32: a slack of exactly 16. -/
theorem C18_witness :
    sizeOf sSix.mem 24 - 32 = 16 ∧
    ∃ s1, place sSix 24 32 = some s1 ∧
      (16 ≤ sizeOf sSix.mem 24 - 32 →
        getWord s1.mem (24 - 4) = PACK 32 1 1 ∧
        getWord s1.mem (24 + 32 - 4) = PACK (sizeOf sSix.mem 24 - 32) 0 1 ∧
        getWord s1.mem (24 + sizeOf sSix.mem 24 - 8) = PACK (sizeOf sSix.mem 24 - 32) 0 1) ∧
      (sizeOf sSix.mem 24 - 32 < 16 →
        getWord s1.mem (24 - 4) = PACK (sizeOf sSix.mem 24) 1 1 ∧
        (sizeOf sSix.mem 24 - 32 = 0 ∨ sizeOf sSix.mem 24 - 32 = 8)) :=
  ⟨by decide, C18_place_split reach_sSix (rfl : freeList sSix = some [88, 24, 152])
    (by decide) (by decide) (by decide) (by decide)⟩

/-- C19: in a reachable state, `place(bp, asize)` on a block of the free list: with a split,
the free list afterwards is the one before with `bp` replaced at its position by the
remainder `bp + asize`, whose `PRED` and `SUCC` words are those `bp` had; without a split it
is the one before with `bp` removed. -/
theorem C19_place_list {s : State} {live : List (Nat × Nat)} {l : List Nat} {bp asize : Nat}
    (hr : Reachable s live) (hl : freeList s = some l) (hbp : bp ∈ l)
    (h16 : 16 ≤ asize) (h8 : asize % 8 = 0) (hle : asize ≤ sizeOf s.mem bp) :
    ∃ s1 l1 l2, place s bp asize = some s1 ∧ l = l1 ++ bp :: l2 ∧
      (16 ≤ sizeOf s.mem bp - asize →
        freeList s1 = some (l1 ++ (bp + asize) :: l2) ∧
        getWord s1.mem (PRED (bp + asize)) = getWord s.mem (PRED bp) ∧
        getWord s1.mem (bp + asize + 4) = getWord s.mem (bp + 4)) ∧
      (sizeOf s.mem bp - asize < 16 → freeList s1 = some (l1 ++ l2)) := by
  obtain ⟨bs, hI, _⟩ := hr.at_freeList hl
  obtain ⟨s1, l1, l2, e, hl1, hA, hB⟩ := place_full hI hbp h16 h8 hle
  refine ⟨s1, l1, l2, e, hl1, fun h => ?_, fun h => (hB h).2.2⟩
  obtain ⟨_, _, _, a4, a5, a6⟩ := hA h
  exact ⟨a4, a5, a6⟩

/-- C19 witness: the block at 24, in the middle of the free list 88, 24, 152, split by a
request of 32 bytes. -/
theorem C19_witness :
    ∃ s1 l1 l2, place sSix 24 32 = some s1 ∧ [88, 24, 152] = l1 ++ 24 :: l2 ∧
      (16 ≤ sizeOf sSix.mem 24 - 32 →
        freeList s1 = some (l1 ++ (24 + 32) :: l2) ∧
        getWord s1.mem (PRED (24 + 32)) = getWord sSix.mem (PRED 24) ∧
        getWord s1.mem (24 + 32 + 4) = getWord sSix.mem (24 + 4)) ∧
      (sizeOf sSix.mem 24 - 32 < 16 → freeList s1 = some (l1 ++ l2)) :=
  C19_place_list reach_sSix (rfl : freeList sSix = some [88, 24, 152])
    (by decide) (by decide) (by decide) (by decide)

/-- C20: in a reachable state, `mm_free(p)` of a live block of size `sz` returns and leaves,
at the head of the free list, one free block that starts at the free lower neighbour of `p`
if there is one and at `p` otherwise, whose size is `sz` plus the sizes of the free
neighbours, and whose header and footer both hold that size with `alloc` 0. -/
theorem C20_free_coalesces {s : State} {live : List (Nat × Nat)} {p n : Nat}
    (hr : Reachable s live) (hp : (p, n) ∈ live) :
    ∃ s1 r S rest, mm_free s p = some s1 ∧ r = p - prevFreeSize s p ∧
      S = sizeOf s.mem p + prevFreeSize s p + nextFreeSize s p ∧
      freeList s1 = some (r :: rest) ∧
      GET_SIZE s1 (HDRP r) = some S ∧ GET_ALLOC s1 (HDRP r) = some 0 ∧
      GET_SIZE s1 (r + S - 8) = some S ∧ GET_ALLOC s1 (r + S - 8) = some 0 := by
  obtain ⟨bs, l, hI, hL⟩ := hr.inv
  obtain ⟨hp4, k, hblk, _⟩ := hL.block hp
  obtain ⟨s1, bs1, l1, P, Q, e, hsz, hI1, lo1, rfl, hr1⟩ := free_full hI hp4 hblk
  obtain ⟨w1, w2, w3, w4⟩ := hI1.free_words
  have hsize := hI1.size
  have h32 := hI1.brk_lt
  simp only [total_append, total] at hsize
  have hH : HDRP (p - prevFreeSize s p) = s1.lo + 12 + total P := by
    rw [hr1, lo1]; exact HDRP_eq (by omega) (by omega)
  have hF : p - prevFreeSize s p + (k + prevFreeSize s p + nextFreeSize s p) - 8
      = s1.lo + 12 + total P + (k + prevFreeSize s p + nextFreeSize s p) - 4 := by
    rw [hr1, lo1]; omega
  refine ⟨s1, _, _, l1, e, rfl, rfl, hI1.freeList_eq.1, ?_, ?_, ?_, ?_⟩
  · rw [hH, hsz]; exact w1
  · rw [hH]; exact w2
  · rw [hsz, hF]; exact w3
  · rw [hsz, hF]; exact w4

/-- C20 witness: the block at 136, between the free blocks at 88 and 152. -/
theorem C20_witness :
    prevFreeSize sSix 136 = 48 ∧ nextFreeSize sSix 136 = 3968 ∧
    ∃ s1 r S rest, mm_free sSix 136 = some s1 ∧ r = 136 - prevFreeSize sSix 136 ∧
      S = sizeOf sSix.mem 136 + prevFreeSize sSix 136 + nextFreeSize sSix 136 ∧
      freeList s1 = some (r :: rest) ∧
      GET_SIZE s1 (HDRP r) = some S ∧ GET_ALLOC s1 (HDRP r) = some 0 ∧
      GET_SIZE s1 (r + S - 8) = some S ∧ GET_ALLOC s1 (r + S - 8) = some 0 :=
  ⟨by decide, by decide, C20_free_coalesces (n := 8) reach_sSix (by decide)⟩

/-- Two memories holding the same block sequence hold the same header words. -/
theorem Seg_word_same {m m1 : Mem} {a h : Nat} {pa : Bool} {bs : List Blk} {b : Blk}
    (h1 : Seg m a pa bs) (h2 : Seg m1 a pa bs) (hb : IsBlock a bs h b) :
    getWord m1 h = getWord m h := by
  induction bs generalizing a pa with
  | nil => exact hb.elim
  | cons c bs ih =>
    obtain ⟨k0, _, _, _, k4⟩ := Seg_cons.1 h1
    obtain ⟨j0, _, _, _, j4⟩ := Seg_cons.1 h2
    rcases IsBlock_cons.1 hb with ⟨rfl, _⟩ | hb
    · rw [k0, j0]
    · exact ih k4 j4 hb

/-- When the middle of a block sequence is replaced by blocks of the same total size, the
header words before it are kept, and so are those after it, except that the first header after
it follows the status of the last block of the middle. -/
theorem Seg_word_frame {m m1 : Mem} {a h : Nat} {bs bs1 pre mid mid1 post : List Blk} {b : Blk}
    (e1 : bs = pre ++ (mid ++ post)) (e2 : bs1 = pre ++ (mid1 ++ post))
    (h1 : Seg m a true bs) (h2 : Seg m1 a true bs1) (ht : total mid1 = total mid)
    (hb : IsBlock a pre h b ∨ (IsBlock (a + total pre + total mid) post h b ∧
      (h = a + total pre + total mid →
        lastAlloc (lastAlloc true pre) mid1 = lastAlloc (lastAlloc true pre) mid))) :
    getWord m1 h = getWord m h := by
  subst e1 e2
  obtain ⟨p1, q1⟩ := (Seg_append _ _ _ _ _).1 h1
  obtain ⟨p2, q2⟩ := (Seg_append _ _ _ _ _).1 h2
  obtain ⟨_, r1⟩ := (Seg_append _ _ _ _ _).1 q1
  obtain ⟨_, r2⟩ := (Seg_append _ _ _ _ _).1 q2
  rw [ht] at r2
  rcases hb with hb | ⟨hb, hla⟩
  · exact Seg_word_same p1 p2 hb
  · cases post with
    | nil => exact hb.elim
    | cons c post =>
      obtain ⟨k0, _, _, _, k4⟩ := Seg_cons.1 r1
      obtain ⟨j0, _, _, _, j4⟩ := Seg_cons.1 r2
      rcases IsBlock_cons.1 hb with ⟨rfl, _⟩ | hb
      · rw [k0, j0, hla rfl]
      · exact Seg_word_same k4 j4 hb

/-- The entries of the header sequence are the blocks, with the words found in memory. -/
theorem hdrs_mem {m : Mem} {a : Nat} {pa : Bool} {bs : List Blk} {x : Nat × Nat}
    (hs : Seg m a pa bs) (hx : x ∈ hdrs a pa bs) :
    ∃ b q, IsBlock a bs x.1 b ∧ x.2 = getWord m x.1 ∧ x.2 = tag b.size b.alloc q := by
  induction bs generalizing a pa with
  | nil => cases hx
  | cons c bs ih =>
    obtain ⟨k0, _, _, _, k4⟩ := Seg_cons.1 hs
    rcases List.mem_cons.1 hx with rfl | hx
    · exact ⟨c, pa, Or.inl ⟨rfl, rfl⟩, k0.symm, rfl⟩
    · obtain ⟨b, q, i1, i2, i3⟩ := ih k4 hx
      exact ⟨b, q, Or.inr i1, i2, i3⟩

/-- An allocated entry of the header sequence is an allocated block of that size. -/
theorem hdrs_alloc {m : Mem} {a : Nat} {pa : Bool} {bs : List Blk} {x : Nat × Nat}
    (hs : Seg m a pa bs) (ht : a + total bs + 4 ≤ 4294967296) (hx : x ∈ hdrs a pa bs)
    (hal : x.2 &&& 1 = 1) :
    IsBlock a bs x.1 ⟨x.2 &&& 0xFFFFFFF8, true⟩ ∧ x.2 = getWord m x.1 := by
  obtain ⟨b, q, i1, i2, i3⟩ := hdrs_mem hs hx
  obtain ⟨_, b16, b8⟩ := IsBlock_mod hs.sized i1
  have hr := IsBlock_range i1
  have hsz : x.2 &&& 0xFFFFFFF8 = b.size := mask_tag i3 (by rw [i3]; exact tag_lt32 _ _ (by omega)) b8
  have hb : b.alloc = true := by
    have := alloc_tag i3 b8
    rw [hal] at this
    cases hc : b.alloc
    · rw [hc] at this; cases this
    · rfl
  refine ⟨?_, i2⟩
  rw [hsz]
  obtain ⟨bsz, bal⟩ := b
  simp only [] at hb
  subst hb
  exact i1

/-- The list left by `coalesce`: the old list without the merged neighbours. -/
theorem CoalOut.list {a0 sz r : Nat} {pre post bs1 : List Blk} {l l1 : List Nat}
    (hS : Sized (pre ++ ⟨sz, true⟩ :: post)) (hnd : l.Nodup)
    (hmem : ∀ x, x ∈ l ↔ x ∈ freeAddrs a0 (pre ++ ⟨sz, true⟩ :: post))
    (ho : CoalOut a0 pre sz post l r bs1 l1) :
    l1 = l.filter fun f => f ≠ r ∧ f ≠ a0 + total pre + 4 + sz := by
  obtain ⟨hSpre, hSmid⟩ := Sized_append.1 hS
  obtain ⟨⟨hsz16, _⟩, hSpost⟩ := Sized_cons.1 hSmid
  simp only [] at hsz16
  have hfa : ∀ f, f ∈ l → f ∈ freeAddrs a0 pre ∨ f ∈ freeAddrs (a0 + total pre + sz) post := by
    intro f hf
    have := (hmem f).1 hf
    rw [freeAddrs_append] at this
    simpa [freeAddrs] using this
  have hA : ∀ f, f ∈ l → f ≠ a0 + total pre + 4 := by
    intro f hf
    rcases hfa f hf with h | h
    · have := freeAddrs_range hSpre h; omega
    · have := freeAddrs_range hSpost h; omega
  have hB : headAlloc post = true → ∀ f, f ∈ l → f ≠ a0 + total pre + 4 + sz := by
    intro hal f hf
    rcases hfa f hf with h | h
    · have := freeAddrs_range hSpre h; omega
    · cases post with
      | nil => cases h
      | cons c post =>
        have hc : c.alloc = true := hal
        obtain ⟨⟨c16, _⟩, hSp⟩ := Sized_cons.1 hSpost
        simp only [freeAddrs, hc, if_true] at h
        have := freeAddrs_range hSp h; omega
  rcases ho with ⟨_, a2, rfl, _, rfl⟩ | ⟨_, nsz, post1, _, rfl, _, rfl⟩ |
    ⟨a2, pre1, psz, _, rfl, _, rfl⟩ | ⟨pre1, psz, nsz, post1, _, _, rfl, _, rfl⟩
  · symm
    rw [List.filter_eq_self]
    intro f hf
    simpa using ⟨hA f hf, hB a2 f hf⟩
  · rw [hnd.erase_eq_filter]
    apply List.filter_congr
    intro f hf
    have h1 := hA f hf
    rw [show a0 + total pre + sz + 4 = a0 + total pre + 4 + sz from by omega]
    by_cases h2 : f = a0 + total pre + 4 + sz <;> simp [h1, h2]
  · rw [hnd.erase_eq_filter]
    apply List.filter_congr
    intro f hf
    have h1 := hB a2 f hf
    by_cases h2 : f = a0 + total pre1 + 4 <;> simp [h1, h2]
  · rw [(hnd.erase _).erase_eq_filter, hnd.erase_eq_filter, List.filter_filter]
    apply List.filter_congr
    intro f hf
    rw [show a0 + total pre + sz + 4 = a0 + total pre + 4 + sz from by omega]
    by_cases h1 : f = a0 + total pre1 + 4 <;>
      by_cases h2 : f = a0 + total pre + 4 + sz <;> simp [h1, h2]

/-- The heap after `extend_heap`, relative to the heap before. -/
theorem extend_shape2 {a0 n r : Nat} {bs bs1 : List Blk} {l l1 : List Nat}
    (ho : CoalOut a0 bs n [] l r bs1 l1) :
    ∃ pre S, bs1 = pre ++ [⟨S, false⟩] ∧ r = a0 + total pre + 4 ∧ n ≤ S ∧
      (bs = pre ∨ ∃ psz, bs = pre ++ [⟨psz, false⟩]) := by
  rcases ho with ⟨_, _, rfl, rfl, _⟩ | ⟨_, nsz, post1, a, _⟩ |
    ⟨_, pre1, psz, rfl, rfl, rfl, _⟩ | ⟨pre1, psz, nsz, post1, _, a, _⟩
  · exact ⟨bs, n, rfl, rfl, Nat.le_refl _, Or.inl rfl⟩
  · cases a
  · exact ⟨pre1, n + psz, rfl, rfl, Nat.le_add_right _ _, Or.inr ⟨psz, rfl⟩⟩
  · cases a

theorem place_hdr_frame {s : State} {pre post : List Blk} {l : List Nat} {sz asize : Nat}
    (hI : Inv s (pre ++ ⟨sz, false⟩ :: post) l)
    (h16 : 16 ≤ asize) (h8 : asize % 8 = 0) (hle : asize ≤ sz) :
    ∃ s1, place s (s.lo + 12 + total pre + 4) asize = some s1 ∧
      ∀ h b, b.alloc = true → IsBlock (s.lo + 12) (pre ++ ⟨sz, false⟩ :: post) h b →
        h ≠ s.lo + 12 + total pre + sizeOf s1.mem (s.lo + 12 + total pre + 4) →
        getWord s1.mem h = getWord s.mem h := by
  have split : ∀ h b, b.alloc = true → IsBlock (s.lo + 12) (pre ++ ⟨sz, false⟩ :: post) h b →
      IsBlock (s.lo + 12) pre h b ∨ IsBlock (s.lo + 12 + total pre + sz) post h b := by
    intro h b hb hh
    rcases (IsBlock_append _ _ _ _ _).1 hh with hh | hh
    · exact Or.inl hh
    · rcases IsBlock_cons.1 hh with ⟨_, e⟩ | hh
      · rw [e] at hb; cases hb
      · exact Or.inr hh
  by_cases hd : asize + 16 ≤ sz
  · obtain ⟨d, rfl⟩ : ∃ d, sz = asize + d := ⟨sz - asize, by clear * - hd; omega⟩
    obtain ⟨s1, l1, l2, e1, _, hI1, _, lo1, _, _⟩ :=
      place_split hI h16 h8 (by clear * - hd; omega)
    refine ⟨s1, e1, fun h b hb hh _ => ?_⟩
    have hseg1 := hI1.seg
    rw [lo1] at hseg1
    refine @Seg_word_frame _ _ _ _ _ _ pre [⟨asize + d, false⟩]
      [⟨asize, true⟩, ⟨d, false⟩] post b rfl rfl hI.seg hseg1
      (by simp only [total]; clear * -; omega) ?_
    rcases split h b hb hh with hh | hh
    · exact Or.inl hh
    · exact Or.inr ⟨IsBlock_addr (by simp only [total]; clear * -; omega) hh, fun _ => rfl⟩
  · obtain ⟨s1, l1, l2, e1, _, hI1, _, lo1, _, _⟩ :=
      place_nosplit hI hle (by clear * - hd; omega)
    have hblk : IsBlock (s1.lo + 12) (pre ++ ⟨sz, true⟩ :: post) (s1.lo + 12 + total pre)
        ⟨sz, true⟩ := by
      rw [IsBlock_append]; right; left; exact ⟨rfl, rfl⟩
    have hsz : sizeOf s1.mem (s.lo + 12 + total pre + 4) = sz := by
      have := (hI1.block_words hblk).2.2.1
      rw [lo1] at this
      unfold sizeOf
      rw [Nat.add_sub_cancel]
      exact this
    refine ⟨s1, e1, fun h b hb hh hne => ?_⟩
    rw [hsz] at hne
    have hseg1 := hI1.seg
    rw [lo1] at hseg1
    refine @Seg_word_frame _ _ _ _ _ _ pre [⟨sz, false⟩] [⟨sz, true⟩] post b rfl rfl
      hI.seg hseg1 rfl ?_
    rcases split h b hb hh with hh | hh
    · exact Or.inl hh
    · refine Or.inr ⟨IsBlock_addr (by simp only [total]; clear * -; omega) hh, fun e => ?_⟩
      exfalso
      simp only [total] at e
      exact hne (by clear * - e; omega)

theorem malloc_hdr_frame {s : State} {bs : List Blk} {l : List Nat} {n : Nat}
    (hI : Inv s bs l) (hn : 0 < n) (hn32 : n + 11 < 4294967296) :
    ∃ p s1, mm_malloc s n = some (p, s1) ∧ (p = 0 → s1 = s) ∧
      ∀ h b, b.alloc = true → IsBlock (s.lo + 12) bs h b →
        h ≠ p - 4 + sizeOf s1.mem p → getWord s1.mem h = getWord s.mem h := by
  obtain ⟨a16, a8, an, _⟩ := adjust_spec hn hn32
  obtain ⟨b, hf, hb, _, _⟩ := find_fit_spec hI (adjust n)
  have hn0 : n ≠ 0 := by omega
  by_cases hb0 : b = 0
  · subst hb0
    obtain ⟨e1, e2, e8, e32⟩ := extendsize_spec n
    by_cases hmax : s.brk + extendsize n ≤ s.max
    · obtain ⟨r, s1, bs1, l1, he, hX, ho, _, lo1, _, _⟩ :=
        extend_heap_spec hI (by omega) e8 hmax
      obtain ⟨s2, hi, hI2, _, hS⟩ := insert_free hX
      obtain ⟨pre, S, rfl, rfl, hS1, hbs⟩ := extend_shape2 ho
      have lo2 : s2.lo = s.lo := by rw [hS.lo, lo1]
      have hI2c : Inv s2 (pre ++ ⟨S, false⟩ :: []) ((s.lo + 12 + total pre + 4) :: l1) := hI2
      obtain ⟨s3, hp, hw⟩ := place_hdr_frame hI2c a16 a8 (by omega)
      rw [lo2] at hp hw
      have hseg2 := ((Seg_append _ _ _ _ _).1 hI2.seg).1
      rw [lo2] at hseg2
      have hsegp : Seg s.mem (s.lo + 12) true pre := by
        rcases hbs with rfl | ⟨psz, rfl⟩
        · exact hI.seg
        · exact ((Seg_append _ _ _ _ _).1 hI.seg).1
      refine ⟨_, s3, mm_malloc_ext hn0 hf he (by omega) hi hp, fun h0 => by omega,
        fun h c hc hh hne => ?_⟩
      have hin : IsBlock (s.lo + 12) pre h c := by
        rcases hbs with rfl | ⟨psz, rfl⟩
        · exact hh
        · rcases (IsBlock_append _ _ _ _ _).1 hh with hh | hh
          · exact hh
          · rcases IsBlock_cons.1 hh with ⟨_, e⟩ | hh
            · rw [e] at hc; cases hc
            · exact hh.elim
      rw [hw h c hc ((IsBlock_append _ _ _ _ _).2 (Or.inl hin))
        (by rw [Nat.add_sub_cancel] at hne; exact hne)]
      exact Seg_word_same hsegp hseg2 hin
    · exact ⟨0, s, mm_malloc_null hf (by omega), fun _ => rfl, fun _ _ _ _ _ => rfl⟩
  · rcases hb with hb | ⟨pre, sz, post, rfl, rfl, hsz⟩
    · exact absurd hb hb0
    · obtain ⟨s1, hp, hw⟩ := place_hdr_frame hI a16 a8 hsz
      refine ⟨_, s1, mm_malloc_fit hn0 hf hb0 hp, fun h0 => absurd h0 hb0,
        fun h c hc hh hne => ?_⟩
      exact hw h c hc hh (by rw [Nat.add_sub_cancel] at hne; exact hne)

theorem free_hdr_frame {s : State} {pre post : List Blk} {sz : Nat} {l : List Nat}
    (hI : Inv s (pre ++ ⟨sz, true⟩ :: post) l) :
    ∃ s1, mm_free s (s.lo + 12 + total pre + 4) = some s1 ∧
      ∀ h b, b.alloc = true → IsBlock (s.lo + 12) (pre ++ ⟨sz, true⟩ :: post) h b →
        h ≠ s.lo + 12 + total pre → h ≠ s.lo + 12 + total pre + sz →
        getWord s1.mem h = getWord s.mem h := by
  obtain ⟨s1, r, bs1, l1, e, hI1, ho, _, hS⟩ := mm_free_spec hI
  have hseg1 := hI1.seg
  rw [hS.lo] at hseg1
  have hseg := hI.seg
  refine ⟨s1, e, fun h b hb hh hne1 hne2 => ?_⟩
  have hno : ∀ {a k}, ¬ IsBlock a [⟨k, false⟩] h b := fun hx => by
    rcases IsBlock_cons.1 hx with ⟨_, e⟩ | hx
    · rw [e] at hb; cases hb
    · exact hx.elim
  rw [IsBlock_append, IsBlock_cons] at hh
  rcases ho with ⟨_, _, _, rfl, _⟩ | ⟨_, nsz, post1, rfl, _, rfl, _⟩ |
    ⟨_, pre1, psz, rfl, _, rfl, _⟩ | ⟨pre1, psz, nsz, post1, rfl, rfl, _, rfl, _⟩
  · refine @Seg_word_frame _ _ _ _ _ _ pre [⟨sz, true⟩] [⟨sz, false⟩] post b rfl rfl
      hseg hseg1 rfl ?_
    rcases hh with hh | ⟨e, _⟩ | hh
    · exact Or.inl hh
    · exact absurd e hne1
    · refine Or.inr ⟨IsBlock_addr (by simp only [total]; clear * -; omega) hh, fun e => ?_⟩
      exfalso
      simp only [total] at e
      exact hne2 (by clear * - e; omega)
  · refine @Seg_word_frame _ _ _ _ _ _ pre [⟨sz, true⟩, ⟨nsz, false⟩] [⟨sz + nsz, false⟩]
      post1 b rfl rfl hseg hseg1 (by simp only [total]; clear * -; omega) ?_
    rcases hh with hh | ⟨e, _⟩ | hh
    · exact Or.inl hh
    · exact absurd e hne1
    · rcases IsBlock_cons.1 hh with ⟨_, e⟩ | hh
      · rw [e] at hb; cases hb
      · exact Or.inr ⟨IsBlock_addr (by simp only [total]; clear * -; omega) hh, fun _ => rfl⟩
  · rw [IsBlock_append] at hh
    refine @Seg_word_frame _ _ _ _ _ _ pre1 [⟨psz, false⟩, ⟨sz, true⟩] [⟨sz + psz, false⟩]
      post b (by simp) rfl hseg hseg1 (by simp only [total]; clear * -; omega) ?_
    rcases hh with (hh | hh) | ⟨e, _⟩ | hh
    · exact Or.inl hh
    · exact absurd hh hno
    · exact absurd e hne1
    · refine Or.inr ⟨IsBlock_addr (by simp only [total_append, total]; clear * -; omega) hh,
        fun e => ?_⟩
      exfalso
      simp only [total_append, total] at e hne2
      exact hne2 (by clear * - e; omega)
  · rw [IsBlock_append] at hh
    refine @Seg_word_frame _ _ _ _ _ _ pre1 [⟨psz, false⟩, ⟨sz, true⟩, ⟨nsz, false⟩]
      [⟨sz + (psz + nsz), false⟩] post1 b (by simp) rfl hseg hseg1
      (by simp only [total]; clear * -; omega) ?_
    rcases hh with (hh | hh) | ⟨e, _⟩ | hh
    · exact Or.inl hh
    · exact absurd hh hno
    · exact absurd e hne1
    · rcases IsBlock_cons.1 hh with ⟨_, e⟩ | hh
      · rw [e] at hb; cases hb
      · exact Or.inr ⟨IsBlock_addr (by simp only [total_append, total]; clear * -; omega) hh,
          fun _ => rfl⟩

theorem Reachable.fit_prev {s : State} {live : List (Nat × Nat)} {asize b : Nat}
    (hr : Reachable s live) (hf : find_fit s asize = some b) (hb : b ≠ 0) :
    ∃ l pre sz post, Inv s (pre ++ ⟨sz, false⟩ :: post) l ∧ b = s.lo + 12 + total pre + 4 ∧
      asize ≤ sz ∧ sizeOf s.mem b = sz ∧ GET_PREV_ALLOC s (HDRP b) = some 1 := by
  obtain ⟨bs, l, hI, _⟩ := hr.inv
  obtain ⟨c, hf1, hc, _, _⟩ := find_fit_spec hI asize
  rw [hf] at hf1
  obtain rfl := Option.some.inj hf1
  rcases hc with h0 | ⟨pre, sz, post, rfl, rfl, hle⟩
  · exact absurd h0 hb
  · obtain ⟨_, hhd, _, _, _, hsize, _, h16, h8, _⟩ := hI.at_free
    have h32 := hI.brk_lt
    have hH : HDRP (s.lo + 12 + total pre + 4) = s.lo + 12 + total pre := by
      rw [HDRP_eq (by omega) (by omega)]; omega
    refine ⟨l, pre, sz, post, hI, rfl, hle, ?_, ?_⟩
    · unfold sizeOf
      rw [Nat.add_sub_cancel]
      exact mask_tag hhd (getWord_lt _ _) h8
    · rw [hH]
      exact GET_PREV_ALLOC_tag (by omega) (by omega) hhd h8

theorem dropLast_walk {α : Type} (a e : α) (h : List α) :
    (a :: (h ++ [e])).dropLast = a :: h ∧ (a :: (h ++ [e])).tail.dropLast = h := by
  constructor
  · rw [← List.cons_append, List.dropLast_concat]
  · rw [List.tail_cons, List.dropLast_concat]

theorem Kept.of_block {s s1 : State} {bs bs1 : List Blk} {x : Nat × Nat} {nb : Nat}
    (hs : Seg s.mem (s.lo + 12) true bs) (hs1 : Seg s1.mem (s.lo + 12) true bs1)
    (ht : s.lo + 12 + total bs + 4 ≤ 4294967296)
    (hx : x ∈ hdrs (s.lo + 12) true bs) (hal : x.2 &&& 1 = 1)
    (hk : IsBlock (s.lo + 12) bs x.1 ⟨x.2 &&& 0xFFFFFFF8, true⟩ →
      IsBlock (s.lo + 12) bs1 x.1 ⟨x.2 &&& 0xFFFFFFF8, true⟩ ∧
      (∀ y, x.1 + 4 ≤ y → y < x.1 + (x.2 &&& 0xFFFFFFF8) → s1.mem y = s.mem y) ∧
      (x.1 ≠ nb → getWord s1.mem x.1 = getWord s.mem x.1)) :
    Kept s s1 x nb := by
  obtain ⟨hb, hw⟩ := hdrs_alloc hs ht hx hal
  obtain ⟨hb1, hfr, hwd⟩ := hk hb
  obtain ⟨pa, h0⟩ := Seg_block hs hb
  obtain ⟨pa1, h1⟩ := Seg_block hs1 hb1
  have h8 := (IsBlock_mod (Seg.sized hs) hb).2.2
  simp only [] at h0 h1 h8
  refine ⟨hfr, ?_, ?_, fun hne => by rw [hw]; exact hwd hne⟩
  · rw [mask_tag h1 (getWord_lt _ _) h8]
  · rw [alloc_tag h1 h8, hal]; rfl

/-- C21: in a reachable state, `mm_free(p)` of a live block returns and leaves `free_list`
pointing to the merged block `r`, which starts at the free lower neighbour of `p` if there is
one and at `p` otherwise and contains the block of `p`; the `PRED` link of `r` is `NULL`, and
the free list in `SUCC` order is `r` followed by the former list, in its former order, without
`r` and without the upper neighbour of `p`. -/
theorem C21_free_lifo {s : State} {live : List (Nat × Nat)} {p n : Nat} {l : List Nat}
    (hr : Reachable s live) (hp : (p, n) ∈ live) (hl : freeList s = some l) :
    ∃ s1 r, mm_free s p = some s1 ∧ r = p - prevFreeSize s p ∧ s1.free_list = r ∧
      GET_WORD s1 (PRED r) = some 0 ∧ r ≤ p ∧ p + sizeOf s.mem p ≤ r + sizeOf s1.mem r ∧
      freeList s1 = some (r :: l.filter fun f => f ≠ r ∧ f ≠ p + sizeOf s.mem p) := by
  obtain ⟨bs, hI, hL⟩ := hr.at_freeList hl
  obtain ⟨hp4, k, hblk, _⟩ := hL.block hp
  obtain ⟨s1, bs1, l1, P, Q, e, hsz, hI1, lo1, rfl, hr1⟩ := free_full hI hp4 hblk
  obtain ⟨pre, post, rfl, hpa⟩ := IsBlock_iff.1 hblk
  have hpe : s.lo + 12 + total pre + 4 = p := by clear * - hpa hp4; omega
  obtain ⟨s2, r, bs2, l2, e2, hI2, ho, _, _⟩ := mm_free_spec hI
  rw [hpe, e] at e2
  obtain rfl := Option.some.inj e2
  have hfl := hI2.freeList_eq.1
  rw [hI1.freeList_eq.1] at hfl
  obtain ⟨rfl, rfl⟩ := List.cons.inj (Option.some.inj hfl)
  have hlist := ho.list hI.blocks_sized hI.nodup hI.mem_iff
  rw [hpe, ← hsz] at hlist
  obtain ⟨_, hhd, _, _, _, hsize, _, hS16, hS8, _⟩ := hI1.at_free
  obtain ⟨h1, _, h3, _⟩ := FLseg_cons.1 hI1.fl
  have hszr : sizeOf s1.mem (p - prevFreeSize s p) = k + prevFreeSize s p + nextFreeSize s p := by
    unfold sizeOf
    rw [hr1, ← lo1, show s1.lo + 12 + total P + 4 - 4 = s1.lo + 12 + total P from by omega]
    exact mask_tag hhd (getWord_lt _ _) hS8
  refine ⟨s1, _, e, rfl, h1, ?_, Nat.sub_le _ _, by rw [hszr, hsz]; clear * - hp4 hr1; omega, ?_⟩
  · unfold PRED
    rw [GET_WORD_eq (by rw [hr1, lo1]; clear * -; omega)
      (by rw [hr1, ← lo1]; clear * - hsize hS16; omega), h3]
  · rw [hI1.freeList_eq.1, hlist]

/-- C21 witness: the block at 136 freed in the state with free list 88, 24, 152, where the
blocks at 88 and 152 are its neighbours. -/
theorem C21_witness :
    (136, 8) ∈ [(136, 8), (72, 8)] ∧ freeList sSix = some [88, 24, 152] ∧
    ∃ s1 r, mm_free sSix 136 = some s1 ∧ r = 136 - prevFreeSize sSix 136 ∧ s1.free_list = r ∧
      GET_WORD s1 (PRED r) = some 0 ∧ r ≤ 136 ∧
      136 + sizeOf sSix.mem 136 ≤ r + sizeOf s1.mem r ∧
      freeList s1
        = some (r :: [88, 24, 152].filter fun f => f ≠ r ∧ f ≠ 136 + sizeOf sSix.mem 136) :=
  ⟨by decide, rfl, C21_free_lifo (n := 8) reach_sSix (by decide) rfl⟩

/-- In every state reached by calls whose sizes do not wrap, the header of a block returned by
`find_fit` has `prev_alloc` 1, and when the block is too small to be split `place` returns and
leaves its header with `alloc` 1 and `prev_alloc` still 1. -/
theorem Reachable.fit_place_prev {s : State} {live : List (Nat × Nat)} {asize b : Nat}
    (hr : Reachable s live) (hf : find_fit s asize = some b) (hb : b ≠ 0)
    (hns : sizeOf s.mem b < asize + 16) :
    GET_PREV_ALLOC s (HDRP b) = some 1 ∧
      ∃ s1, place s b asize = some s1 ∧ GET_ALLOC s1 (HDRP b) = some 1 ∧
        GET_PREV_ALLOC s1 (HDRP b) = some 1 := by
  obtain ⟨l, pre, sz, post, hI, rfl, hle, hsz, hpa⟩ := hr.fit_prev hf hb
  rw [hsz] at hns
  obtain ⟨_, _, _, hlast, _, hsize, _, h16, h8, _⟩ := hI.at_free
  obtain ⟨s1, l1, l2, e, _, hI1, _, lo1, brk1, _⟩ := place_nosplit hI hle hns
  have h32 := hI.brk_lt
  have hH : HDRP (s.lo + 12 + total pre + 4) = s.lo + 12 + total pre := by
    rw [HDRP_eq (by omega) (by omega)]; omega
  have hw := (Seg_cons.1 ((Seg_append _ _ _ _ _).1 hI1.seg).2).1
  rw [hlast, lo1] at hw
  simp only [] at hw
  refine ⟨hpa, s1, e, ?_, ?_⟩
  · rw [hH]
    exact GET_ALLOC_tag (by rw [lo1]; omega) (by rw [brk1]; omega) hw h8
  · rw [hH]
    exact GET_PREV_ALLOC_tag (by rw [lo1]; omega) (by rw [brk1]; omega) hw h8

/-- C24: in a reachable state `mm_malloc(n)` and `mm_free(p)` of a live block return, and
every block between the prologue and the epilogue whose header had `alloc` 1 in the heap walk
before the call, the freed block apart, keeps its payload bytes and the size and `alloc`
fields of its header; its header word is unchanged unless the block lies right above the
block returned or freed.  A `mm_malloc` that returns `NULL` leaves the state unchanged. -/
theorem C24_frame {s : State} {live : List (Nat × Nat)} {ws : List (Nat × Nat)}
    (hr : Reachable s live) (hws : heapWalk s = some ws) :
    (∀ n, n + 11 < M32 → ∃ p s1, mm_malloc s n = some (p, s1) ∧ (p = 0 → s1 = s) ∧
      ∀ x ∈ ws.tail.dropLast, x.2 &&& 1 = 1 → Kept s s1 x (p - 4 + sizeOf s1.mem p)) ∧
    (∀ p n, (p, n) ∈ live → ∃ s1, mm_free s p = some s1 ∧
      ∀ x ∈ ws.tail.dropLast, x.2 &&& 1 = 1 → x.1 ≠ p - 4 →
        Kept s s1 x (p - 4 + sizeOf s.mem p)) := by
  obtain ⟨bs, l, hI, hL⟩ := hr.inv
  rw [hI.heapWalk_eq] at hws
  obtain rfl := Option.some.inj hws
  rw [(dropLast_walk _ _ _).2]
  have hsize := hI.size
  have h32 := hI.brk_lt
  have ht : s.lo + 12 + total bs + 4 ≤ 4294967296 := by clear * - hsize h32; omega
  refine ⟨fun n hn32 => ?_, fun p n hp => ?_⟩
  · by_cases hn : n = 0
    · subst hn
      refine ⟨0, s, mm_malloc_zero s, fun _ => rfl, fun x hx hal => ?_⟩
      exact Kept.of_block hI.seg hI.seg ht hx hal fun hb => ⟨hb, fun _ _ _ => rfl, fun _ => rfl⟩
    · obtain ⟨p, s1, bs1, l1, e, hI1, hfr, hkeep, lo1, _, _, _⟩ :=
        mm_malloc_spec hI (Nat.pos_of_ne_zero hn) hn32
      obtain ⟨p2, s2, e2, h0, hw⟩ := malloc_hdr_frame hI (Nat.pos_of_ne_zero hn) hn32
      rw [e] at e2
      obtain ⟨rfl, rfl⟩ := Prod.mk.inj (Option.some.inj e2)
      have hs1 := hI1.seg
      rw [lo1] at hs1
      refine ⟨p, s1, e, h0, fun x hx hal => ?_⟩
      exact Kept.of_block hI.seg hs1 ht hx hal fun hb =>
        ⟨hkeep _ _ rfl hb, fun y h1 h2 => hfr y (InAlloc_of_block hb h1 h2),
          hw _ _ rfl hb⟩
  · obtain ⟨hp4, k, hblk, _⟩ := hL.block hp
    have hk := (hI.block_words hblk).2.2.1
    obtain ⟨pre, post, rfl, hpa⟩ := IsBlock_iff.1 hblk
    have hpe : s.lo + 12 + total pre + 4 = p := by clear * - hpa hp4; omega
    obtain ⟨s1, r, bs1, l1, e, hI1, ho, hfr, hS⟩ := mm_free_spec hI
    obtain ⟨s2, e2, hw⟩ := free_hdr_frame hI
    rw [e] at e2
    obtain rfl := Option.some.inj e2
    rw [hpe] at e
    have hs1 := hI1.seg
    rw [hS.lo] at hs1
    have hsz : sizeOf s.mem p = k := hk
    refine ⟨s1, e, fun x hx hal hne => ?_⟩
    rw [hsz]
    exact Kept.of_block hI.seg hs1 ht hx hal fun hb =>
      ⟨ho.keep _ _ rfl hb (by rw [← hpa]; exact hne),
        fun y h1 h2 => hfr y (InAlloc_of_block
          (ho.keep _ _ rfl hb (by rw [← hpa]; exact hne)) h1 h2),
        fun hnb => hw _ _ rfl hb (by rw [← hpa]; exact hne) (by rw [← hpa]; exact hnb)⟩

/-- C24 witness: a request of 40 bytes, which takes the free block at 88 whole and so sets
`prev_alloc` in the header at 132, and `mm_free(72)`, in the state with allocated blocks at 72
and 136 and free blocks at 24, 88 and 152. -/
theorem C24_witness :
    heapWalk sSix
      = some [(12, 9), (20, 50), (68, 17), (84, 50), (132, 17), (148, 3970), (4116, 1)] ∧
    (∃ p s1, mm_malloc sSix 40 = some (p, s1) ∧ (p = 0 → s1 = sSix) ∧
      ∀ x ∈ [(12, 9), (20, 50), (68, 17), (84, 50), (132, 17), (148, 3970),
          (4116, 1)].tail.dropLast,
        x.2 &&& 1 = 1 → Kept sSix s1 x (p - 4 + sizeOf s1.mem p)) ∧
    (∃ s1, mm_free sSix 72 = some s1 ∧
      ∀ x ∈ [(12, 9), (20, 50), (68, 17), (84, 50), (132, 17), (148, 3970),
          (4116, 1)].tail.dropLast,
        x.2 &&& 1 = 1 → x.1 ≠ 72 - 4 → Kept sSix s1 x (72 - 4 + sizeOf sSix.mem 72)) :=
  ⟨rfl, (C24_frame reach_sSix rfl).1 40 (by decide),
    (C24_frame reach_sSix rfl).2 72 8 (by decide)⟩

end MallocLab
